import Mathlib

/-!
# A verification development for the shell: its pipeline parser (parse.c) and
its executor (shell.c)

The parser is embedded as explicit state passing over `parser_t`; the executor
is embedded further down, over a table of open file descriptors.

* The caller's line buffer is a `List Char`; a `char *` into it is an index.
  Reading at or past the end of the list reads the terminating NUL, so every
  list is a NUL-terminated buffer and the C string it holds is the part before
  the first NUL.
* `command_t` objects live in a heap `cmds : List command_t`; a `command_t *` is
  an index into it and `NULL` is `none`.  `alloc` and `realloc_array` are taken
  to succeed (on failure the program exits).
* `int` counters (`argc`, `capacity`, `valid`) are natural numbers; `capacity`
  stays far below `2^31` for any line shorter than `2^31` bytes.
* A failed `assert`, a dereference of `NULL` and an exhausted recursion budget
  are the three faults a run can end in.
-/

namespace Shell

/-! ## Characters -/

/-- The NUL character that terminates a C string. -/
def NUL : Char := Char.ofNat 0

/-- The libc predicate `isspace` in the "C" locale: space, `\t`, `\n`, `\v`,
`\f` and `\r` (codes 32 and 9 to 13). -/
def isspace (c : Char) : Bool :=
  c.toNat = 32 || (9 ≤ c.toNat && c.toNat ≤ 13)

/-! ## Data model (parse.h, parse.c) -/

/-- The enum `token_type_t`. -/
inductive token_type_t where
  | TOKEN_NONE
  | TOKEN_EOF
  | TOKEN_PIPE
  | TOKEN_OUT_REDIRECT
  | TOKEN_WORD
  deriving DecidableEq, Repr

open token_type_t

/-- The struct `token_t`; `begin` is a pointer into the line buffer.  For an EOF
token the C field is never written nor read; the model stores 0 there. -/
structure token_t where
  type : token_type_t
  begin : Nat
  deriving DecidableEq, Repr

/-- The content of a `char *` slot: not yet written, `NULL`, or the address of a
character of the line buffer. -/
inductive char_ptr where
  | indeterminate
  | null
  | addr (a : Nat)
  deriving DecidableEq, Repr

/-- The struct `command_t`.  `argv` lists the `capacity` allocated slots. -/
structure command_t where
  argv : List char_ptr
  argc : Nat
  capacity : Nat
  outfile : char_ptr
  next : Option Nat
  deriving DecidableEq, Repr

/-- The struct `root_t`. -/
structure root_t where
  valid : Nat
  first_command : Option Nat
  deriving DecidableEq, Repr

/-- The struct `parser_t`, together with the memory it points into: the line
buffer `buf` (of which `input` is an index) and the heap `cmds` of allocated
commands; `root` is the object `p->root` points to. -/
structure parser_t where
  buf : List Char
  input : Nat
  prev_token : token_t
  root : root_t
  cmds : List command_t
  current_command : Option Nat
  deriving DecidableEq, Repr

/-- The ways a run can end without returning. -/
inductive Fault where
  | assertion
  | null_deref
  | out_of_fuel
  deriving DecidableEq, Repr

deriving instance DecidableEq for Except

/-! ## Memory access -/

/-- The character `*q` for a pointer `q` into the buffer; the terminating NUL
is read at the end of the list. -/
def deref (buf : List Char) (q : Nat) : Char := buf.getD q NUL

/-- The loop `while (*q && cond(*q)) ++q;` run on the memory `mem` that starts
at `q`; the result is the final `q`. -/
def advance_while (cond : Char → Bool) : List Char → Nat → Nat
  | [], q => q
  | c :: mem, q => if c ≠ NUL ∧ cond c = true then advance_while cond mem (q + 1) else q

/-- The libc function `strncmp` on the memory at the two pointers: the
difference of the first two differing characters among the first `n`, 0 when
there is none before a NUL. -/
def strncmp : List Char → List Char → Nat → Int
  | _, _, 0 => 0
  | s1, s2, n + 1 =>
    let c1 := s1.headD NUL
    let c2 := s2.headD NUL
    if c1 ≠ c2 then (c1.toNat : Int) - (c2.toNat : Int)
    else if c1 = NUL then 0
    else strncmp s1.tail s2.tail n

/-- The object `p->current_command` points to. -/
def current (p : parser_t) : Except Fault command_t :=
  match p.current_command with
  | none => .error .null_deref
  | some a =>
    match p.cmds[a]? with
    | none => .error .null_deref
    | some c => .ok c

/-- Store `c` in the object `p->current_command` points to. -/
def set_current (p : parser_t) (c : command_t) : Except Fault parser_t :=
  match p.current_command with
  | none => .error .null_deref
  | some a => if a < p.cmds.length then .ok { p with cmds := p.cmds.set a c } else .error .null_deref

/-- The function `realloc_array` of alloc.c on an array of `char *`: the first
`nmemb` slots are kept, the new ones are indeterminate. -/
def realloc_array (argv : List char_ptr) (nmemb : Nat) : List char_ptr :=
  argv.take nmemb ++ List.replicate (nmemb - argv.length) char_ptr.indeterminate

/-! ## The tokenizer (parse.c, lines 222 to 277) -/

/-- The function `get_token`. -/
def get_token (p : parser_t) : Except Fault (token_t × parser_t) :=
  -- Check for a recently putback token.
  if p.prev_token.type ≠ TOKEN_NONE then
    .ok (p.prev_token, { p with prev_token := { p.prev_token with type := TOKEN_NONE } })
  else
    -- Skip whitespace.
    let input := advance_while isspace (p.buf.drop p.input) p.input
    if ¬ (deref p.buf input = NUL ∨ isspace (deref p.buf input) = false) then
      .error .assertion
    -- Check for EOF.
    else if deref p.buf input = NUL then
      .ok ({ type := TOKEN_EOF, begin := 0 }, { p with input := input })
    else
      -- Find a token.
      let begin := input
      let input := input + 1
      let input := advance_while (fun c => !isspace c) (p.buf.drop input) input
      let token_end := input
      if ¬ (token_end > begin ∧ (deref p.buf input = NUL ∨ isspace (deref p.buf input) = true)) then
        .error .assertion
      else
        -- Set token type.
        let type :=
          if strncmp (p.buf.drop begin) ['|'] (token_end - begin) = 0 then TOKEN_PIPE
          else if strncmp (p.buf.drop begin) ['>'] (token_end - begin) = 0 then TOKEN_OUT_REDIRECT
          else TOKEN_WORD
        -- Null-terminate token.
        if deref p.buf input ≠ NUL then
          .ok ({ type := type, begin := begin },
               { p with buf := p.buf.set input NUL, input := input + 1 })
        else
          .ok ({ type := type, begin := begin }, { p with input := input })

/-- The function `putback_token`. -/
def putback_token (p : parser_t) (t : token_t) : Except Fault parser_t :=
  if ¬ (p.prev_token.type = TOKEN_NONE ∧ t.type ≠ TOKEN_NONE) then .error .assertion
  else .ok { p with prev_token := t }

/-- The function `expect_token`. -/
def expect_token (p : parser_t) (type : token_type_t) : Except Fault (Nat × parser_t) := do
  let (t, p) ← get_token p
  if t.type = type then return (1, p)
  let p ← putback_token p t
  return (0, p)

/-! ## Building the representation (parse.c, lines 279 to 323) -/

/-- The function `add_root`. -/
def add_root (p : parser_t) : parser_t :=
  { p with root := { valid := 0, first_command := none } }

/-- The function `add_command`. -/
def add_command (p : parser_t) : Except Fault parser_t :=
  let c : command_t :=
    { argv := [char_ptr.indeterminate], argc := 0, capacity := 1, next := none,
      outfile := char_ptr.null }
  let a := p.cmds.length
  let p := { p with cmds := p.cmds ++ [c] }
  match p.current_command with
  | none =>
    .ok { p with root := { p.root with first_command := some a }, current_command := some a }
  | some _ => do
    let cur ← current p
    let p ← set_current p { cur with next := some a }
    return { p with current_command := some a }

/-- The function `check_capacity`. -/
def check_capacity (p : parser_t) : Except Fault parser_t := do
  let c ← current p
  let index := c.argc
  if ¬ (index ≤ c.capacity) then .error .assertion
  else if index = c.capacity then
    set_current p { c with argv := realloc_array c.argv (2 * c.capacity),
                           capacity := 2 * c.capacity }
  else return p

/-- The function `add_word_to_command`. -/
def add_word_to_command (p : parser_t) (t : token_t) : Except Fault parser_t := do
  let p ← check_capacity p
  let c ← current p
  set_current p { c with argv := c.argv.set c.argc (char_ptr.addr t.begin), argc := c.argc + 1 }

/-- The function `add_NULL_to_command`. -/
def add_NULL_to_command (p : parser_t) : Except Fault parser_t := do
  let p ← check_capacity p
  let c ← current p
  set_current p { c with argv := c.argv.set c.argc char_ptr.null, argc := c.argc + 1 }

/-- The function `add_outfile`. -/
def add_outfile (p : parser_t) (t : token_t) : Except Fault parser_t := do
  let c ← current p
  set_current p { c with outfile := char_ptr.addr t.begin }

/-! ## The recursive descent (parse.c, lines 140 to 220)

Each recursive call of the C code spends one unit of `fuel`. -/

/-- The function `parse_simple_command_prime`. -/
def parse_simple_command_prime : Nat → parser_t → Except Fault (Nat × parser_t)
  | 0, _ => .error .out_of_fuel
  | fuel + 1, p => do
    let (t, p) ← get_token p
    if t.type = TOKEN_WORD then
      let p ← add_word_to_command p t
      parse_simple_command_prime fuel p
    else
      let p ← putback_token p t
      return (1, p)

/-- The function `parse_simple_command`. -/
def parse_simple_command (fuel : Nat) (p : parser_t) : Except Fault (Nat × parser_t) := do
  let (t, p) ← get_token p
  if t.type = TOKEN_WORD then
    let p ← add_word_to_command p t
    parse_simple_command_prime fuel p
  else
    return (0, p)

/-- The function `parse_command`. -/
def parse_command (fuel : Nat) (p : parser_t) : Except Fault (Nat × parser_t) := do
  let p ← add_command p
  let (r, p) ← parse_simple_command fuel p
  if r ≠ 0 then
    let (t, p) ← get_token p
    if t.type = TOKEN_OUT_REDIRECT then
      let (t, p) ← get_token p
      if t.type = TOKEN_WORD then
        let p ← add_outfile p t
        return (1, p)
      else
        return (0, p)
    else
      let p ← putback_token p t
      return (1, p)
  else
    return (0, p)

/-- The function `parse_pipeline_prime`. -/
def parse_pipeline_prime : Nat → parser_t → Except Fault (Nat × parser_t)
  | 0, _ => .error .out_of_fuel
  | fuel + 1, p => do
    let (t, p) ← get_token p
    if t.type = TOKEN_PIPE then
      let p ← add_NULL_to_command p
      let (r, p) ← parse_command fuel p
      if r ≠ 0 then parse_pipeline_prime fuel p else return (0, p)
    else
      let p ← putback_token p t
      return (1, p)

/-- The function `parse_pipeline`. -/
def parse_pipeline (fuel : Nat) (p : parser_t) : Except Fault (Nat × parser_t) := do
  let (t, p) ← get_token p
  if t.type = TOKEN_EOF then return (1, p)
  let p ← putback_token p t
  let (r, p) ← parse_command fuel p
  if r = 0 then return (0, p)
  let (r, p) ← parse_pipeline_prime fuel p
  if r = 0 then return (0, p)
  let (r, p) ← expect_token p TOKEN_EOF
  if r ≠ 0 then
    let p ← add_NULL_to_command p
    return (1, p)
  else
    return (0, p)

/-- The function `parse`, returning the final state of the parser: its `root`
is the object the C function returns a pointer to, `cmds` the heap the command
chain lives in, `buf` the caller's line as the parser leaves it.  The recursion
budget is the length of the line plus one. -/
def parse (input : List Char) : Except Fault parser_t := do
  let parser : parser_t :=
    { buf := input, input := 0, prev_token := { type := TOKEN_NONE, begin := 0 },
      root := { valid := 0, first_command := none }, cmds := [], current_command := none }
  let parser := add_root parser
  let parser := { parser with current_command := none }
  let (r, parser) ← parse_pipeline (input.length + 1) parser
  return { parser with root := { parser.root with valid := r } }


/-! ## The executor (shell.c)

The body of the read loop of `main` for one line is embedded over an explicit
table of the shell's open file descriptors.

* A descriptor table is a `List (Option file_t)`: slot `fd` holds what
  descriptor `fd` refers to, `none` when it is closed.  `pipe`, `open` and `dup`
  return the lowest descriptor that is not open, as POSIX prescribes.
* Every system call is taken to succeed, except `dup` and `close` of a
  descriptor that is not open, whose failure `main` ignores; the branches in
  which `main` reports a failed `pipe`, `open` or `fork` and exits are not
  taken.
* `fork` is recorded as an event that holds the descriptor table the child
  starts from and the table it has reached when it calls `execvp`.
* The field `infile` that `main` reads from a command is not declared in
  parse.h; it is the parameter `infile` of the functions below.
-/

/-- The flags of `<fcntl.h>` that `main` passes to `open`. -/
inductive open_flag where
  | O_RDONLY
  | O_WRONLY
  | O_CREAT
  | O_TRUNC
  deriving DecidableEq, Repr

open open_flag

/-- What an open descriptor refers to: a file the shell was started with, an
end of the pipe number `id`, or the file at `path` opened with `flags`. -/
inductive file_t where
  | inherited (fd : Nat)
  | pipe_read (id : Nat)
  | pipe_write (id : Nat)
  | file (path : char_ptr) (flags : List open_flag)
  deriving DecidableEq, Repr

/-- The table of open descriptors of a process. -/
abbrev fd_table := List (Option file_t)

/-- What the descriptor `fd` refers to, `none` when it is not open. -/
def fd_get (t : fd_table) (fd : Nat) : Option file_t := (t[fd]?).getD none

/-- The lowest descriptor that is not open. -/
def lowest_free (t : fd_table) : Nat := t.findIdx (fun x => decide (x = none))

/-- The table in which the descriptor `fd` refers to `x`. -/
def fd_put (t : fd_table) (fd : Nat) (x : file_t) : fd_table :=
  if fd < t.length then t.set fd (some x)
  else t ++ List.replicate (fd - t.length) none ++ [some x]

/-- The system call `close(fd)`; on a descriptor that is not open it fails and
changes nothing. -/
def sys_close (t : fd_table) (fd : Nat) : fd_table := t.set fd none

/-- The system call `dup(oldfd)`; on a descriptor that is not open it fails and
changes nothing. -/
def sys_dup (t : fd_table) (oldfd : Nat) : fd_table :=
  match fd_get t oldfd with
  | none => t
  | some x => fd_put t (lowest_free t) x

/-- The system call `open(path, flags, mode)`: the descriptor returned and the
new table. -/
def sys_open (t : fd_table) (path : char_ptr) (flags : List open_flag) : Nat × fd_table :=
  (lowest_free t, fd_put t (lowest_free t) (file_t.file path flags))

/-- The system call `pipe(fds)` creating the pipe number `id`: the pair
`(fds[0], fds[1])` of its read end and write end, and the new table. -/
def sys_pipe (t : fd_table) (id : Nat) : (Nat × Nat) × fd_table :=
  let t1 := fd_put t (lowest_free t) (file_t.pipe_read id)
  ((lowest_free t, lowest_free t1), fd_put t1 (lowest_free t1) (file_t.pipe_write id))

/-- A child process: the command it runs, the descriptor table it inherits at
`fork`, the table it has when it calls `execvp`, and the array `myargs`. -/
structure child_t where
  command : command_t
  at_fork : fd_table
  at_exec : fd_table
  myargs : List char_ptr
  deriving DecidableEq, Repr

/-- The system calls the shell process makes, as they are logged. -/
inductive event where
  | pipe (read_end write_end : Nat)
  | opened (path : char_ptr) (flags : List open_flag) (mode : Nat) (fd : Nat)
  | fork (child : child_t)
  | close (fd : Nat)
  deriving DecidableEq, Repr

/-- The state of the shell process while it runs a pipeline: its descriptor
table, the number of pipes created, the log of its system calls, and the local
variables `sourcePipe`, `destPipe`, `outfile` and `infile` of `main`. -/
structure shell_t where
  fds : fd_table
  pipes : Nat
  log : List event
  sourcePipe : Nat × Nat
  destPipe : Nat × Nat
  outfile : Nat
  infile : Nat
  deriving DecidableEq, Repr

/-- The statement `close(fd);` in the shell process. -/
def do_close (s : shell_t) (fd : Nat) : shell_t :=
  { s with fds := sys_close s.fds fd, log := s.log ++ [event.close fd] }

/-- Lines 41 to 48: `if (cmd->next != NULL) pipe(destPipe);`. -/
def make_pipe (c : command_t) (s : shell_t) : shell_t :=
  if c.next ≠ none then
    { s with fds := (sys_pipe s.fds s.pipes).2, pipes := s.pipes + 1,
             destPipe := (sys_pipe s.fds s.pipes).1,
             log := s.log ++ [event.pipe (sys_pipe s.fds s.pipes).1.1
               (sys_pipe s.fds s.pipes).1.2] }
  else s

/-- Lines 50 to 56:
`if (cmd->outfile) outfile = open(cmd->outfile, O_WRONLY | O_CREAT, 0644);`. -/
def open_outfile (c : command_t) (s : shell_t) : shell_t :=
  if c.outfile ≠ char_ptr.null then
    { s with fds := (sys_open s.fds c.outfile [O_WRONLY, O_CREAT]).2,
             outfile := (sys_open s.fds c.outfile [O_WRONLY, O_CREAT]).1,
             log := s.log ++ [event.opened c.outfile [O_WRONLY, O_CREAT] 0o644
               (sys_open s.fds c.outfile [O_WRONLY, O_CREAT]).1] }
  else s

/-- Lines 58 to 64: `if (cmd->infile) infile = open(cmd->infile, O_RDONLY, 0644);`. -/
def open_infile (infile : command_t → char_ptr) (c : command_t) (s : shell_t) : shell_t :=
  if infile c ≠ char_ptr.null then
    { s with fds := (sys_open s.fds (infile c) [O_RDONLY]).2,
             infile := (sys_open s.fds (infile c) [O_RDONLY]).1,
             log := s.log ++ [event.opened (infile c) [O_RDONLY] 0o644
               (sys_open s.fds (infile c) [O_RDONLY]).1] }
  else s

/-- Lines 72 to 77: the child routes its standard input. -/
def child_source (s : shell_t) (t : fd_table) : fd_table :=
  if s.sourcePipe.1 ≠ 0 then
    sys_close (sys_close (sys_dup (sys_close t 0) s.sourcePipe.1) s.sourcePipe.1)
      s.sourcePipe.2
  else t

/-- Lines 79 to 84: the child routes its standard output to the pipe. -/
def child_dest (s : shell_t) (t : fd_table) : fd_table :=
  if s.destPipe.1 ≠ 0 then
    sys_close (sys_close (sys_dup (sys_close t 1) s.destPipe.2) s.destPipe.1) s.destPipe.2
  else t

/-- Lines 85 to 89: the child routes its standard output to the file. -/
def child_outfile (s : shell_t) (t : fd_table) : fd_table :=
  if s.outfile ≠ 0 then sys_close (sys_dup (sys_close t 1) s.outfile) s.outfile else t

/-- Lines 90 to 94: the child routes its standard input from the file. -/
def child_infile (s : shell_t) (t : fd_table) : fd_table :=
  if s.infile ≠ 0 then sys_close (sys_dup (sys_close t 0) s.infile) s.infile else t

/-- Lines 70 to 105: what the child does between `fork` and `execvp`. -/
def child (c : command_t) (s : shell_t) : child_t :=
  { command := c, at_fork := s.fds,
    at_exec := child_infile s (child_outfile s (child_dest s (child_source s s.fds))),
    myargs := c.argv.take c.argc ++ [char_ptr.null] }

/-- Line 66: `fork()`, seen from the shell process. -/
def spawn (c : command_t) (s : shell_t) : shell_t :=
  { s with log := s.log ++ [event.fork (child c s)] }

/-- Lines 108 to 113: the shell closes the source pipe and makes the
destination pipe the source pipe of the next command. -/
def rotate (s : shell_t) : shell_t :=
  let s := if s.sourcePipe.1 ≠ 0 then do_close s s.sourcePipe.1 else s
  let s := if s.sourcePipe.2 ≠ 0 then do_close s s.sourcePipe.2 else s
  { s with sourcePipe := s.destPipe, destPipe := (0, 0) }

/-- Lines 115 to 118: the shell closes the files it opened for the command. -/
def close_files (s : shell_t) : shell_t :=
  let s := if s.outfile ≠ 0 then do_close s s.outfile else s
  let s := if s.infile ≠ 0 then do_close s s.infile else s
  { s with outfile := 0, infile := 0 }

/-- Lines 41 to 118: the body of the loop `while (cmd != NULL)` for the command
`c`. -/
def stage (infile : command_t → char_ptr) (c : command_t) (s : shell_t) : shell_t :=
  close_files (rotate (spawn c (open_infile infile c (open_outfile c (make_pipe c s)))))

/-- Lines 39 to 121: the loop `while (cmd != NULL)` from the command at `cmd` on,
in the heap `cmds`. -/
def stage_loop (infile : command_t → char_ptr) (cmds : List command_t) :
    Nat → Option Nat → shell_t → Except Fault shell_t
  | _, none, s => .ok s
  | 0, some _, _ => .error .out_of_fuel
  | fuel + 1, some a, s =>
    match cmds[a]? with
    | none => .error .null_deref
    | some c => stage_loop infile cmds fuel c.next (stage infile c s)

/-- Lines 24 to 124: the shell runs the pipeline whose first command is at
`first`. -/
def execute (infile : command_t → char_ptr) (cmds : List command_t) (first : Option Nat)
    (fuel : Nat) (s : shell_t) : Except Fault shell_t := do
  let s := { s with sourcePipe := (0, 0), destPipe := (0, 0), outfile := 0, infile := 0 }
  let s ← stage_loop infile cmds fuel first s
  let s := if s.sourcePipe.1 ≠ 0 then do_close s s.sourcePipe.1 else s
  let s := if s.sourcePipe.2 ≠ 0 then do_close s s.sourcePipe.2 else s
  return s

/-- Lines 18 to 124: the shell parses the line and, when it is valid, runs its
pipeline; the loop is given one unit of fuel more than there are commands in
the heap. -/
def shell_line (infile : command_t → char_ptr) (line : List Char) (s : shell_t) :
    Except Fault shell_t := do
  let p ← parse line
  if p.root.valid = 0 then return s
  execute infile p.cmds p.root.first_command (p.cmds.length + 1) s
/-! ## Reading the result back -/

/-- The C string stored at address `a` of the buffer: the characters from `a`
up to the next NUL. -/
def c_string (buf : List Char) (a : Nat) : List Char :=
  (buf.drop a).takeWhile (fun c => c ≠ NUL)

/-- The whitespace-separated tokens of the C string held in `line`. -/
def tokens (line : List Char) : List (List Char) :=
  ((c_string line 0).splitOnP isspace).filter (fun w => w ≠ [])

/-- The type of the token with text `w`: PIPE for `|`, OUT_REDIRECT for `>`,
WORD for any other text. -/
def token_type (w : List Char) : token_type_t :=
  if w = ['|'] then TOKEN_PIPE else if w = ['>'] then TOKEN_OUT_REDIRECT else TOKEN_WORD

/-! ## Lexemes -/

/-- A token of the line together with the address of its first character. -/
structure Lexeme where
  begin : Nat
  text : List Char
  deriving DecidableEq, Repr

/-- The token `get_token` returns for a lexeme. -/
def Lexeme.token (l : Lexeme) : token_t := { type := token_type l.text, begin := l.begin }

/-- The statement `Lexes mem q ls`: the memory `mem` starting at address `q` holds
exactly the lexemes `ls`, separated by whitespace, up to its terminating NUL. -/
inductive Lexes : List Char → Nat → List Lexeme → Prop where
  | eof (ws rest : List Char) (q : Nat) :
      (∀ c ∈ ws, isspace c = true) → rest.headD NUL = NUL → Lexes (ws ++ rest) q []
  | last (ws w rest : List Char) (q : Nat) :
      (∀ c ∈ ws, isspace c = true) → w ≠ [] → (∀ c ∈ w, c ≠ NUL ∧ isspace c = false) →
      rest.headD NUL = NUL → Lexes (ws ++ (w ++ rest)) q [⟨q + ws.length, w⟩]
  | more (ws w : List Char) (d : Char) (rest : List Char) (q : Nat) (ls : List Lexeme) :
      (∀ c ∈ ws, isspace c = true) → w ≠ [] → (∀ c ∈ w, c ≠ NUL ∧ isspace c = false) →
      isspace d = true → Lexes rest (q + ws.length + w.length + 1) ls →
      Lexes (ws ++ (w ++ d :: rest)) q (⟨q + ws.length, w⟩ :: ls)

/-- The statement `Sealed buf q l`: the lexeme `l` lies before address `q` in
`buf` and its text is followed by a NUL, so it reads back as a C string. -/
def Sealed (buf : List Char) (q : Nat) (l : Lexeme) : Prop :=
  l.begin + l.text.length ≤ q ∧ l.text ≠ [] ∧ (∀ c ∈ l.text, c ≠ NUL ∧ isspace c = false) ∧
  ∃ rest, buf.drop l.begin = l.text ++ rest ∧ rest.headD NUL = NUL

/-- The statement `Edited orig buf q`: the buffer `buf` is the line `orig` in which
some whitespace characters before address `q`, each directly after a token
character, have been overwritten by NUL. -/
def Edited (orig buf : List Char) (q : Nat) : Prop :=
  buf.length = orig.length ∧ buf.drop q = orig.drop q ∧
  ∀ j, deref buf j ≠ deref orig j →
    deref buf j = NUL ∧ isspace (deref orig j) = true ∧ 0 < j ∧ j < q ∧
    deref orig (j - 1) ≠ NUL ∧ isspace (deref orig (j - 1)) = false

/-- The token the next call of `get_token` returns when the lexemes `todo` are
still to be read. -/
def next_token (todo : List Lexeme) : token_t :=
  match todo with
  | [] => { type := TOKEN_EOF, begin := 0 }
  | l :: _ => l.token

/-- The statement `View orig L p todo`: the parser state `p` works on the line
`orig` whose lexemes are `L`; the lexemes `todo`, a final segment of `L`, are
those the coming calls of `get_token` return, the first of them possibly
pending in `prev_token`; every lexeme read so far is sealed. -/
def View (orig : List Char) (L : List Lexeme) (p : parser_t) (todo : List Lexeme) : Prop :=
  Edited orig p.buf p.input ∧
  (∃ pre, L = pre ++ todo ∧ ∀ l ∈ pre, Sealed p.buf p.input l) ∧
  ((p.prev_token.type = TOKEN_NONE ∧ Lexes (p.buf.drop p.input) p.input todo) ∨
   (p.prev_token = { type := TOKEN_EOF, begin := 0 } ∧ todo = [] ∧
      Lexes (p.buf.drop p.input) p.input []) ∨
   (∃ l rest, todo = l :: rest ∧ p.prev_token = l.token ∧ Sealed p.buf p.input l ∧
      Lexes (p.buf.drop p.input) p.input rest))

/-! ## The heap the parser builds -/

/-- The command `add_command` allocates. -/
def fresh_command : command_t :=
  { argv := [char_ptr.indeterminate], argc := 0, capacity := 1, next := none,
    outfile := char_ptr.null }

/-- The effect of `check_capacity` followed by the store `argv[argc] = x` and
`++argc` on a command. -/
def push (c : command_t) (x : char_ptr) : command_t :=
  let c := if c.argc = c.capacity then
      { c with argv := realloc_array c.argv (2 * c.capacity), capacity := 2 * c.capacity }
    else c
  { c with argv := c.argv.set c.argc x, argc := c.argc + 1 }

/-- The statement `Roomy c`: the counters of `c` are consistent with its array. -/
def Roomy (c : command_t) : Prop :=
  c.argc ≤ c.capacity ∧ 0 < c.capacity ∧ c.argv.length = c.capacity

/-- One stage of a pipeline: its words and its redirect target. -/
structure Stage (α : Type) where
  words : List α
  out : Option α

/-- The `outfile` pointer for a redirect target. -/
def out_ptr : Option Lexeme → char_ptr
  | none => char_ptr.null
  | some l => char_ptr.addr l.begin

/-- The command of a stage once its words and redirect target are stored, before
its argument array is terminated. -/
def open_command (st : Stage Lexeme) : command_t :=
  { st.words.foldl (fun c l => push c (char_ptr.addr l.begin)) fresh_command with
    outfile := out_ptr st.out }

/-- The heap after further stages `sts` are read, from a heap `H` followed by the
command `c` under construction: each command is terminated and linked to the
next one when the `|` after it is read. -/
def layout (H : List command_t) (c : command_t) : List (Stage Lexeme) → List command_t
  | [] => H ++ [c]
  | st :: sts =>
    layout (H ++ [{ push c char_ptr.null with next := some (H.length + 1) }])
      (open_command st) sts

/-- The finished chain for a first command `c` at address `base` and the stages
`sts` after it. -/
def chain_cmds (base : Nat) (c : command_t) : List (Stage Lexeme) → List command_t
  | [] => [push c char_ptr.null]
  | st :: sts =>
    { push c char_ptr.null with next := some (base + 1) } ::
      chain_cmds (base + 1) (open_command st) sts

/-! ## The parser on a list of tokens

The functions below follow the recursive descent of parse.c on a list of tokens
of any type `α` whose token type is given by `ty`; they return what is read and
the tokens left, or `none` on a syntax error. -/

/-- The stage `parse_command` reads from the tokens `todo`, and the tokens left. -/
def abs_command {α : Type} (ty : α → token_type_t) (todo : List α) :
    Option (Stage α × List α) :=
  let ws := todo.takeWhile (fun x => decide (ty x = TOKEN_WORD))
  match ws with
  | [] => none
  | _ :: _ =>
    match todo.dropWhile (fun x => decide (ty x = TOKEN_WORD)) with
    | [] => some ({ words := ws, out := none }, [])
    | r :: rest =>
      if ty r = TOKEN_OUT_REDIRECT then
        match rest with
        | [] => none
        | f :: rest' =>
          if ty f = TOKEN_WORD then some ({ words := ws, out := some f }, rest') else none
      else some ({ words := ws, out := none }, r :: rest)

/-- The stages `parse_pipeline_prime` reads from the tokens `todo`, and the
tokens left. -/
def abs_pipeline_prime {α : Type} (ty : α → token_type_t) :
    Nat → List α → Option (List (Stage α) × List α)
  | 0, _ => none
  | _ + 1, [] => some ([], [])
  | fuel + 1, t :: rest =>
    if ty t = TOKEN_PIPE then
      match abs_command ty rest with
      | none => none
      | some (st, rest') =>
        match abs_pipeline_prime ty fuel rest' with
        | none => none
        | some (sts, left) => some (st :: sts, left)
    else some ([], t :: rest)

/-- The stages `parse_pipeline` reads from the tokens `todo`. -/
def abs_pipeline {α : Type} (ty : α → token_type_t) (todo : List α) :
    Option (List (Stage α)) :=
  match todo with
  | [] => some []
  | _ :: _ =>
    match abs_command ty todo with
    | none => none
    | some (st, rest) =>
      match abs_pipeline_prime ty (rest.length + 1) rest with
      | some (sts, []) => some (st :: sts)
      | _ => none

/-- The token type of a lexeme. -/
def Lexeme.type (l : Lexeme) : token_type_t := token_type l.text

/-- Store the address of a lexeme as the next argument of a command. -/
def push_word (c : command_t) (l : Lexeme) : command_t := push c (char_ptr.addr l.begin)

/-! ## The grammar of pipelines

On the sequence of tokens of a line, `|` and `>` are the two operators and every
other token is a WORD:

    pipeline       = [ command { '|' command } ]
    command        = simple_command [ '>' WORD ]
    simple_command = WORD { WORD }
-/

/-- A WORD token: any token other than `|` and `>`. -/
def is_WORD (t : List Char) : Prop := t ≠ ['|'] ∧ t ≠ ['>']

/-- The rule `simple_command = WORD { WORD }`. -/
def is_simple_command (ts : List (List Char)) : Prop :=
  ∃ w ws, ts = w :: ws ∧ is_WORD w ∧ ∀ x ∈ ws, is_WORD x

/-- The rule `command = simple_command [ '>' WORD ]`. -/
def is_command (ts : List (List Char)) : Prop :=
  ∃ sc, is_simple_command sc ∧ (ts = sc ∨ ∃ f, is_WORD f ∧ ts = sc ++ [['>'], f])

/-- The rule `pipeline = [ command { '|' command } ]`. -/
def is_pipeline (ts : List (List Char)) : Prop :=
  ts = [] ∨ ∃ (c : List (List Char)) (cs : List (List (List Char))),
    is_command c ∧ (∀ x ∈ cs, is_command x) ∧
    ts = c ++ (cs.map (fun x => ['|'] :: x)).flatten

/-- The image of a stage under a map of its tokens. -/
def Stage.map {α β : Type} (f : α → β) (st : Stage α) : Stage β :=
  { words := st.words.map f, out := st.out.map f }

/-- The tokens a stage is written with. -/
def stage_tokens (st : Stage (List Char)) : List (List Char) :=
  st.words ++ (match st.out with
    | none => []
    | some f => [['>'], f])

/-- The statement `good_stage st`: the stage has at least one word, and its
words and its redirect target are WORD tokens. -/
def good_stage (st : Stage (List Char)) : Prop :=
  st.words ≠ [] ∧ (∀ w ∈ st.words, is_WORD w) ∧ ∀ f, st.out = some f → is_WORD f

/-- The tokens of the stages after the first one, each preceded by its `|`. -/
def piped (sts : List (Stage (List Char))) : List (List Char) :=
  (sts.map (fun st => ['|'] :: stage_tokens st)).flatten

/-- The tokens a pipeline of stages is written with. -/
def pipeline_tokens : List (Stage (List Char)) → List (List Char)
  | [] => []
  | st :: sts => stage_tokens st ++ piped sts

/-! ## Reading the command chain back -/

/-- What a `char *` slot holds for its reader: nothing determinate, `NULL`, or a
C string. -/
inductive c_str where
  | garbage
  | NULL
  | str (s : List Char)
  deriving DecidableEq, Repr

/-- The value of a `char *` slot, its string read from the buffer `buf`. -/
def read (buf : List Char) : char_ptr → c_str
  | char_ptr.indeterminate => c_str.garbage
  | char_ptr.null => c_str.NULL
  | char_ptr.addr a => c_str.str (c_string buf a)

/-- The commands met from the pointer `first` on by following `next`, at most
`fuel` of them. -/
def chain_from (cmds : List command_t) : Nat → Option Nat → List command_t
  | 0, _ => []
  | _ + 1, none => []
  | fuel + 1, some a =>
    match cmds[a]? with
    | none => []
    | some c => c :: chain_from cmds fuel c.next

/-- The command chain of a parse result: the commands met from `first_command`
on (the heap holds no more commands than its length). -/
def commands (p : parser_t) : List command_t :=
  chain_from p.cmds p.cmds.length p.root.first_command

/-- The `argv` of a command as its reader sees it: its first `argc` slots. -/
def argv_read (buf : List Char) (c : command_t) : List c_str :=
  (c.argv.take c.argc).map (read buf)

/-- The statement `represents buf c st`: the command `c` holds the stage `st`: its
`argv` is the words of the stage followed by one `NULL`, `argc` counts them all,
and `outfile` is the redirect target of the stage, `NULL` when it has none. -/
def represents (buf : List Char) (c : command_t) (st : Stage (List Char)) : Prop :=
  c.argc = st.words.length + 1 ∧
  argv_read buf c = st.words.map c_str.str ++ [c_str.NULL] ∧
  read buf c.outfile = (match st.out with
    | none => c_str.NULL
    | some f => c_str.str f)

/-! ## Stages of a token sequence -/

/-- The stages of a sequence of tokens: its parts between the `|` tokens; the
empty sequence has no stage. -/
def stages (ts : List (List Char)) : List (List (List Char)) :=
  if ts = [] then [] else ts.splitOn ['|']

/-- The words of a stage: its tokens before its first `>`. -/
def stage_words (stage : List (List Char)) : List (List Char) :=
  stage.takeWhile (fun t => decide (t ≠ ['>']))

/-- The redirect target of a stage: the token right after its first `>`. -/
def stage_outfile (stage : List (List Char)) : Option (List Char) :=
  (stage.dropWhile (fun t => decide (t ≠ ['>'])))[1]?

/-- The string an `outfile` reads as for a redirect target. -/
def target_str : Option (List Char) → c_str
  | none => c_str.NULL
  | some f => c_str.str f

/-! ## An automaton for the grammar -/

/-- The states of the automaton: at the start of a command, among its words,
after its `>`, after its redirect target, and the dead state. -/
inductive PState where
  | start
  | words
  | target
  | closed
  | dead
  deriving DecidableEq, Repr

/-- One step of the automaton on the type of a token. -/
def step : PState → token_type_t → PState
  | PState.start, TOKEN_WORD => PState.words
  | PState.words, TOKEN_WORD => PState.words
  | PState.words, TOKEN_OUT_REDIRECT => PState.target
  | PState.words, TOKEN_PIPE => PState.start
  | PState.target, TOKEN_WORD => PState.closed
  | PState.closed, TOKEN_PIPE => PState.start
  | _, _ => PState.dead

/-- The state reached from `s` on the tokens `ts`. -/
def run (s : PState) (ts : List (List Char)) : PState :=
  ts.foldl (fun s t => step s (token_type t)) s

/-- The states in which a non-empty pipeline may end. -/
def accepting : PState → Bool
  | PState.words => true
  | PState.closed => true
  | _ => false

/-- Whether a token is a WORD can be decided. -/
instance is_WORD_decidable (t : List Char) : Decidable (is_WORD t) :=
  inferInstanceAs (Decidable (t ≠ ['|'] ∧ t ≠ ['>']))

/-- The six whitespace characters: space, tab, newline, vertical tab, form feed
and carriage return. -/
def whitespace : List Char :=
  [' ', Char.ofNat 9, Char.ofNat 10, Char.ofNat 11, Char.ofNat 12, Char.ofNat 13]

/-- The state `parse` starts from on the line `line`. -/
def start_state (line : List Char) : parser_t :=
  { buf := line, input := 0, prev_token := { type := TOKEN_NONE, begin := 0 },
    root := { valid := 0, first_command := none }, cmds := [], current_command := none }

/-! ## What the parser leaves in the heap on a syntax error -/

/-- The stage `parse_command` leaves under construction when it fails on the
tokens `todo`: the words it has read, and no redirect target. -/
def failed_stage {α : Type} (ty : α → token_type_t) (todo : List α) : Stage α :=
  { words := todo.takeWhile (fun x => decide (ty x = TOKEN_WORD)), out := none }

/-- The stages for which `parse_pipeline_prime` allocates a command on the tokens
`todo`, whether it succeeds or fails. -/
def abs_prime_trace {α : Type} (ty : α → token_type_t) : Nat → List α → List (Stage α)
  | 0, _ => []
  | _ + 1, [] => []
  | fuel + 1, t :: rest =>
    if ty t = TOKEN_PIPE then
      match abs_command ty rest with
      | none => [failed_stage ty rest]
      | some (st, rest') => st :: abs_prime_trace ty fuel rest'
    else []

/-- The stages for which `parse_pipeline` allocates a command on the tokens
`todo`, whether it succeeds or fails. -/
def abs_trace {α : Type} (ty : α → token_type_t) (todo : List α) : List (Stage α) :=
  match todo with
  | [] => []
  | _ :: _ =>
    match abs_command ty todo with
    | none => [failed_stage ty todo]
    | some (st, rest) => st :: abs_prime_trace ty (rest.length + 1) rest

/-- The tokens a stage is made of: its words and its redirect target. -/
def Stage.lexemes {α : Type} (st : Stage α) : List α := st.words ++ st.out.toList

/-- The chain for a first command `c` at address `base` and the stages `sts`
after it, when the run stops before the last command is terminated. -/
def open_chain (base : Nat) (c : command_t) : List (Stage Lexeme) → List command_t
  | [] => [c]
  | st :: sts =>
    { push c char_ptr.null with next := some (base + 1) } ::
      open_chain (base + 1) (open_command st) sts

/-- The contents of a command as its reader sees them: `argc`, the strings of
`argv` and the string of `outfile`. -/
def content (buf : List Char) (c : command_t) : Nat × List c_str × c_str :=
  (c.argc, argv_read buf c, read buf c.outfile)

/-- The contents of the command chain of a parse result, in chain order. -/
def chain_contents (p : parser_t) : List (Nat × List c_str × c_str) :=
  (commands p).map (content p.buf)

/-- The contents of the command of a stage whose argument array is terminated. -/
def closed_content (st : Stage (List Char)) : Nat × List c_str × c_str :=
  (st.words.length + 1, st.words.map c_str.str ++ [c_str.NULL], target_str st.out)

/-- The contents of the command of a stage still under construction. -/
def open_content (st : Stage (List Char)) : Nat × List c_str × c_str :=
  (st.words.length, st.words.map c_str.str, target_str st.out)

/-- The contents of the chain left by a run that stops on a syntax error: every
command but the last is terminated. -/
def trace_contents : List (Stage (List Char)) → List (Nat × List c_str × c_str)
  | [] => []
  | [st] => [open_content st]
  | st :: st' :: sts => closed_content st :: trace_contents (st' :: sts)

/-- The validity flag and the chain contents `parse` yields for a sequence of
tokens. -/
def spec_contents (ts : List (List Char)) : Nat × List (Nat × List c_str × c_str) :=
  match abs_pipeline token_type ts with
  | some sts => (1, sts.map closed_content)
  | none => (0, trace_contents (abs_trace token_type ts))

/-! ## Whitespace edits of a line -/

/-- The statement `blank ws`: every character of `ws` is one of the six
whitespace characters. -/
def blank (ws : List Char) : Prop := ∀ c ∈ ws, c ∈ whitespace

instance blank_decidable (ws : List Char) : Decidable (blank ws) :=
  inferInstanceAs (Decidable (∀ c ∈ ws, c ∈ whitespace))

/-- One whitespace edit of a line: whitespace is added in front of it or after
it, or a non-empty run of whitespace inside it is replaced by another non-empty
run of whitespace. -/
inductive ws_step : List Char → List Char → Prop where
  | lead (ws s : List Char) : blank ws → ws_step s (ws ++ s)
  | trail (s ws : List Char) : blank ws → ws_step s (s ++ ws)
  | run (a ws ws' b : List Char) : blank ws → blank ws' → ws ≠ [] → ws' ≠ [] →
      ws_step (a ++ ws ++ b) (a ++ ws' ++ b)

/-! ## Runs of the executor -/

/-- The statement `Chain cmds first cs`: following `next` from the pointer
`first` in the heap `cmds` meets exactly the commands `cs`, then `NULL`. -/
inductive Chain (cmds : List command_t) : Option Nat → List command_t → Prop where
  | nil : Chain cmds none []
  | cons (a : Nat) (c : command_t) (cs : List command_t) :
      cmds[a]? = some c → Chain cmds c.next cs → Chain cmds (some a) (c :: cs)

/-- The number of `pipe` calls in a log. -/
def pipes_created (log : List event) : Nat :=
  (log.filter (fun e => match e with
    | event.pipe _ _ => true
    | _ => false)).length

/-- The children forked in a log, in order. -/
def children (log : List event) : List child_t :=
  log.filterMap (fun e => match e with
    | event.fork ch => some ch
    | _ => none)

/-- The `open` calls in a log, in order: path, flags and descriptor returned. -/
def files_opened (log : List event) : List (char_ptr × List open_flag × Nat) :=
  log.filterMap (fun e => match e with
    | event.opened path flags _ fd => some (path, flags, fd)
    | _ => none)

/-- The loop of the executor on the commands `cs` of a chain, in order. -/
def stages_run (infile : command_t → char_ptr) (cs : List command_t) (s : shell_t) : shell_t :=
  cs.foldl (fun s c => stage infile c s) s

/-- The state in which `main` enters the loop over the commands. -/
def loop_entry (s : shell_t) : shell_t :=
  { s with sourcePipe := (0, 0), destPipe := (0, 0), outfile := 0, infile := 0 }

/-- The two `close` statements after the loop, lines 123 and 124. -/
def final_close (s : shell_t) : shell_t :=
  let s := if s.sourcePipe.1 ≠ 0 then do_close s s.sourcePipe.1 else s
  if s.sourcePipe.2 ≠ 0 then do_close s s.sourcePipe.2 else s

/-- The statement `Piped s`: the shell is at the head of the loop over the
commands: `destPipe`, `outfile` and `infile` are reset, and `sourcePipe` is
either reset or holds the two open ends of the pipe created for the previous
command. -/
def Piped (s : shell_t) : Prop :=
  s.destPipe = (0, 0) ∧ s.outfile = 0 ∧ s.infile = 0 ∧
  (s.sourcePipe = (0, 0) ∨
    (s.sourcePipe.1 < s.sourcePipe.2 ∧ fd_get s.fds s.sourcePipe.1 ≠ none ∧
      fd_get s.fds s.sourcePipe.2 ≠ none))

/-- The statement `Tracks t0 s`: apart from the two ends of the source pipe, the
descriptors of the shell are those of the table `t0`, in which descriptor 0 is
open and the ends of the source pipe are not. -/
def Tracks (t0 : fd_table) (s : shell_t) : Prop :=
  fd_get t0 0 ≠ none ∧
  (∀ j, (j ≠ s.sourcePipe.1 ∧ j ≠ s.sourcePipe.2) ∨ j = 0 → fd_get s.fds j = fd_get t0 j) ∧
  (s.sourcePipe.1 ≠ 0 → fd_get t0 s.sourcePipe.1 = none) ∧
  (s.sourcePipe.2 ≠ 0 → fd_get t0 s.sourcePipe.2 = none)

/-- The shell as it is started: the three standard streams are open, no pipe has
been created and nothing is logged. -/
def fresh_shell : shell_t :=
  { fds := [some (file_t.inherited 0), some (file_t.inherited 1), some (file_t.inherited 2)],
    pipes := 0, log := [], sourcePipe := (0, 0), destPipe := (0, 0), outfile := 0, infile := 0 }

/-- The statement `if (fd != 0) { close(fd); }` in the shell process. -/
def close_if (s : shell_t) (fd : Nat) : shell_t := if fd ≠ 0 then do_close s fd else s

/-- The statement `fd_nonzero e`: the descriptors the call `e` returned, when it
is a `pipe` or an `open`, are non-zero. -/
def fd_nonzero : event → Prop
  | event.pipe r w => r ≠ 0 ∧ w ≠ 0
  | event.opened _ _ _ fd => fd ≠ 0
  | event.fork _ => True
  | event.close _ => True

instance fd_nonzero_decidable : DecidablePred fd_nonzero := fun e =>
  match e with
  | event.pipe r w => inferInstanceAs (Decidable (r ≠ 0 ∧ w ≠ 0))
  | event.opened _ _ _ fd => inferInstanceAs (Decidable (fd ≠ 0))
  | event.fork _ => inferInstanceAs (Decidable True)
  | event.close _ => inferInstanceAs (Decidable True)

/-- The statement `returns_nonzero log`: every descriptor that `pipe` or `open`
returned in the log is non-zero. -/
def returns_nonzero (log : List event) : Prop := ∀ e ∈ log, fd_nonzero e

instance returns_nonzero_decidable (log : List event) : Decidable (returns_nonzero log) :=
  inferInstanceAs (Decidable (∀ e ∈ log, fd_nonzero e))

/-! ## Capacity of the argument arrays -/

/-- The statement `least_pow2 m n`: `n` is the smallest power of two that is at
least `m`. -/
def least_pow2 (m n : Nat) : Prop :=
  (∃ k, n = 2 ^ k) ∧ m ≤ n ∧ ∀ k, m ≤ 2 ^ k → n ≤ 2 ^ k

/-- The statement `Tight c`: the argument array of `c` has `capacity` slots, and
`capacity` is a power of two with `max(argc, 1) ≤ capacity < 2 * max(argc, 1)`. -/
def Tight (c : command_t) : Prop :=
  c.argv.length = c.capacity ∧ (∃ k, c.capacity = 2 ^ k) ∧ max c.argc 1 ≤ c.capacity ∧
  c.capacity < 2 * max c.argc 1

/-! ## The pipe a child reads from -/

/-- The statement `Sourced s id`: the source pipe of the shell is the pipe number
`id`, with its read end on a non-zero descriptor below that of its write end. -/
def Sourced (s : shell_t) (id : Nat) : Prop :=
  s.sourcePipe.1 ≠ 0 ∧ s.sourcePipe.1 < s.sourcePipe.2 ∧
  fd_get s.fds s.sourcePipe.1 = some (file_t.pipe_read id) ∧
  fd_get s.fds s.sourcePipe.2 = some (file_t.pipe_write id)

/-- The statement `forked_with_source infile ch`: the child `ch` was forked while
the shell held both ends of a pipe `id`, the read end on `r` and the write end
on `w`; when it calls `execvp` the child has closed `w`, and its descriptor 0 is
the read end of the pipe unless its command has an input file. -/
def forked_with_source (infile : command_t → char_ptr) (ch : child_t) : Prop :=
  ∃ id r w, r ≠ 0 ∧ r < w ∧ fd_get ch.at_fork r = some (file_t.pipe_read id) ∧
    fd_get ch.at_fork w = some (file_t.pipe_write id) ∧ fd_get ch.at_exec w = none ∧
    (infile ch.command = char_ptr.null → fd_get ch.at_exec 0 = some (file_t.pipe_read id))

/-! ## Lemmas on characters and memory -/

theorem isspace_NUL : isspace NUL = false := by decide

theorem ne_NUL_of_isspace {c : Char} (h : isspace c = true) : c ≠ NUL := by
  intro hc
  rw [hc, isspace_NUL] at h
  exact Bool.noConfusion h

theorem advance_while_append (cond : Char → Bool) (xs rest : List Char) (q : Nat)
    (hxs : ∀ c ∈ xs, c ≠ NUL ∧ cond c = true)
    (hrest : ∀ c, rest.head? = some c → ¬ (c ≠ NUL ∧ cond c = true)) :
    advance_while cond (xs ++ rest) q = q + xs.length := by
  induction xs generalizing q with
  | nil =>
    cases rest with
    | nil => simp [advance_while]
    | cons c rest =>
      have := hrest c rfl
      simp [advance_while, this]
  | cons x xs ih =>
    have hx := hxs x (List.mem_cons_self _ _)
    have := ih (q + 1) (fun c hc => hxs c (List.mem_cons_of_mem _ hc))
    rw [List.cons_append, advance_while, if_pos hx, this, List.length_cons]
    omega

theorem deref_of_drop {buf : List Char} {i : Nat} {xs : List Char} (h : buf.drop i = xs)
    (k : Nat) : deref buf (i + k) = xs.getD k NUL := by
  subst h
  simp [deref, List.getD_eq_getElem?_getD, List.getElem?_drop]

theorem drop_of_drop {buf : List Char} {i : Nat} {xs : List Char} (h : buf.drop i = xs)
    (k : Nat) : buf.drop (i + k) = xs.drop k := by
  subst h
  simp [List.drop_drop, Nat.add_comm]

theorem getD_append_length (xs ys : List Char) :
    (xs ++ ys).getD xs.length NUL = ys.headD NUL := by
  induction xs with
  | nil => cases ys <;> simp
  | cons x xs ih => simpa using ih

theorem toNat_inj {a b : Char} (h : a.toNat = b.toNat) : a = b :=
  Char.ext (UInt32.ext h)

theorem strncmp_single (w rest : List Char) (c : Char) (hc : c ≠ NUL) (hw : w ≠ [])
    (hwc : ∀ x ∈ w, x ≠ NUL) :
    strncmp (w ++ rest) [c] w.length = 0 ↔ w = [c] := by
  cases w with
  | nil => exact absurd rfl hw
  | cons a w =>
    have ha : a ≠ NUL := hwc a (List.mem_cons_self _ _)
    by_cases hac : a = c
    · subst hac
      cases w with
      | nil => simp [strncmp, ha]
      | cons b w =>
        have hb : b ≠ NUL := hwc b (by simp)
        have hb' : (b.toNat : Int) ≠ 0 := by
          intro h0
          apply hb
          apply toNat_inj
          have : b.toNat = 0 := by omega
          rw [this]; rfl
        have h0 : NUL.toNat = 0 := rfl
        simp [strncmp, ha, hb, hb', h0]
    · have : (a.toNat : Int) - (c.toNat : Int) ≠ 0 := by
        intro h0
        apply hac
        apply toNat_inj
        omega
      simp [strncmp, hac, this]

/-! ## What `get_token` returns -/

theorem token_type_eq (w rest : List Char) (hw : w ≠ []) (hwc : ∀ c ∈ w, c ≠ NUL) :
    (if strncmp (w ++ rest) ['|'] w.length = 0 then TOKEN_PIPE
      else if strncmp (w ++ rest) ['>'] w.length = 0 then TOKEN_OUT_REDIRECT
      else TOKEN_WORD) = token_type w := by
  have h1 := strncmp_single w rest '|' (by decide) hw hwc
  have h2 := strncmp_single w rest '>' (by decide) hw hwc
  unfold token_type
  by_cases hp : w = ['|']
  · rw [if_pos (h1.2 hp), if_pos hp]
  · rw [if_neg (fun h => hp (h1.1 h)), if_neg hp]
    by_cases hr : w = ['>']
    · rw [if_pos (h2.2 hr), if_pos hr]
    · rw [if_neg (fun h => hr (h2.1 h)), if_neg hr]

theorem get_token_pending (p : parser_t) (hp : p.prev_token.type ≠ TOKEN_NONE) :
    get_token p =
      .ok (p.prev_token, { p with prev_token := { p.prev_token with type := TOKEN_NONE } }) := by
  unfold get_token
  rw [if_pos hp]

theorem get_token_eof (p : parser_t) (ws rest : List Char)
    (hp : p.prev_token.type = TOKEN_NONE) (hbuf : p.buf.drop p.input = ws ++ rest)
    (hws : ∀ c ∈ ws, isspace c = true) (hrest : rest.headD NUL = NUL) :
    get_token p =
      .ok ({ type := TOKEN_EOF, begin := 0 }, { p with input := p.input + ws.length }) := by
  have h1 : advance_while isspace (p.buf.drop p.input) p.input = p.input + ws.length := by
    rw [hbuf]
    apply advance_while_append
    · exact fun c hc => ⟨ne_NUL_of_isspace (hws c hc), hws c hc⟩
    · intro c hc h
      cases rest with
      | nil => simp at hc
      | cons d rest =>
        simp at hc hrest
        exact h.1 (hc ▸ hrest)
  have h2 : deref p.buf (p.input + ws.length) = NUL := by
    rw [deref_of_drop hbuf, getD_append_length, hrest]
  simp [get_token, hp, h1, h2]

theorem get_token_word (p : parser_t) (ws w rest : List Char)
    (hp : p.prev_token.type = TOKEN_NONE) (hbuf : p.buf.drop p.input = ws ++ (w ++ rest))
    (hws : ∀ c ∈ ws, isspace c = true) (hw : w ≠ [])
    (hwc : ∀ c ∈ w, c ≠ NUL ∧ isspace c = false)
    (hrest : rest.headD NUL = NUL ∨ isspace (rest.headD NUL) = true) :
    get_token p =
      .ok ({ type := token_type w, begin := p.input + ws.length },
        if rest.headD NUL = NUL then { p with input := p.input + ws.length + w.length }
        else { p with buf := p.buf.set (p.input + ws.length + w.length) NUL,
                      input := p.input + ws.length + w.length + 1 }) := by
  obtain ⟨a, w', rfl⟩ := List.exists_cons_of_ne_nil hw
  have ha := hwc a (List.mem_cons_self _ _)
  have h1 : advance_while isspace (p.buf.drop p.input) p.input = p.input + ws.length := by
    rw [hbuf]
    apply advance_while_append
    · exact fun c hc => ⟨ne_NUL_of_isspace (hws c hc), hws c hc⟩
    · intro c hc h
      simp at hc
      rw [← hc, ha.2] at h
      exact Bool.noConfusion h.2
  have h2 : deref p.buf (p.input + ws.length) = a := by
    rw [deref_of_drop hbuf, getD_append_length]; rfl
  have hd : p.buf.drop (p.input + ws.length + 1) = w' ++ rest := by
    rw [Nat.add_assoc, drop_of_drop hbuf]
    simp
  have h3 : advance_while (fun c => !isspace c) (p.buf.drop (p.input + ws.length + 1))
      (p.input + ws.length + 1) = p.input + ws.length + 1 + w'.length := by
    rw [hd]
    apply advance_while_append
    · intro c hc
      have := hwc c (List.mem_cons_of_mem _ hc)
      simp [this]
    · intro c hc h
      cases rest with
      | nil => simp at hc
      | cons d rest =>
        simp at hc hrest
        subst hc
        rcases hrest with h0 | h0
        · exact h.1 h0
        · simp [h0] at h
  have h4 : deref p.buf (p.input + ws.length + 1 + w'.length) = rest.headD NUL := by
    rw [deref_of_drop hd, getD_append_length]
  have h5 : p.buf.drop (p.input + ws.length) = (a :: w') ++ rest := by
    rw [drop_of_drop hbuf]
    simp
  have h6 : p.input + ws.length + 1 + w'.length - (p.input + ws.length) = (a :: w').length := by
    simp; omega
  have h7 := token_type_eq (a :: w') rest hw (fun c hc => (hwc c hc).1)
  have h8 : p.input + ws.length + (a :: w').length = p.input + ws.length + 1 + w'.length := by
    simp; omega
  unfold get_token
  rw [if_neg (by simp [hp])]
  simp only [h1, h2, h3, h4, h5, h6, h7, h8]
  rw [if_neg (by simp [ha.2]), if_neg ha.1, if_neg (by
    simp only [not_not]
    refine ⟨by omega, ?_⟩
    rcases hrest with h0 | h0
    · exact Or.inl h0
    · exact Or.inr h0)]
  by_cases h0 : rest.headD NUL = NUL
  · rw [if_neg (not_not.2 h0), if_pos h0]
  · rw [if_pos h0, if_neg h0]

/-! ## Sealed lexemes and edited buffers -/

theorem deref_set (buf : List Char) (e j : Nat) (c : Char) :
    deref (buf.set e c) j = if j = e ∧ e < buf.length then c else deref buf j := by
  unfold deref
  rw [List.getD_eq_getElem?_getD, List.getD_eq_getElem?_getD, List.getElem?_set]
  by_cases h : e = j
  · subst h
    by_cases h2 : e < buf.length
    · simp [h2]
    · simp [h2, List.getElem?_eq_none (Nat.le_of_not_lt h2)]
  · have : ¬ (j = e ∧ e < buf.length) := fun hh => h hh.1.symm
    simp [h, this]

theorem lt_length_of_deref_ne {buf : List Char} {j : Nat} (h : deref buf j ≠ NUL) :
    j < buf.length := by
  by_contra hlt
  apply h
  unfold deref
  rw [List.getD_eq_getElem?_getD, List.getElem?_eq_none (Nat.le_of_not_lt hlt)]
  rfl

theorem Sealed.mono {buf : List Char} {q q' : Nat} {l : Lexeme} (h : Sealed buf q l)
    (hq : q ≤ q') : Sealed buf q' l :=
  ⟨Nat.le_trans h.1 hq, h.2.1, h.2.2.1, h.2.2.2⟩

theorem headD_set_pos (rest : List Char) (k : Nat) (c : Char) (hk : 0 < k) :
    (rest.set k c).headD NUL = rest.headD NUL := by
  cases rest with
  | nil => rfl
  | cons d rest =>
    cases k with
    | zero => omega
    | succ k => rfl

theorem Sealed.set {buf : List Char} {q q' e : Nat} {l : Lexeme} (c : Char)
    (h : Sealed buf q l) (hq : q ≤ q') (he : q < e) : Sealed (buf.set e c) q' l := by
  obtain ⟨h1, h2, h3, rest, h4, h5⟩ := h
  refine ⟨Nat.le_trans h1 hq, h2, h3, rest.set (e - l.begin - l.text.length) c, ?_, ?_⟩
  · rw [List.drop_set, if_neg (by omega), h4, List.set_append_right _ _ (by omega)]
  · rw [headD_set_pos _ _ _ (by omega), h5]

theorem takeWhile_text (w rest : List Char) (hw : ∀ c ∈ w, c ≠ NUL)
    (hrest : rest.headD NUL = NUL) :
    (w ++ rest).takeWhile (fun c => c ≠ NUL) = w := by
  induction w with
  | nil =>
    cases rest with
    | nil => rfl
    | cons d rest =>
      simp at hrest
      simp [List.takeWhile, hrest]
  | cons a w ih =>
    have ha := hw a (List.mem_cons_self _ _)
    simp only [List.cons_append, List.takeWhile_cons, ha, ne_eq, not_false_eq_true,
      decide_True, if_true]
    rw [ih (fun c hc => hw c (List.mem_cons_of_mem _ hc))]

theorem Sealed.reads_back {buf : List Char} {q : Nat} {l : Lexeme} (h : Sealed buf q l) :
    c_string buf l.begin = l.text := by
  obtain ⟨_, _, h3, rest, h4, h5⟩ := h
  unfold Shell.c_string
  rw [h4]
  exact takeWhile_text _ _ (fun c hc => (h3 c hc).1) h5

theorem Edited.refl (orig : List Char) : Edited orig orig 0 :=
  ⟨rfl, rfl, fun _ h => absurd rfl h⟩

theorem Edited.advance {orig buf : List Char} {q : Nat} (h : Edited orig buf q) (k : Nat) :
    Edited orig buf (q + k) := by
  obtain ⟨h1, h2, h3⟩ := h
  refine ⟨h1, ?_, ?_⟩
  · rw [drop_of_drop h2, drop_of_drop rfl]
  · intro j hj
    obtain ⟨a, b, c, d, e⟩ := h3 j hj
    exact ⟨a, b, c, by omega, e⟩

theorem Edited.deref_eq {orig buf : List Char} {q : Nat} (h : Edited orig buf q) (k : Nat) :
    deref orig (q + k) = deref buf (q + k) := by
  rw [deref_of_drop h.2.1 k, deref_of_drop rfl k]

theorem getD_mid (ws w r : List Char) (k : Nat) (hk : k < w.length) :
    (ws ++ (w ++ r)).getD (ws.length + k) NUL ∈ w := by
  rw [List.getD_eq_getElem?_getD, List.getElem?_append_right (by omega),
    Nat.add_sub_cancel_left, List.getElem?_append_left hk, List.getElem?_eq_getElem hk]
  exact List.getElem_mem _

theorem getD_after (ws w r : List Char) :
    (ws ++ (w ++ r)).getD (ws.length + w.length) NUL = r.headD NUL := by
  rw [← List.append_assoc, ← List.length_append, getD_append_length]

theorem drop_past (ws w : List Char) (d : Char) (rest : List Char) :
    (ws ++ (w ++ d :: rest)).drop (ws.length + w.length + 1) = rest := by
  rw [← List.append_assoc, ← List.length_append, List.drop_append_eq_append_drop]
  simp

theorem Edited.write {orig buf : List Char} {q : Nat} (h : Edited orig buf q)
    (ws w : List Char) (d : Char) (rest : List Char)
    (hbuf : buf.drop q = ws ++ (w ++ d :: rest)) (hw : w ≠ [])
    (hwc : ∀ c ∈ w, c ≠ NUL ∧ isspace c = false) (hd : isspace d = true) :
    Edited orig (buf.set (q + ws.length + w.length) NUL) (q + ws.length + w.length + 1) := by
  have hlen : 0 < w.length := List.length_pos.2 hw
  refine ⟨by rw [List.length_set]; exact h.1, ?_, ?_⟩
  · rw [List.drop_set_of_lt _ _ (by omega)]
    have := (h.advance (ws.length + w.length + 1)).2.1
    simpa [Nat.add_assoc] using this
  · intro j hj
    rw [deref_set] at hj ⊢
    by_cases hje : j = q + ws.length + w.length ∧ q + ws.length + w.length < buf.length
    · rw [if_pos hje]
      obtain ⟨rfl, _⟩ := hje
      have e1 : deref orig (q + ws.length + w.length) = d := by
        rw [Nat.add_assoc, h.deref_eq, deref_of_drop hbuf, getD_after]; rfl
      have e2 : deref orig (q + ws.length + w.length - 1) ∈ w := by
        have : q + ws.length + w.length - 1 = q + (ws.length + (w.length - 1)) := by omega
        rw [this, h.deref_eq, deref_of_drop hbuf]
        exact getD_mid _ _ _ _ (by omega)
      exact ⟨rfl, e1 ▸ hd, by omega, by omega, (hwc _ e2).1, (hwc _ e2).2⟩
    · rw [if_neg hje] at hj ⊢
      obtain ⟨a, b, c, d', e⟩ := h.2.2 j hj
      exact ⟨a, b, c, by omega, e⟩

/-! ## The token view of the parser state -/

theorem Lexes.nil_of_stop (rest : List Char) (q : Nat) (h : rest.headD NUL = NUL) :
    Lexes rest q [] := by
  have := Lexes.eof [] rest q (fun _ hc => absurd hc (List.not_mem_nil _)) h
  simpa using this

theorem putback_token_ok (p : parser_t) (t : token_t) (hp : p.prev_token.type = TOKEN_NONE)
    (ht : t.type ≠ TOKEN_NONE) : putback_token p t = .ok { p with prev_token := t } := by
  unfold putback_token
  rw [if_neg (by simp [hp, ht])]

theorem token_type_ne_none (w : List Char) : token_type w ≠ TOKEN_NONE := by
  unfold token_type
  split
  · simp
  · split <;> simp

theorem token_type_ne_eof (w : List Char) : token_type w ≠ TOKEN_EOF := by
  unfold token_type
  split
  · simp
  · split <;> simp

theorem next_token_type_ne_none (todo : List Lexeme) : (next_token todo).type ≠ TOKEN_NONE := by
  cases todo with
  | nil => simp [next_token]
  | cons l _ => exact token_type_ne_none _

theorem get_token_view {orig : List Char} {L : List Lexeme} {p : parser_t}
    {todo : List Lexeme} (h : View orig L p todo) :
    ∃ p', get_token p = .ok (next_token todo, p') ∧ p'.prev_token.type = TOKEN_NONE ∧
      View orig L p' todo.tail ∧ View orig L { p' with prev_token := next_token todo } todo ∧
      p'.root = p.root ∧ p'.cmds = p.cmds ∧ p'.current_command = p.current_command := by
  obtain ⟨hed, ⟨pre, hL, hpre⟩, hcase⟩ := h
  rcases hcase with ⟨hp, hlex⟩ | ⟨hp, rfl, hlex⟩ | ⟨l, rest, rfl, hp, hl, hlex⟩
  · -- nothing pending: the buffer is scanned
    generalize hm : p.buf.drop p.input = mem at hlex
    generalize hq : p.input = q at hlex
    cases hlex with
    | eof ws rest _ hws hrest =>
      subst hq
      refine ⟨_, get_token_eof p ws rest hp hm hws hrest, hp, ?_, ?_, rfl, rfl, rfl⟩
      · refine ⟨hed.advance _, ⟨pre, hL, fun l hl => (hpre l hl).mono (Nat.le_add_right _ _)⟩,
          Or.inl ⟨hp, ?_⟩⟩
        have : p.buf.drop (p.input + ws.length) = rest := by
          rw [drop_of_drop hm]; simp
        show Lexes (p.buf.drop (p.input + ws.length)) _ _
        rw [this]
        exact Lexes.nil_of_stop _ _ hrest
      · refine ⟨hed.advance _, ⟨pre, hL, fun l hl => (hpre l hl).mono (Nat.le_add_right _ _)⟩,
          Or.inr (Or.inl ⟨rfl, rfl, ?_⟩)⟩
        have : p.buf.drop (p.input + ws.length) = rest := by
          rw [drop_of_drop hm]; simp
        show Lexes (p.buf.drop (p.input + ws.length)) _ _
        rw [this]
        exact Lexes.nil_of_stop _ _ hrest
    | last ws w rest _ hws hw hwc hrest =>
      subst hq
      have hget := get_token_word p ws w rest hp hm hws hw hwc (Or.inl hrest)
      rw [if_pos hrest] at hget
      have hdrop : p.buf.drop (p.input + ws.length + w.length) = rest := by
        rw [Nat.add_assoc, drop_of_drop hm]; simp
      have hseal : Sealed p.buf (p.input + ws.length + w.length) ⟨p.input + ws.length, w⟩ :=
        ⟨Nat.le_refl _, hw, hwc, rest, by rw [drop_of_drop hm]; simp, hrest⟩
      have hold : ∀ l ∈ pre, Sealed p.buf (p.input + ws.length + w.length) l :=
        fun l hl => (hpre l hl).mono (by omega)
      have hed' := hed.advance (ws.length + w.length)
      rw [← Nat.add_assoc] at hed'
      refine ⟨_, hget, hp, ?_, ?_, rfl, rfl, rfl⟩
      · refine ⟨hed', ⟨pre ++ [⟨p.input + ws.length, w⟩], by simp [hL], ?_⟩, Or.inl ⟨hp, ?_⟩⟩
        · intro l hl
          rcases List.mem_append.1 hl with hl | hl
          · exact hold l hl
          · rw [List.mem_singleton.1 hl]; exact hseal
        · show Lexes (p.buf.drop (p.input + ws.length + w.length)) _ _
          rw [hdrop]
          exact Lexes.nil_of_stop _ _ hrest
      · refine ⟨hed', ⟨pre, hL, hold⟩, Or.inr (Or.inr ⟨_, _, rfl, rfl, hseal, ?_⟩)⟩
        show Lexes (p.buf.drop (p.input + ws.length + w.length)) _ _
        rw [hdrop]
        exact Lexes.nil_of_stop _ _ hrest
    | more ws w d rest _ ls hws hw hwc hd hrest =>
      subst hq
      have hdne : (d :: rest).headD NUL ≠ NUL := ne_NUL_of_isspace hd
      have hget := get_token_word p ws w (d :: rest) hp hm hws hw hwc (Or.inr hd)
      rw [if_neg hdne] at hget
      have hdrop : (p.buf.set (p.input + ws.length + w.length) NUL).drop
          (p.input + ws.length + w.length + 1) = rest := by
        rw [List.drop_set_of_lt _ _ (by omega), Nat.add_assoc, Nat.add_assoc,
          drop_of_drop hm, ← Nat.add_assoc]
        exact drop_past ws w d rest
      have hlt : p.input + ws.length + w.length < p.buf.length := by
        apply lt_length_of_deref_ne
        rw [Nat.add_assoc, deref_of_drop hm, getD_after]
        exact hdne
      have hseal : Sealed (p.buf.set (p.input + ws.length + w.length) NUL)
          (p.input + ws.length + w.length + 1) ⟨p.input + ws.length, w⟩ := by
        refine ⟨by simp, hw, hwc, NUL :: rest, ?_, rfl⟩
        rw [List.drop_set, if_neg (by dsimp only; omega), drop_of_drop hm]
        simp
      have hold : ∀ l ∈ pre, Sealed (p.buf.set (p.input + ws.length + w.length) NUL)
          (p.input + ws.length + w.length + 1) l :=
        fun l hl => (hpre l hl).set NUL (by omega)
          (by have := List.length_pos.2 hw; omega)
      have hed' := hed.write ws w d rest hm hw hwc hd
      refine ⟨_, hget, hp, ?_, ?_, rfl, rfl, rfl⟩
      · refine ⟨hed', ⟨pre ++ [⟨p.input + ws.length, w⟩], by simp [hL], ?_⟩, Or.inl ⟨hp, ?_⟩⟩
        · intro l hl
          rcases List.mem_append.1 hl with hl | hl
          · exact hold l hl
          · rw [List.mem_singleton.1 hl]; exact hseal
        · show Lexes ((p.buf.set _ NUL).drop (p.input + ws.length + w.length + 1)) _ _
          rw [hdrop]
          exact hrest
      · refine ⟨hed', ⟨pre, hL, hold⟩, Or.inr (Or.inr ⟨_, _, rfl, rfl, hseal, ?_⟩)⟩
        show Lexes ((p.buf.set _ NUL).drop (p.input + ws.length + w.length + 1)) _ _
        rw [hdrop]
        exact hrest
  · -- an EOF token is pending
    have hne : p.prev_token.type ≠ TOKEN_NONE := by rw [hp]; simp
    refine ⟨{ p with prev_token := { p.prev_token with type := TOKEN_NONE } }, ?_, rfl,
      ⟨hed, ⟨pre, hL, hpre⟩, Or.inl ⟨rfl, hlex⟩⟩,
      ⟨hed, ⟨pre, hL, hpre⟩, Or.inr (Or.inl ⟨rfl, rfl, hlex⟩)⟩, rfl, rfl, rfl⟩
    rw [get_token_pending p hne, hp]
    rfl
  · -- a lexeme is pending
    have hne : p.prev_token.type ≠ TOKEN_NONE := by rw [hp]; exact token_type_ne_none _
    refine ⟨{ p with prev_token := { p.prev_token with type := TOKEN_NONE } }, ?_, rfl,
      ⟨hed, ⟨pre ++ [l], by simp [hL], ?_⟩, Or.inl ⟨rfl, hlex⟩⟩,
      ⟨hed, ⟨pre, hL, hpre⟩, Or.inr (Or.inr ⟨l, rest, rfl, rfl, hl, hlex⟩)⟩, rfl, rfl, rfl⟩
    · rw [get_token_pending p hne, hp]
      rfl
    · intro l' hl'
      rcases List.mem_append.1 hl' with hl' | hl'
      · exact hpre l' hl'
      · rw [List.mem_singleton.1 hl']; exact hl

theorem View.heap {orig : List Char} {L : List Lexeme} {p p' : parser_t} {todo : List Lexeme}
    (h : View orig L p todo) (hb : p'.buf = p.buf) (hi : p'.input = p.input)
    (ht : p'.prev_token = p.prev_token) : View orig L p' todo := by
  unfold View at h ⊢
  rw [hb, hi, ht]
  exact h

theorem View.initial (orig : List Char) (L : List Lexeme) (h : Lexes orig 0 L)
    (root : root_t) (cmds : List command_t) (cur : Option Nat) :
    View orig L { buf := orig, input := 0, prev_token := { type := TOKEN_NONE, begin := 0 },
                  root := root, cmds := cmds, current_command := cur } L :=
  ⟨Edited.refl orig, ⟨[], rfl, fun _ hl => absurd hl (List.not_mem_nil _)⟩, Or.inl ⟨rfl, h⟩⟩

/-- Every lexeme that is no longer to be read reads back as its text. -/
theorem View.lexemes_read_back {orig : List Char} {L : List Lexeme} {p : parser_t}
    {todo : List Lexeme} (h : View orig L p todo) :
    ∃ pre, L = pre ++ todo ∧ ∀ l ∈ pre, c_string p.buf l.begin = l.text := by
  obtain ⟨_, ⟨pre, hL, hpre⟩, _⟩ := h
  exact ⟨pre, hL, fun l hl => (hpre l hl).reads_back⟩

/-! ## Every line has lexemes, and their texts are its tokens -/

theorem exists_span (P : Char → Bool) (mem : List Char) :
    ∃ xs rest, mem = xs ++ rest ∧ (∀ c ∈ xs, P c = true) ∧
      (∀ c, rest.head? = some c → P c = false) := by
  induction mem with
  | nil => exact ⟨[], [], rfl, fun _ h => absurd h (List.not_mem_nil _), fun _ h => by simp at h⟩
  | cons a mem ih =>
    by_cases ha : P a = true
    · obtain ⟨xs, rest, h1, h2, h3⟩ := ih
      refine ⟨a :: xs, rest, by rw [h1]; rfl, ?_, h3⟩
      intro c hc
      rcases List.mem_cons.1 hc with rfl | hc
      · exact ha
      · exact h2 c hc
    · refine ⟨[], a :: mem, rfl, fun _ h => absurd h (List.not_mem_nil _), ?_⟩
      intro c hc
      simp at hc
      subst hc
      simpa using ha

theorem exists_lexes_aux (n : Nat) :
    ∀ mem : List Char, mem.length < n → ∀ q, ∃ ls, Lexes mem q ls := by
  induction n with
  | zero => exact fun _ h => absurd h (Nat.not_lt_zero _)
  | succ n ih =>
    intro mem hn q
    obtain ⟨ws, r1, h1, hws, hr1⟩ := exists_span isspace mem
    by_cases hstop : r1.headD NUL = NUL
    · exact ⟨[], h1 ▸ Lexes.eof ws r1 q hws hstop⟩
    · obtain ⟨w, r2, h2, hw, hr2⟩ := exists_span (fun c => decide (c ≠ NUL) && !isspace c) r1
      have hwc : ∀ c ∈ w, c ≠ NUL ∧ isspace c = false := by
        intro c hc
        have := hw c hc
        simpa using this
      have hwne : w ≠ [] := by
        rintro rfl
        cases r1 with
        | nil => exact hstop rfl
        | cons a r1 =>
          rw [List.nil_append] at h2
          have e1 := hr1 a rfl
          have e2 := hr2 a (by rw [← h2]; rfl)
          simp [e1] at e2
          exact hstop e2
      by_cases hstop2 : r2.headD NUL = NUL
      · exact ⟨_, h1 ▸ h2 ▸ Lexes.last ws w r2 q hws hwne hwc hstop2⟩
      · cases r2 with
        | nil => exact absurd rfl hstop2
        | cons d rest =>
          have hd : isspace d = true := by
            have e2 := hr2 d rfl
            have : d ≠ NUL := hstop2
            simpa [this] using e2
          have hlen : rest.length < n := by
            rw [h1, h2] at hn
            simp at hn
            omega
          obtain ⟨ls, hls⟩ := ih rest hlen (q + ws.length + w.length + 1)
          exact ⟨_, h1 ▸ h2 ▸ Lexes.more ws w d rest q ls hws hwne hwc hd hls⟩

theorem exists_lexes (mem : List Char) (q : Nat) : ∃ ls, Lexes mem q ls :=
  exists_lexes_aux (mem.length + 1) mem (Nat.lt_succ_self _) q

/-! ## The texts of the lexemes are the whitespace-separated tokens -/

theorem takeWhile_append_all (P : Char → Bool) (xs ys : List Char)
    (h : ∀ c ∈ xs, P c = true) : (xs ++ ys).takeWhile P = xs ++ ys.takeWhile P := by
  induction xs with
  | nil => rfl
  | cons a xs ih =>
    rw [List.cons_append, List.takeWhile_cons, h a (List.mem_cons_self _ _)]
    simp only [if_true, List.cons_append]
    rw [ih (fun c hc => h c (List.mem_cons_of_mem _ hc))]

theorem takeWhile_stop (rest : List Char) (h : rest.headD NUL = NUL) :
    rest.takeWhile (fun c => decide (c ≠ NUL)) = [] := by
  cases rest with
  | nil => rfl
  | cons d rest =>
    have : d = NUL := h
    simp [List.takeWhile, this]

theorem split_spaces (ws x : List Char) (hws : ∀ c ∈ ws, isspace c = true) :
    ((ws ++ x).splitOnP isspace).filter (fun w => w ≠ []) =
      (x.splitOnP isspace).filter (fun w => w ≠ []) := by
  induction ws with
  | nil => rfl
  | cons a ws ih =>
    rw [List.cons_append, List.splitOnP_cons, if_pos (hws a (List.mem_cons_self _ _))]
    simp only [ne_eq, not_true_eq_false, decide_False, Bool.false_eq_true, not_false_eq_true,
      List.filter_cons_of_neg]
    exact ih (fun c hc => hws c (List.mem_cons_of_mem _ hc))

theorem Lexes.tokens {mem : List Char} {q : Nat} {ls : List Lexeme} (h : Lexes mem q ls) :
    ls.map (fun l => l.text) = tokens mem := by
  induction h with
  | eof ws rest q hws hrest =>
    unfold Shell.tokens c_string
    rw [List.drop_zero, takeWhile_append_all _ _ _ (fun c hc => by
      simpa using ne_NUL_of_isspace (hws c hc)), takeWhile_stop _ hrest, split_spaces _ _ hws]
    rfl
  | last ws w rest q hws hw hwc hrest =>
    unfold Shell.tokens c_string
    rw [List.drop_zero, takeWhile_append_all _ _ _ (fun c hc => by
      simpa using ne_NUL_of_isspace (hws c hc)), takeWhile_append_all _ _ _ (fun c hc => by
      simpa using (hwc c hc).1), takeWhile_stop _ hrest, split_spaces _ _ hws,
      List.append_nil, List.splitOnP_eq_single _ _ (fun c hc => by simp [(hwc c hc).2])]
    simp [hw]
  | more ws w d rest q ls hws hw hwc hd _ ih =>
    have hdn : d ≠ NUL := ne_NUL_of_isspace hd
    unfold Shell.tokens c_string at ih ⊢
    rw [List.drop_zero] at ih ⊢
    rw [takeWhile_append_all _ _ _ (fun c hc => by
      simpa using ne_NUL_of_isspace (hws c hc)), takeWhile_append_all _ _ _ (fun c hc => by
      simpa using (hwc c hc).1), List.takeWhile_cons, if_pos (by simpa using hdn),
      split_spaces _ _ hws,
      List.splitOnP_first _ _ (fun c hc => by simp [(hwc c hc).2]) d hd]
    simp [hw, ih]

/-! ## The heap operations -/

theorem current_eq (p : parser_t) {a : Nat} {c : command_t} (h : p.current_command = some a)
    (hc : p.cmds[a]? = some c) : current p = .ok c := by
  unfold current
  rw [h]
  simp only [hc]

theorem set_current_eq (p : parser_t) {a : Nat} (c : command_t)
    (h : p.current_command = some a) (ha : a < p.cmds.length) :
    set_current p c = .ok { p with cmds := p.cmds.set a c } := by
  unfold set_current
  rw [h]
  simp only [ha, if_true]

theorem Roomy.fresh : Roomy fresh_command := ⟨Nat.zero_le _, Nat.one_pos, rfl⟩

theorem push_full (c : command_t) (x : char_ptr) (h : c.argc = c.capacity) :
    push c x = { argv := (realloc_array c.argv (2 * c.capacity)).set c.argc x,
                 argc := c.argc + 1, capacity := 2 * c.capacity, outfile := c.outfile,
                 next := c.next } := by
  unfold push
  rw [if_pos h]

theorem push_room (c : command_t) (x : char_ptr) (h : c.argc ≠ c.capacity) :
    push c x = { c with argv := c.argv.set c.argc x, argc := c.argc + 1 } := by
  unfold push
  rw [if_neg h]

theorem take_set_last (l : List char_ptr) (n : Nat) (x : char_ptr) (h : n < l.length) :
    (l.set n x).take (n + 1) = l.take n ++ [x] := by
  induction l generalizing n with
  | nil => simp at h
  | cons a l ih =>
    cases n with
    | zero => simp
    | succ n =>
      have := ih n (by simpa using h)
      simp [this]

theorem push_spec (c : command_t) (x : char_ptr) (h : Roomy c) :
    Roomy (push c x) ∧ (push c x).argc = c.argc + 1 ∧
      (push c x).argv.take (push c x).argc = c.argv.take c.argc ++ [x] ∧
      (push c x).outfile = c.outfile ∧ (push c x).next = c.next := by
  obtain ⟨h1, h2, h3⟩ := h
  by_cases hfull : c.argc = c.capacity
  · rw [push_full c x hfull]
    have e1 : realloc_array c.argv (2 * c.capacity) =
        c.argv ++ List.replicate c.capacity char_ptr.indeterminate := by
      unfold realloc_array
      rw [List.take_of_length_le (by omega), h3]
      congr 2
      omega
    have e2 : (realloc_array c.argv (2 * c.capacity)).length = 2 * c.capacity := by
      rw [e1, List.length_append, List.length_replicate, h3]; omega
    refine ⟨⟨?_, ?_, ?_⟩, rfl, ?_, rfl, rfl⟩
    · show c.argc + 1 ≤ 2 * c.capacity
      omega
    · show 0 < 2 * c.capacity
      omega
    · show ((realloc_array c.argv (2 * c.capacity)).set c.argc x).length = 2 * c.capacity
      rw [List.length_set, e2]
    · show ((realloc_array c.argv (2 * c.capacity)).set c.argc x).take (c.argc + 1) = _
      rw [take_set_last _ _ _ (by omega), e1, hfull, ← h3]
      simp
  · rw [push_room c x hfull]
    refine ⟨⟨?_, h2, ?_⟩, rfl, ?_, rfl, rfl⟩
    · show c.argc + 1 ≤ c.capacity
      omega
    · show (c.argv.set c.argc x).length = c.capacity
      rw [List.length_set, h3]
    · show (c.argv.set c.argc x).take (c.argc + 1) = _
      exact take_set_last _ _ _ (by omega)

theorem lt_length_of_get {cmds : List command_t} {a : Nat} {c : command_t}
    (hc : cmds[a]? = some c) : a < cmds.length := by
  by_contra hlt
  rw [List.getElem?_eq_none (Nat.le_of_not_lt hlt)] at hc
  exact Option.noConfusion hc

theorem check_capacity_full (p : parser_t) {a : Nat} {c : command_t}
    (h : p.current_command = some a) (hc : p.cmds[a]? = some c) (hfull : c.argc = c.capacity) :
    check_capacity p = .ok { p with cmds := (p.cmds.set a
      { c with argv := realloc_array c.argv (2 * c.capacity), capacity := 2 * c.capacity }) } := by
  unfold check_capacity
  rw [current_eq p h hc]
  show (if ¬ (c.argc ≤ c.capacity) then _ else if c.argc = c.capacity then _ else _) = _
  rw [if_neg (by omega), if_pos hfull, set_current_eq p _ h (lt_length_of_get hc)]

theorem check_capacity_room (p : parser_t) {a : Nat} {c : command_t}
    (h : p.current_command = some a) (hc : p.cmds[a]? = some c) (hroom : c.argc < c.capacity) :
    check_capacity p = .ok p := by
  unfold check_capacity
  rw [current_eq p h hc]
  show (if ¬ (c.argc ≤ c.capacity) then _ else if c.argc = c.capacity then _ else _) = _
  rw [if_neg (by omega), if_neg (by omega)]
  rfl

theorem store_eq (p : parser_t) {a : Nat} {c : command_t} (x : char_ptr)
    (h : p.current_command = some a) (hc : p.cmds[a]? = some c) (hroom : c.argc ≤ c.capacity) :
    (check_capacity p >>= fun p => current p >>= fun c =>
      set_current p { c with argv := c.argv.set c.argc x, argc := c.argc + 1 }) =
    .ok { p with cmds := p.cmds.set a (push c x) } := by
  have ha := lt_length_of_get hc
  by_cases hfull : c.argc = c.capacity
  · rw [check_capacity_full p h hc hfull, push_full c x hfull]
    simp [bind, Except.bind, current, set_current, h, ha]
  · rw [check_capacity_room p h hc (by omega), push_room c x hfull]
    simp [bind, Except.bind, current, set_current, h, hc, ha]

theorem add_word_to_command_eq (p : parser_t) (t : token_t) {a : Nat} {c : command_t}
    (h : p.current_command = some a) (hc : p.cmds[a]? = some c) (hroom : c.argc ≤ c.capacity) :
    add_word_to_command p t =
      .ok { p with cmds := p.cmds.set a (push c (char_ptr.addr t.begin)) } :=
  store_eq p _ h hc hroom

theorem add_NULL_to_command_eq (p : parser_t) {a : Nat} {c : command_t}
    (h : p.current_command = some a) (hc : p.cmds[a]? = some c) (hroom : c.argc ≤ c.capacity) :
    add_NULL_to_command p = .ok { p with cmds := p.cmds.set a (push c char_ptr.null) } :=
  store_eq p _ h hc hroom

theorem add_outfile_eq (p : parser_t) (t : token_t) {a : Nat} {c : command_t}
    (h : p.current_command = some a) (hc : p.cmds[a]? = some c) :
    add_outfile p t =
      .ok { p with cmds := p.cmds.set a { c with outfile := char_ptr.addr t.begin } } := by
  unfold add_outfile
  show (current p >>= _) = _
  rw [current_eq p h hc]
  show set_current _ _ = _
  rw [set_current_eq p _ h (lt_length_of_get hc)]

theorem add_command_first (p : parser_t) (h : p.current_command = none) :
    add_command p = .ok { p with cmds := p.cmds ++ [fresh_command],
                                 root := { p.root with first_command := some p.cmds.length },
                                 current_command := some p.cmds.length } := by
  unfold add_command
  simp only [h]
  rfl

theorem add_command_next (p : parser_t) {a : Nat} {c : command_t}
    (h : p.current_command = some a) (hc : p.cmds[a]? = some c) :
    add_command p = .ok { p with cmds := p.cmds.set a { c with next := some p.cmds.length } ++
                                   [fresh_command],
                                 current_command := some p.cmds.length } := by
  have ha := lt_length_of_get hc
  have ha' : a < p.cmds.length + 1 := by omega
  have hc' : (p.cmds ++ [fresh_command])[a]? = some c := by
    rw [List.getElem?_append_left ha, hc]
  unfold fresh_command at hc'
  unfold add_command fresh_command
  simp only [h, bind, Except.bind, current, set_current, pure, Except.pure]
  simp only [hc', List.length_append, List.length_singleton, ha', if_true,
    List.set_append_left _ _ ha]

/-! ## The recursive descent follows the parser on token lists -/

theorem set_self {cmds : List command_t} {a : Nat} {c : command_t} (hc : cmds[a]? = some c) :
    cmds.set a c = cmds := by
  induction cmds generalizing a with
  | nil => rfl
  | cons x cmds ih =>
    cases a with
    | zero =>
      have : x = c := by simpa using hc
      rw [this]; rfl
    | succ a =>
      have := ih (by simpa using hc)
      simp [this]

theorem get_set_self (cmds : List command_t) {a : Nat} (c : command_t) (ha : a < cmds.length) :
    (cmds.set a c)[a]? = some c := by
  simp [ha]

theorem next_token_word {l : Lexeme} {rest : List Lexeme} :
    (next_token (l :: rest)).type = l.type := rfl

theorem parse_simple_command_prime_spec (orig : List Char) (L : List Lexeme) (a : Nat) :
    ∀ (todo : List Lexeme) (fuel : Nat) (p : parser_t) (c : command_t),
      View orig L p todo → p.current_command = some a → p.cmds[a]? = some c → Roomy c →
      todo.length < fuel →
      ∃ p', parse_simple_command_prime fuel p = .ok (1, p') ∧
        View orig L p' (todo.dropWhile (fun l => decide (l.type = TOKEN_WORD))) ∧
        p'.cmds = p.cmds.set a
          ((todo.takeWhile (fun l => decide (l.type = TOKEN_WORD))).foldl push_word c) ∧
        p'.root = p.root ∧ p'.current_command = p.current_command := by
  intro todo
  induction todo with
  | nil =>
    intro fuel p c hv hcur hc _ hfuel
    obtain ⟨f, rfl⟩ : ∃ f, fuel = f + 1 := ⟨fuel - 1, by omega⟩
    obtain ⟨p1, hget, hnone, _, hv1, hroot, hcmds, hcur1⟩ := get_token_view hv
    refine ⟨{ p1 with prev_token := next_token [] }, ?_, hv1, ?_, hroot, hcur1⟩
    · unfold parse_simple_command_prime
      simp only [bind, Except.bind, hget]
      rw [if_neg (by simp [next_token]), putback_token_ok p1 _ hnone (by simp [next_token])]
      rfl
    · show p1.cmds = _
      rw [hcmds]
      exact (set_self hc).symm
  | cons l rest ih =>
    intro fuel p c hv hcur hc hroom hfuel
    obtain ⟨f, rfl⟩ : ∃ f, fuel = f + 1 := ⟨fuel - 1, by omega⟩
    obtain ⟨p1, hget, hnone, hv0, hv1, hroot, hcmds, hcur1⟩ := get_token_view hv
    by_cases hw : l.type = TOKEN_WORD
    · have hc1 : p1.cmds[a]? = some c := by rw [hcmds]; exact hc
      have hcur' : p1.current_command = some a := by rw [hcur1]; exact hcur
      have hadd := add_word_to_command_eq p1 (next_token (l :: rest)) hcur' hc1 hroom.1
      have ha := lt_length_of_get hc1
      obtain ⟨p', hrun, hv', hcmds', hroot', hcur''⟩ :=
        ih f { p1 with cmds := p1.cmds.set a (push c (char_ptr.addr l.begin)) } (push_word c l)
          (hv0.heap rfl rfl rfl) hcur' (get_set_self _ _ ha) (push_spec c _ hroom).1
          (by simp at hfuel; omega)
      refine ⟨p', ?_, ?_, ?_, by rw [hroot', ← hroot], by rw [hcur'', ← hcur1]⟩
      · have hw' : (next_token (l :: rest)).type = TOKEN_WORD := hw
        unfold parse_simple_command_prime
        simp only [bind, Except.bind, hget]
        rw [if_pos hw', hadd]
        exact hrun
      · rw [List.dropWhile_cons_of_pos (by simpa using hw)]
        exact hv'
      · rw [List.takeWhile_cons_of_pos (by simpa using hw), hcmds']
        show (p1.cmds.set a _).set a _ = _
        rw [List.set_set, hcmds]
        rfl
    · refine ⟨{ p1 with prev_token := next_token (l :: rest) }, ?_, ?_, ?_, hroot, hcur1⟩
      · have hw' : ¬ (next_token (l :: rest)).type = TOKEN_WORD := hw
        unfold parse_simple_command_prime
        simp only [bind, Except.bind, hget]
        rw [if_neg hw', putback_token_ok p1 _ hnone (next_token_type_ne_none _)]
        rfl
      · rw [List.dropWhile_cons_of_neg (by simpa using hw)]
        exact hv1
      · rw [List.takeWhile_cons_of_neg (by simpa using hw)]
        show p1.cmds = _
        rw [hcmds]
        exact (set_self hc).symm

theorem parse_simple_command_word (orig : List Char) (L : List Lexeme) (a : Nat)
    (l : Lexeme) (rest : List Lexeme) (fuel : Nat) (p : parser_t) (c : command_t)
    (hv : View orig L p (l :: rest)) (hcur : p.current_command = some a)
    (hc : p.cmds[a]? = some c) (hroom : Roomy c) (hfuel : rest.length < fuel)
    (hw : l.type = TOKEN_WORD) :
    ∃ p', parse_simple_command fuel p = .ok (1, p') ∧
      View orig L p' (rest.dropWhile (fun l => decide (l.type = TOKEN_WORD))) ∧
      p'.cmds = p.cmds.set a
        ((l :: rest.takeWhile (fun l => decide (l.type = TOKEN_WORD))).foldl push_word c) ∧
      p'.root = p.root ∧ p'.current_command = p.current_command := by
  obtain ⟨p1, hget, hnone, hv0, hv1, hroot, hcmds, hcur1⟩ := get_token_view hv
  have hc1 : p1.cmds[a]? = some c := by rw [hcmds]; exact hc
  have hcur' : p1.current_command = some a := by rw [hcur1]; exact hcur
  have hadd := add_word_to_command_eq p1 (next_token (l :: rest)) hcur' hc1 hroom.1
  have ha := lt_length_of_get hc1
  obtain ⟨p', hrun, hv', hcmds', hroot', hcur''⟩ :=
    parse_simple_command_prime_spec orig L a rest fuel
      { p1 with cmds := p1.cmds.set a (push c (char_ptr.addr l.begin)) } (push_word c l)
      (hv0.heap rfl rfl rfl) hcur' (get_set_self _ _ ha) (push_spec c _ hroom).1 hfuel
  have hw' : (next_token (l :: rest)).type = TOKEN_WORD := hw
  refine ⟨p', ?_, hv', ?_, by rw [hroot', ← hroot], by rw [hcur'', ← hcur1]⟩
  · unfold parse_simple_command
    simp only [bind, Except.bind, hget]
    rw [if_pos hw', hadd]
    exact hrun
  · rw [hcmds']
    show (p1.cmds.set a _).set a _ = _
    rw [List.set_set, hcmds]
    rfl

theorem parse_simple_command_fail (orig : List Char) (L : List Lexeme)
    (todo : List Lexeme) (fuel : Nat) (p : parser_t)
    (hv : View orig L p todo) (hw : (next_token todo).type ≠ TOKEN_WORD) :
    ∃ p', parse_simple_command fuel p = .ok (0, p') ∧ View orig L p' todo.tail ∧
      p'.cmds = p.cmds ∧ p'.root = p.root ∧ p'.current_command = p.current_command := by
  obtain ⟨p1, hget, _, hv0, _, hroot, hcmds, hcur1⟩ := get_token_view hv
  refine ⟨p1, ?_, hv0, hcmds, hroot, hcur1⟩
  unfold parse_simple_command
  simp only [bind, Except.bind, hget]
  rw [if_neg hw]
  rfl

theorem foldl_push_word_spec (ws : List Lexeme) (c : command_t) (h : Roomy c) :
    Roomy (ws.foldl push_word c) ∧ (ws.foldl push_word c).argc = c.argc + ws.length ∧
      (ws.foldl push_word c).argv.take (ws.foldl push_word c).argc =
        c.argv.take c.argc ++ ws.map (fun l => char_ptr.addr l.begin) ∧
      (ws.foldl push_word c).outfile = c.outfile ∧ (ws.foldl push_word c).next = c.next := by
  induction ws generalizing c with
  | nil => exact ⟨h, rfl, by simp, rfl, rfl⟩
  | cons l ws ih =>
    obtain ⟨h1, h2, h3, h4, h5⟩ := push_spec c (char_ptr.addr l.begin) h
    obtain ⟨g1, g2, g3, g4, g5⟩ := ih (push_word c l) h1
    refine ⟨g1, ?_, ?_, ?_, ?_⟩
    · rw [List.foldl_cons, g2]
      show (push c _).argc + _ = _
      rw [h2, List.length_cons]; omega
    · rw [List.foldl_cons, g3]
      show (push c _).argv.take (push c _).argc ++ _ = _
      rw [h3]; simp
    · rw [List.foldl_cons, g4]; exact h4
    · rw [List.foldl_cons, g5]; exact h5

theorem open_command_plain (ws : List Lexeme) :
    open_command { words := ws, out := none } = ws.foldl push_word fresh_command := by
  have h := (foldl_push_word_spec ws fresh_command Roomy.fresh).2.2.2.1
  unfold open_command out_ptr
  show ({ List.foldl push_word fresh_command ws with outfile := char_ptr.null } : command_t) = _
  have e : (List.foldl push_word fresh_command ws).outfile = char_ptr.null := h
  rw [← e]

theorem Roomy.open_command (st : Stage Lexeme) : Roomy (open_command st) :=
  (foldl_push_word_spec st.words fresh_command Roomy.fresh).1

theorem mem_of_mem_takeWhile {α : Type} (P : α → Bool) (l : List α) (x : α)
    (h : x ∈ l.takeWhile P) : x ∈ l := by
  induction l with
  | nil => exact h
  | cons a l ih =>
    by_cases ha : P a = true
    · rw [List.takeWhile_cons_of_pos ha] at h
      rcases List.mem_cons.1 h with rfl | h
      · exact List.mem_cons_self _ _
      · exact List.mem_cons_of_mem _ (ih h)
    · rw [List.takeWhile_cons_of_neg ha] at h
      exact absurd h (List.not_mem_nil _)

theorem failed_stage_open (todo ws : List Lexeme)
    (h : todo.takeWhile (fun x => decide (x.type = TOKEN_WORD)) = ws) :
    open_command (failed_stage Lexeme.type todo) = ws.foldl push_word fresh_command := by
  rw [← open_command_plain, ← h]
  rfl

theorem parse_command_spec (orig : List Char) (L : List Lexeme) (todo : List Lexeme)
    (fuel : Nat) (p p0 : parser_t) (a : Nat)
    (hv : View orig L p todo) (hadd : add_command p = .ok p0) (hb : p0.buf = p.buf)
    (hi : p0.input = p.input) (ht : p0.prev_token = p.prev_token)
    (hcur : p0.current_command = some a) (hc : p0.cmds[a]? = some fresh_command)
    (hfuel : todo.length ≤ fuel) :
    match abs_command Lexeme.type todo with
    | some (st, rest) =>
      ∃ p', parse_command fuel p = .ok (1, p') ∧ View orig L p' rest ∧
        p'.cmds = p0.cmds.set a (open_command st) ∧ p'.root = p0.root ∧
        p'.current_command = some a
    | none =>
      ∃ p' todo', parse_command fuel p = .ok (0, p') ∧ View orig L p' todo' ∧
        p'.root = p0.root ∧ p'.current_command = some a ∧
        p'.cmds.length = p0.cmds.length ∧
        p'.cmds = p0.cmds.set a (open_command (failed_stage Lexeme.type todo)) ∧
        ∃ consumed, todo = consumed ++ todo' ∧ (todo ≠ [] → consumed ≠ []) ∧
          ∀ l ∈ (failed_stage Lexeme.type todo).words, l ∈ consumed := by
  have hv0 : View orig L p0 todo := hv.heap hb hi ht
  by_cases hw : (next_token todo).type = TOKEN_WORD
  · -- the stage starts with a word
    cases todo with
    | nil => simp [next_token] at hw
    | cons l rest0 =>
      have hw' : l.type = TOKEN_WORD := hw
      obtain ⟨p1, hsc, hv1, hcmds1, hroot1, hcur1⟩ :=
        parse_simple_command_word orig L a l rest0 fuel p0 fresh_command hv0 hcur hc
          Roomy.fresh (by simpa using hfuel) hw'
      have htake : (l :: rest0).takeWhile (fun x => decide (x.type = TOKEN_WORD)) =
          l :: rest0.takeWhile (fun x => decide (x.type = TOKEN_WORD)) :=
        List.takeWhile_cons_of_pos (by simpa using hw')
      have hdrop : (l :: rest0).dropWhile (fun x => decide (x.type = TOKEN_WORD)) =
          rest0.dropWhile (fun x => decide (x.type = TOKEN_WORD)) :=
        List.dropWhile_cons_of_pos (by simpa using hw')
      have hcur1' : p1.current_command = some a := by rw [hcur1, hcur]
      have ha : a < p0.cmds.length := lt_length_of_get hc
      obtain ⟨p2, hget2, hnone2, hv2, hv2', hroot2, hcmds2, hcur2⟩ := get_token_view hv1
      generalize hd : rest0.dropWhile (fun x => decide (x.type = TOKEN_WORD)) = d at *
      cases d with
      | nil =>
        have habs : abs_command Lexeme.type (l :: rest0) =
            some ({ words := l :: rest0.takeWhile (fun x => decide (x.type = TOKEN_WORD)),
                    out := none }, []) := by
          simp only [abs_command, htake, hdrop, hd]
        rw [habs]
        refine ⟨{ p2 with prev_token := next_token [] }, ?_, hv2', ?_, by
          show p2.root = _
          rw [hroot2, hroot1], by
          show p2.current_command = _
          rw [hcur2, hcur1']⟩
        · unfold parse_command
          simp only [bind, Except.bind, hadd, hsc, hget2]
          rw [if_pos (by decide), if_neg (by simp [next_token]),
            putback_token_ok p2 _ hnone2 (by simp [next_token])]
          rfl
        · show p2.cmds = _
          rw [hcmds2, hcmds1, open_command_plain]
      | cons r rest =>
        by_cases hr : r.type = TOKEN_OUT_REDIRECT
        · have hr' : (next_token (r :: rest)).type = TOKEN_OUT_REDIRECT := hr
          have hv2r : View orig L p2 rest := hv2
          obtain ⟨p3, hget3, _, hv3, _, hroot3, hcmds3, hcur3⟩ := get_token_view hv2r
          have hcur3' : p3.current_command = some a := by rw [hcur3, hcur2, hcur1']
          have hroot3' : p3.root = p0.root := by rw [hroot3, hroot2, hroot1]
          have hcmds3' : p3.cmds = p0.cmds.set a (List.foldl push_word fresh_command
              (l :: rest0.takeWhile (fun x => decide (x.type = TOKEN_WORD)))) := by
            rw [hcmds3, hcmds2, hcmds1]
          cases rest with
          | nil =>
            have habs : abs_command Lexeme.type (l :: rest0) = none := by
              simp only [abs_command, htake, hdrop, hd]
              rw [if_pos hr]
            rw [habs]
            refine ⟨p3, [], ?_, hv3, hroot3', hcur3', by rw [hcmds3']; simp,
              by rw [hcmds3', failed_stage_open _ _ htake], l :: rest0, by simp,
              fun _ => List.cons_ne_nil _ _,
              fun x hx => mem_of_mem_takeWhile (fun x => decide (Lexeme.type x = TOKEN_WORD)) _ _ hx⟩
            unfold parse_command
            simp only [bind, Except.bind, hadd, hsc, hget2, hget3]
            rw [if_pos (by decide), if_pos hr', if_neg (by simp [next_token])]
            rfl
          | cons f rest' =>
            by_cases hf : f.type = TOKEN_WORD
            · have hf' : (next_token (f :: rest')).type = TOKEN_WORD := hf
              have habs : abs_command Lexeme.type (l :: rest0) =
                  some ({ words := l :: rest0.takeWhile (fun x => decide (x.type = TOKEN_WORD)),
                          out := some f }, rest') := by
                simp only [abs_command, htake, hdrop, hd]
                rw [if_pos hr, if_pos hf]
              rw [habs]
              have hc3 : p3.cmds[a]? = some (List.foldl push_word fresh_command
                  (l :: rest0.takeWhile (fun x => decide (x.type = TOKEN_WORD)))) := by
                rw [hcmds3']
                exact get_set_self _ _ ha
              have hout := add_outfile_eq p3 (next_token (f :: rest')) hcur3' hc3
              obtain ⟨p4, hp4, hb4, hi4, ht4, hc4, hr4, hcur4⟩ :
                  ∃ p4, add_outfile p3 (next_token (f :: rest')) = .ok p4 ∧ p4.buf = p3.buf ∧
                    p4.input = p3.input ∧ p4.prev_token = p3.prev_token ∧
                    p4.cmds = p3.cmds.set a _ ∧ p4.root = p3.root ∧
                    p4.current_command = p3.current_command :=
                ⟨_, hout, rfl, rfl, rfl, rfl, rfl, rfl⟩
              refine ⟨p4, ?_, ?_, ?_, ?_, ?_⟩
              · unfold parse_command
                simp only [bind, Except.bind, hadd, hsc, hget2, hget3]
                rw [if_pos (by decide), if_pos hr', if_pos hf', hp4]
                rfl
              · exact hv3.heap hb4 hi4 ht4
              · rw [hc4, hcmds3', List.set_set]
                rfl
              · rw [hr4, hroot3']
              · rw [hcur4, hcur3']
            · have hf' : ¬ (next_token (f :: rest')).type = TOKEN_WORD := hf
              have habs : abs_command Lexeme.type (l :: rest0) = none := by
                simp only [abs_command, htake, hdrop, hd]
                rw [if_pos hr, if_neg hf]
              rw [habs]
              have hsplit := List.takeWhile_append_dropWhile
                (fun x : Lexeme => decide (x.type = TOKEN_WORD)) rest0
              rw [hd] at hsplit
              refine ⟨p3, rest', ?_, hv3, hroot3', hcur3', by rw [hcmds3']; simp,
                by rw [hcmds3', failed_stage_open _ _ htake],
                (l :: rest0.takeWhile (fun x => decide (x.type = TOKEN_WORD))) ++ [r, f],
                by conv_lhs => rw [← hsplit]
                   simp,
                fun _ => by simp,
                fun x hx => ?_⟩
              swap
              · have hx' : x ∈ (l :: rest0).takeWhile (fun x => decide (x.type = TOKEN_WORD)) := hx
                rw [htake] at hx'
                exact List.mem_append_left _ hx'
              unfold parse_command
              simp only [bind, Except.bind, hadd, hsc, hget2, hget3]
              rw [if_pos (by decide), if_pos hr', if_neg hf']
              rfl
        · have habs : abs_command Lexeme.type (l :: rest0) =
              some ({ words := l :: rest0.takeWhile (fun x => decide (x.type = TOKEN_WORD)),
                      out := none }, r :: rest) := by
            simp only [abs_command, htake, hdrop, hd]
            rw [if_neg hr]
          rw [habs]
          have hr' : ¬ (next_token (r :: rest)).type = TOKEN_OUT_REDIRECT := hr
          refine ⟨{ p2 with prev_token := next_token (r :: rest) }, ?_, hv2', ?_, by
            show p2.root = _
            rw [hroot2, hroot1], by
            show p2.current_command = _
            rw [hcur2, hcur1']⟩
          · unfold parse_command
            simp only [bind, Except.bind, hadd, hsc, hget2]
            rw [if_pos (by decide), if_neg hr',
              putback_token_ok p2 _ hnone2 (next_token_type_ne_none _)]
            rfl
          · show p2.cmds = _
            rw [hcmds2, hcmds1, open_command_plain]
  · -- no word: a syntax error
    have habs : abs_command Lexeme.type todo = none := by
      cases todo with
      | nil => simp [abs_command]
      | cons l rest0 =>
        have hw' : ¬ l.type = TOKEN_WORD := hw
        simp [abs_command, List.takeWhile_cons_of_neg, hw']
    rw [habs]
    obtain ⟨p1, hsc, hv1, hcmds1, hroot1, hcur1⟩ :=
      parse_simple_command_fail orig L todo fuel p0 hv0 hw
    have htk : todo.takeWhile (fun x => decide (x.type = TOKEN_WORD)) = [] := by
      cases todo with
      | nil => rfl
      | cons l rest0 =>
        have hw' : ¬ l.type = TOKEN_WORD := hw
        exact List.takeWhile_cons_of_neg (by simpa using hw')
    refine ⟨p1, todo.tail, ?_, hv1, hroot1, by rw [hcur1, hcur], by rw [hcmds1],
      by rw [hcmds1, failed_stage_open _ _ htk]; exact (set_self hc).symm,
      todo.take 1, by cases todo <;> simp, fun hne => by cases todo <;> simp at hne ⊢,
      fun x hx => ?_⟩
    swap
    · have hx' : x ∈ todo.takeWhile (fun x => decide (x.type = TOKEN_WORD)) := hx
      rw [htk] at hx'
      exact absurd hx' (List.not_mem_nil _)
    unfold parse_command
    simp only [bind, Except.bind, hadd, hsc]
    rfl

theorem abs_command_consumed {α : Type} (ty : α → token_type_t) (todo : List α)
    (st : Stage α) (rest : List α) (h : abs_command ty todo = some (st, rest)) :
    ∃ consumed, todo = consumed ++ rest ∧ ∀ l ∈ st.lexemes, l ∈ consumed := by
  have hsplit := List.takeWhile_append_dropWhile (fun x => decide (ty x = TOKEN_WORD)) todo
  unfold abs_command at h
  generalize todo.takeWhile (fun x => decide (ty x = TOKEN_WORD)) = ws at h hsplit
  generalize todo.dropWhile (fun x => decide (ty x = TOKEN_WORD)) = ds at h hsplit
  subst hsplit
  cases ws with
  | nil => exact Option.noConfusion h
  | cons w ws =>
    cases ds with
    | nil =>
      obtain ⟨rfl, rfl⟩ := Prod.mk.inj (Option.some.inj h)
      exact ⟨w :: ws, rfl, fun l hl => by simpa [Stage.lexemes] using hl⟩
    | cons r ds =>
      by_cases hr : ty r = TOKEN_OUT_REDIRECT
      · cases ds with
        | nil => simp [hr] at h
        | cons f ds =>
          by_cases hf : ty f = TOKEN_WORD
          · simp only [hr, hf, if_true] at h
            obtain ⟨rfl, rfl⟩ := Prod.mk.inj (Option.some.inj h)
            refine ⟨(w :: ws) ++ [r, f], by simp, fun l hl => ?_⟩
            simp only [Stage.lexemes, Option.toList, List.mem_append, List.mem_singleton] at hl
            rcases hl with hl | rfl
            · exact List.mem_append_left _ hl
            · simp
          · simp [hr, hf] at h
      · simp only [hr, if_false] at h
        obtain ⟨rfl, rfl⟩ := Prod.mk.inj (Option.some.inj h)
        exact ⟨w :: ws, rfl, fun l hl => by simpa [Stage.lexemes] using hl⟩

theorem abs_command_length {α : Type} (ty : α → token_type_t) (todo : List α)
    (st : Stage α) (rest : List α) (h : abs_command ty todo = some (st, rest)) :
    rest.length < todo.length := by
  have hsplit := List.takeWhile_append_dropWhile (fun x => decide (ty x = TOKEN_WORD)) todo
  have hlen : todo.length = (todo.takeWhile (fun x => decide (ty x = TOKEN_WORD))).length +
      (todo.dropWhile (fun x => decide (ty x = TOKEN_WORD))).length := by
    rw [← List.length_append, hsplit]
  unfold abs_command at h
  generalize todo.takeWhile (fun x => decide (ty x = TOKEN_WORD)) = ws at h hlen
  generalize todo.dropWhile (fun x => decide (ty x = TOKEN_WORD)) = ds at h hlen
  cases ws with
  | nil => simp at h
  | cons w ws =>
    cases ds with
    | nil =>
      simp only [Option.some.injEq, Prod.mk.injEq] at h
      rw [← h.2, hlen]; simp
    | cons r rest1 =>
      by_cases hr : ty r = TOKEN_OUT_REDIRECT
      · cases rest1 with
        | nil => simp [hr] at h
        | cons f rest2 =>
          by_cases hf : ty f = TOKEN_WORD
          · simp only [hr, hf, if_true, Option.some.injEq, Prod.mk.injEq] at h
            rw [← h.2, hlen]; simp; omega
          · simp [hr, hf] at h
      · simp only [hr, if_false, Option.some.injEq, Prod.mk.injEq] at h
        rw [← h.2, hlen]; simp

theorem getElem?_append_last (H : List command_t) (c : command_t) :
    (H ++ [c])[H.length]? = some c := by
  simp

theorem set_append_last (H : List command_t) (c c' : command_t) :
    (H ++ [c]).set H.length c' = H ++ [c'] := by
  rw [List.set_append_right _ _ (Nat.le_refl _), Nat.sub_self]
  rfl

theorem parse_pipeline_prime_spec (orig : List Char) (L : List Lexeme) :
    ∀ (fuel : Nat) (todo : List Lexeme) (p : parser_t) (H : List command_t) (c : command_t),
      View orig L p todo → p.cmds = H ++ [c] → p.current_command = some H.length → Roomy c →
      todo.length < fuel →
      match abs_pipeline_prime Lexeme.type fuel todo with
      | some (sts, left) =>
        ∃ p', parse_pipeline_prime fuel p = .ok (1, p') ∧ View orig L p' left ∧
          p'.cmds = layout H c sts ∧ p'.current_command = some (H.length + sts.length) ∧
          p'.root = p.root
      | none =>
        ∃ p' todo', parse_pipeline_prime fuel p = .ok (0, p') ∧ View orig L p' todo' ∧
          p'.root = p.root ∧ p'.current_command ≠ none ∧
          p'.cmds = layout H c (abs_prime_trace Lexeme.type fuel todo) ∧
          ∃ consumed, todo = consumed ++ todo' ∧
            ∀ st ∈ abs_prime_trace Lexeme.type fuel todo, ∀ l ∈ st.lexemes, l ∈ consumed := by
  intro fuel
  induction fuel with
  | zero => exact fun _ _ _ _ _ _ _ _ h => absurd h (Nat.not_lt_zero _)
  | succ f ih =>
    intro todo p H c hv hcmds hcur hroom hfuel
    obtain ⟨p1, hget, hnone, hv0, hv1, hroot, hcmds1, hcur1⟩ := get_token_view hv
    by_cases hp : (next_token todo).type = TOKEN_PIPE
    · cases todo with
      | nil => simp [next_token] at hp
      | cons t rest =>
        have hp' : t.type = TOKEN_PIPE := hp
        have hcur1' : p1.current_command = some H.length := by rw [hcur1, hcur]
        have hc1 : p1.cmds[H.length]? = some c := by
          rw [hcmds1, hcmds]; exact getElem?_append_last H c
        obtain ⟨p2, hp2, hb2, hi2, ht2, hc2, hr2, hcur2⟩ :
            ∃ p2, add_NULL_to_command p1 = .ok p2 ∧ p2.buf = p1.buf ∧ p2.input = p1.input ∧
              p2.prev_token = p1.prev_token ∧
              p2.cmds = p1.cmds.set H.length (push c char_ptr.null) ∧ p2.root = p1.root ∧
              p2.current_command = p1.current_command :=
          ⟨_, add_NULL_to_command_eq p1 hcur1' hc1 hroom.1, rfl, rfl, rfl, rfl, rfl, rfl⟩
        have hc2' : p2.cmds = H ++ [push c char_ptr.null] := by
          rw [hc2, hcmds1, hcmds, set_append_last]
        have hcur2' : p2.current_command = some H.length := by rw [hcur2, hcur1']
        have hget2 : p2.cmds[H.length]? = some (push c char_ptr.null) := by
          rw [hc2']; exact getElem?_append_last _ _
        obtain ⟨p0, hp0, hb0, hi0, ht0, hc0, hr0, hcur0⟩ :
            ∃ p0, add_command p2 = .ok p0 ∧ p0.buf = p2.buf ∧ p0.input = p2.input ∧
              p0.prev_token = p2.prev_token ∧
              p0.cmds = p2.cmds.set H.length
                { push c char_ptr.null with next := some p2.cmds.length } ++ [fresh_command] ∧
              p0.root = p2.root ∧ p0.current_command = some p2.cmds.length :=
          ⟨_, add_command_next p2 hcur2' hget2, rfl, rfl, rfl, rfl, rfl, rfl⟩
        have hlen2 : p2.cmds.length = H.length + 1 := by rw [hc2']; simp
        have hc0' : p0.cmds = (H ++ [{ push c char_ptr.null with next := some (H.length + 1) }])
            ++ [fresh_command] := by
          rw [hc0, hlen2, hc2', set_append_last]
        have hv2 : View orig L p2 rest := hv0.heap hb2 hi2 ht2
        have hpc := parse_command_spec orig L rest f p2 p0 (H.length + 1) hv2 hp0 hb0 hi0 ht0
          (by rw [hcur0, hlen2]) (by
            rw [hc0']
            have := getElem?_append_last
              (H ++ [{ push c char_ptr.null with next := some (H.length + 1) }]) fresh_command
            simpa using this) (by simp at hfuel; omega)
        cases habs : abs_command Lexeme.type rest with
        | none =>
          rw [habs] at hpc
          obtain ⟨p3, todo3, hrun3, hv3, hroot3, hcur3, _, hcmds3, cons, hcons, _, hmem⟩ := hpc
          have hres : abs_pipeline_prime Lexeme.type (f + 1) (t :: rest) = none := by
            simp only [abs_pipeline_prime, hp', habs, if_true]
          have htr : abs_prime_trace Lexeme.type (f + 1) (t :: rest) =
              [failed_stage Lexeme.type rest] := by
            simp only [abs_prime_trace, hp', habs, if_true]
          rw [hres, htr]
          refine ⟨p3, todo3, ?_, hv3, by rw [hroot3, hr0, hr2, hroot], by rw [hcur3]; simp,
            ?_, t :: cons, by rw [hcons]; rfl, ?_⟩
          rotate_left
          · rw [hcmds3, hc0']
            have := set_append_last
              (H ++ [{ push c char_ptr.null with next := some (H.length + 1) }]) fresh_command
              (open_command (failed_stage Lexeme.type rest))
            simp at this
            simp [this, layout]
          · intro st hst l hl
            rw [List.mem_singleton.1 hst] at hl
            have hl' : l ∈ (failed_stage Lexeme.type rest).words := by
              simpa [Stage.lexemes, failed_stage] using hl
            exact List.mem_cons_of_mem _ (hmem l hl')
          unfold parse_pipeline_prime
          simp only [bind, Except.bind, hget]
          rw [if_pos hp, hp2]
          simp only [hrun3]
          rfl
        | some res =>
          obtain ⟨st, rest'⟩ := res
          rw [habs] at hpc
          obtain ⟨p3, hrun3, hv3, hcmds3, hroot3, hcur3⟩ := hpc
          have hcmds3' : p3.cmds =
              (H ++ [{ push c char_ptr.null with next := some (H.length + 1) }]) ++
                [open_command st] := by
            rw [hcmds3, hc0']
            have := set_append_last
              (H ++ [{ push c char_ptr.null with next := some (H.length + 1) }]) fresh_command
              (open_command st)
            simp at this
            simp [this]
          have hlt := abs_command_length Lexeme.type rest st rest' habs
          have hrec := ih rest' p3 _ _ hv3 hcmds3' (by rw [hcur3]; simp) (Roomy.open_command st)
            (by simp at hfuel; omega)
          have hstep : parse_pipeline_prime (f + 1) p = parse_pipeline_prime f p3 := by
            rw [parse_pipeline_prime]
            simp only [bind, Except.bind, hget]
            rw [if_pos hp, hp2]
            simp only [hrun3]
            rfl
          cases hrest : abs_pipeline_prime Lexeme.type f rest' with
          | none =>
            rw [hrest] at hrec
            obtain ⟨p4, todo4, hrun4, hv4, hroot4, hcur4, hcmds4, cons4, hcons4, hmem4⟩ := hrec
            have hres : abs_pipeline_prime Lexeme.type (f + 1) (t :: rest) = none := by
              simp only [abs_pipeline_prime, hp', habs, hrest, if_true]
            have htr : abs_prime_trace Lexeme.type (f + 1) (t :: rest) =
                st :: abs_prime_trace Lexeme.type f rest' := by
              simp only [abs_prime_trace, hp', habs, if_true]
            obtain ⟨cons3, hcons3, hmem3⟩ := abs_command_consumed Lexeme.type rest st rest' habs
            rw [hres, htr]
            refine ⟨p4, todo4, by rw [hstep, hrun4], hv4,
              by rw [hroot4, hroot3, hr0, hr2, hroot], hcur4, by rw [hcmds4]; rfl,
              t :: (cons3 ++ cons4), by rw [hcons3, hcons4]; simp, ?_⟩
            intro x hx l hl
            rcases List.mem_cons.1 hx with rfl | hx
            · exact List.mem_cons_of_mem _ (List.mem_append_left _ (hmem3 l hl))
            · exact List.mem_cons_of_mem _ (List.mem_append_right _ (hmem4 x hx l hl))
          | some res2 =>
            obtain ⟨sts, left⟩ := res2
            rw [hrest] at hrec
            obtain ⟨p4, hrun4, hv4, hcmds4, hcur4, hroot4⟩ := hrec
            have hres : abs_pipeline_prime Lexeme.type (f + 1) (t :: rest) =
                some (st :: sts, left) := by
              simp only [abs_pipeline_prime, hp', habs, hrest, if_true]
            rw [hres]
            refine ⟨p4, by rw [hstep, hrun4], hv4, by rw [hcmds4]; rfl, ?_,
              by rw [hroot4, hroot3, hr0, hr2, hroot]⟩
            rw [hcur4]
            simp
            omega
    · have hres : abs_pipeline_prime Lexeme.type (f + 1) todo = some ([], todo) := by
        cases todo with
        | nil => rfl
        | cons t rest =>
          have hp' : ¬ t.type = TOKEN_PIPE := hp
          simp only [abs_pipeline_prime, hp', if_false]
      rw [hres]
      refine ⟨{ p1 with prev_token := next_token todo }, ?_, hv1, ?_, ?_, hroot⟩
      · unfold parse_pipeline_prime
        simp only [bind, Except.bind, hget]
        rw [if_neg hp, putback_token_ok p1 _ hnone (next_token_type_ne_none _)]
        rfl
      · show p1.cmds = _
        rw [hcmds1, hcmds]; rfl
      · show p1.current_command = _
        rw [hcur1, hcur]; rfl

theorem abs_pipeline_prime_fuel {α : Type} (ty : α → token_type_t) :
    ∀ (f1 f2 : Nat) (todo : List α), todo.length < f1 → todo.length < f2 →
      abs_pipeline_prime ty f1 todo = abs_pipeline_prime ty f2 todo := by
  intro f1
  induction f1 with
  | zero => exact fun _ _ h => absurd h (Nat.not_lt_zero _)
  | succ f1 ih =>
    intro f2 todo h1 h2
    obtain ⟨g, rfl⟩ : ∃ g, f2 = g + 1 := ⟨f2 - 1, by omega⟩
    cases todo with
    | nil => rfl
    | cons t rest =>
      by_cases hp : ty t = TOKEN_PIPE
      · cases habs : abs_command ty rest with
        | none => simp only [abs_pipeline_prime, hp, habs, if_true]
        | some res =>
          obtain ⟨st, rest'⟩ := res
          have hlt := abs_command_length ty rest st rest' habs
          have := ih g rest' (by simp at h1; omega) (by simp at h2; omega)
          simp only [abs_pipeline_prime, hp, habs, this, if_true]
      · simp only [abs_pipeline_prime, hp, if_false]

theorem abs_prime_trace_fuel {α : Type} (ty : α → token_type_t) :
    ∀ (f1 f2 : Nat) (todo : List α), todo.length < f1 → todo.length < f2 →
      abs_prime_trace ty f1 todo = abs_prime_trace ty f2 todo := by
  intro f1
  induction f1 with
  | zero => exact fun _ _ h => absurd h (Nat.not_lt_zero _)
  | succ f1 ih =>
    intro f2 todo h1 h2
    obtain ⟨g, rfl⟩ : ∃ g, f2 = g + 1 := ⟨f2 - 1, by omega⟩
    cases todo with
    | nil => rfl
    | cons t rest =>
      by_cases hp : ty t = TOKEN_PIPE
      · cases habs : abs_command ty rest with
        | none => simp only [abs_prime_trace, hp, habs, if_true]
        | some res =>
          obtain ⟨st, rest'⟩ := res
          have hlt := abs_command_length ty rest st rest' habs
          have := ih g rest' (by simp at h1; omega) (by simp at h2; omega)
          simp only [abs_prime_trace, hp, habs, this, if_true]
      · simp only [abs_prime_trace, hp, if_false]

theorem abs_pipeline_prime_consumed {α : Type} (ty : α → token_type_t) :
    ∀ (n : Nat) (todo : List α) (sts : List (Stage α)) (left : List α),
      abs_pipeline_prime ty n todo = some (sts, left) →
      abs_prime_trace ty n todo = sts ∧
      ∃ consumed, todo = consumed ++ left ∧ ∀ st ∈ sts, ∀ l ∈ st.lexemes, l ∈ consumed := by
  intro n
  induction n with
  | zero => exact fun _ _ _ h => by simp [abs_pipeline_prime] at h
  | succ n ih =>
    intro todo sts left h
    cases todo with
    | nil =>
      simp only [abs_pipeline_prime, Option.some.injEq, Prod.mk.injEq] at h
      obtain ⟨rfl, rfl⟩ := h
      exact ⟨rfl, [], rfl, fun _ h => absurd h (List.not_mem_nil _)⟩
    | cons t rest =>
      by_cases hp : ty t = TOKEN_PIPE
      · cases habs : abs_command ty rest with
        | none => simp [abs_pipeline_prime, hp, habs] at h
        | some res =>
          obtain ⟨st, rest'⟩ := res
          cases hrec : abs_pipeline_prime ty n rest' with
          | none => simp [abs_pipeline_prime, hp, habs, hrec] at h
          | some res2 =>
            obtain ⟨sts', left'⟩ := res2
            simp only [abs_pipeline_prime, hp, habs, hrec, if_true, Option.some.injEq,
              Prod.mk.injEq] at h
            obtain ⟨rfl, rfl⟩ := h
            obtain ⟨c1, hc1, hm1⟩ := abs_command_consumed ty rest st rest' habs
            obtain ⟨htr, c2, hc2, hm2⟩ := ih rest' sts' left' hrec
            refine ⟨by simp only [abs_prime_trace, hp, habs, htr, if_true],
              t :: (c1 ++ c2), by rw [hc1, hc2]; simp, ?_⟩
            intro x hx l hl
            rcases List.mem_cons.1 hx with rfl | hx
            · exact List.mem_cons_of_mem _ (List.mem_append_left _ (hm1 l hl))
            · exact List.mem_cons_of_mem _ (List.mem_append_right _ (hm2 x hx l hl))
      · simp only [abs_pipeline_prime, hp, if_false, Option.some.injEq, Prod.mk.injEq] at h
        obtain ⟨rfl, rfl⟩ := h
        exact ⟨by simp only [abs_prime_trace, hp, if_false], [], rfl,
          fun _ h => absurd h (List.not_mem_nil _)⟩

theorem expect_token_eof_nil (orig : List Char) (L : List Lexeme) (p : parser_t)
    (hv : View orig L p []) :
    ∃ p', expect_token p TOKEN_EOF = .ok (1, p') ∧ View orig L p' [] ∧ p'.cmds = p.cmds ∧
      p'.root = p.root ∧ p'.current_command = p.current_command := by
  obtain ⟨p1, hget, _, hv0, _, hroot, hcmds, hcur⟩ := get_token_view hv
  refine ⟨p1, ?_, hv0, hcmds, hroot, hcur⟩
  unfold expect_token
  simp only [bind, Except.bind, hget]
  rfl

theorem expect_token_eof_cons (orig : List Char) (L : List Lexeme) (p : parser_t)
    (t : Lexeme) (rest : List Lexeme) (hv : View orig L p (t :: rest)) :
    ∃ p', expect_token p TOKEN_EOF = .ok (0, p') ∧ View orig L p' (t :: rest) ∧
      p'.cmds = p.cmds ∧ p'.root = p.root ∧ p'.current_command = p.current_command := by
  obtain ⟨p1, hget, hnone, _, hv1, hroot, hcmds, hcur⟩ := get_token_view hv
  refine ⟨{ p1 with prev_token := next_token (t :: rest) }, ?_, hv1, hcmds, hroot, hcur⟩
  have hne : ¬ (next_token (t :: rest)).type = TOKEN_EOF := token_type_ne_eof _
  unfold expect_token
  simp only [bind, Except.bind, hget]
  rw [if_neg hne, putback_token_ok p1 _ hnone (next_token_type_ne_none _)]
  rfl

theorem layout_close (sts : List (Stage Lexeme)) :
    ∀ (H : List command_t) (c : command_t), Roomy c →
      ∃ H' c', layout H c sts = H' ++ [c'] ∧ H'.length = H.length + sts.length ∧ Roomy c' ∧
        H' ++ [push c' char_ptr.null] = H ++ chain_cmds H.length c sts := by
  induction sts with
  | nil => exact fun H c h => ⟨H, c, rfl, rfl, h, rfl⟩
  | cons st sts ih =>
    intro H c _
    obtain ⟨H', c', h1, h2, h3, h4⟩ :=
      ih (H ++ [{ push c char_ptr.null with next := some (H.length + 1) }]) (open_command st)
        (Roomy.open_command st)
    refine ⟨H', c', h1, ?_, h3, ?_⟩
    · rw [h2]; simp; omega
    · rw [h4]; simp [chain_cmds]

theorem parse_pipeline_spec (orig : List Char) (L : List Lexeme) (todo : List Lexeme)
    (fuel : Nat) (p : parser_t) (hv : View orig L p todo) (hcmds : p.cmds = [])
    (hcur : p.current_command = none) (hfuel : todo.length < fuel) :
    match abs_pipeline Lexeme.type todo with
    | some [] =>
      ∃ p', parse_pipeline fuel p = .ok (1, p') ∧ View orig L p' [] ∧ p'.cmds = [] ∧
        p'.root = p.root
    | some (st :: sts) =>
      ∃ p', parse_pipeline fuel p = .ok (1, p') ∧ View orig L p' [] ∧
        p'.cmds = chain_cmds 0 (open_command st) sts ∧
        p'.root = { p.root with first_command := some 0 }
    | none =>
      ∃ p' todo', parse_pipeline fuel p = .ok (0, p') ∧ View orig L p' todo' ∧
        p'.root = { p.root with first_command := some 0 } ∧
        (∃ st0 sts0, abs_trace Lexeme.type todo = st0 :: sts0 ∧
          p'.cmds = layout [] (open_command st0) sts0) ∧
        ∃ consumed, todo = consumed ++ todo' ∧ consumed ≠ [] ∧
          ∀ st ∈ abs_trace Lexeme.type todo, ∀ l ∈ st.lexemes, l ∈ consumed := by
  obtain ⟨p1, hget, hnone, hv0, hv1, hroot, hcmds1, hcur1⟩ := get_token_view hv
  cases todo with
  | nil =>
    refine ⟨p1, ?_, hv0, by rw [hcmds1, hcmds], hroot⟩
    unfold parse_pipeline
    simp only [bind, Except.bind, hget]
    rfl
  | cons t rest =>
    have hne : ¬ (next_token (t :: rest)).type = TOKEN_EOF := token_type_ne_eof _
    obtain ⟨p0, hp0, hb0, hi0, ht0, hc0, hr0, hcur0⟩ :
        ∃ p0, add_command { p1 with prev_token := next_token (t :: rest) } = .ok p0 ∧
          p0.buf = p1.buf ∧ p0.input = p1.input ∧ p0.prev_token = next_token (t :: rest) ∧
          p0.cmds = p1.cmds ++ [fresh_command] ∧
          p0.root = { p1.root with first_command := some p1.cmds.length } ∧
          p0.current_command = some p1.cmds.length :=
      ⟨_, add_command_first _ (by show p1.current_command = none; rw [hcur1, hcur]),
        rfl, rfl, rfl, rfl, rfl, rfl⟩
    have hnil : p1.cmds = [] := by rw [hcmds1, hcmds]
    rw [hnil] at hc0 hr0 hcur0
    have hstart : parse_pipeline fuel p =
        (parse_command fuel { p1 with prev_token := next_token (t :: rest) } >>= fun x =>
          if x.1 = 0 then pure (0, x.2) else
            parse_pipeline_prime fuel x.2 >>= fun y =>
              if y.1 = 0 then pure (0, y.2) else
                expect_token y.2 TOKEN_EOF >>= fun z =>
                  if z.1 ≠ 0 then add_NULL_to_command z.2 >>= fun q => pure (1, q)
                  else pure (0, z.2)) := by
      unfold parse_pipeline
      simp only [bind, Except.bind, hget]
      rw [if_neg hne, putback_token_ok p1 _ hnone (next_token_type_ne_none _)]
      rfl
    have hpc := parse_command_spec orig L (t :: rest) fuel _ p0 0 hv1 hp0 hb0 hi0 ht0
      hcur0 (by rw [hc0]; rfl) (Nat.le_of_lt hfuel)
    cases habs : abs_command Lexeme.type (t :: rest) with
    | none =>
      rw [habs] at hpc
      obtain ⟨p3, todo3, hrun3, hv3, hroot3, _, _, hcmds3, cons, hcons, hne, hmem⟩ := hpc
      have hres : abs_pipeline Lexeme.type (t :: rest) = none := by
        simp only [abs_pipeline, habs]
      have htr : abs_trace Lexeme.type (t :: rest) =
          [failed_stage Lexeme.type (t :: rest)] := by
        simp only [abs_trace, habs]
      rw [hres, htr]
      refine ⟨p3, todo3, ?_, hv3, by rw [hroot3, hr0, hroot]; rfl,
        ⟨_, _, rfl, by rw [hcmds3, hc0]; rfl⟩, cons, hcons, hne (List.cons_ne_nil _ _), ?_⟩
      swap
      · intro st hst l hl
        rw [List.mem_singleton.1 hst] at hl
        have hl' : l ∈ (failed_stage Lexeme.type (t :: rest)).words := by
          simpa [Stage.lexemes, failed_stage] using hl
        exact hmem l hl'
      rw [hstart, hrun3]
      rfl
    | some res =>
      obtain ⟨st, rest1⟩ := res
      rw [habs] at hpc
      obtain ⟨p3, hrun3, hv3, hcmds3, hroot3, hcur3⟩ := hpc
      have hcmds3' : p3.cmds = [] ++ [open_command st] := by rw [hcmds3, hc0]; rfl
      have hlt := abs_command_length Lexeme.type (t :: rest) st rest1 habs
      have hpp := parse_pipeline_prime_spec orig L fuel rest1 p3 [] (open_command st) hv3
        hcmds3' hcur3 (Roomy.open_command st) (by omega)
      rw [abs_pipeline_prime_fuel Lexeme.type fuel (rest1.length + 1) rest1 (by omega)
        (Nat.lt_succ_self _),
        abs_prime_trace_fuel Lexeme.type fuel (rest1.length + 1) rest1 (by omega)
        (Nat.lt_succ_self _)] at hpp
      obtain ⟨c1, hc1, hm1⟩ := abs_command_consumed Lexeme.type (t :: rest) st rest1 habs
      have hc1ne : c1 ≠ [] := by
        intro e
        rw [e, List.nil_append] at hc1
        have := abs_command_length Lexeme.type (t :: rest) st rest1 habs
        rw [← hc1] at this
        exact Nat.lt_irrefl _ this
      have htr : abs_trace Lexeme.type (t :: rest) =
          st :: abs_prime_trace Lexeme.type (rest1.length + 1) rest1 := by
        simp only [abs_trace, habs]
      cases hrest : abs_pipeline_prime Lexeme.type (rest1.length + 1) rest1 with
      | none =>
        rw [hrest] at hpp
        obtain ⟨p4, todo4, hrun4, hv4, hroot4, _, hcmds4, c2, hc2, hm2⟩ := hpp
        have hres : abs_pipeline Lexeme.type (t :: rest) = none := by
          simp only [abs_pipeline, habs, hrest]
        rw [hres, htr]
        refine ⟨p4, todo4, ?_, hv4, by rw [hroot4, hroot3, hr0, hroot]; rfl,
          ⟨_, _, rfl, hcmds4⟩, c1 ++ c2, by rw [hc1, hc2]; simp,
          fun e => hc1ne (List.append_eq_nil.1 e).1, ?_⟩
        swap
        · intro x hx l hl
          rcases List.mem_cons.1 hx with rfl | hx
          · exact List.mem_append_left _ (hm1 l hl)
          · exact List.mem_append_right _ (hm2 x hx l hl)
        rw [hstart, hrun3]
        show (parse_pipeline_prime fuel p3 >>= _) = _
        rw [hrun4]
        rfl
      | some res2 =>
        obtain ⟨sts, left⟩ := res2
        rw [hrest] at hpp
        obtain ⟨p4, hrun4, hv4, hcmds4, hcur4, hroot4⟩ := hpp
        cases left with
        | nil =>
          have hres : abs_pipeline Lexeme.type (t :: rest) = some (st :: sts) := by
            simp only [abs_pipeline, habs, hrest]
          rw [hres]
          obtain ⟨p5, hrun5, hv5, hcmds5, hroot5, hcur5⟩ := expect_token_eof_nil orig L p4 hv4
          obtain ⟨H', c', h1, h2, h3, h4⟩ := layout_close sts [] (open_command st)
            (Roomy.open_command st)
          have hc5 : p5.cmds = H' ++ [c'] := by rw [hcmds5, hcmds4, h1]
          have hcur5' : p5.current_command = some H'.length := by
            rw [hcur5, hcur4, h2]
          obtain ⟨p6, hp6, hb6, hi6, ht6, hc6, hr6, _⟩ :
              ∃ p6, add_NULL_to_command p5 = .ok p6 ∧ p6.buf = p5.buf ∧ p6.input = p5.input ∧
                p6.prev_token = p5.prev_token ∧
                p6.cmds = p5.cmds.set H'.length (push c' char_ptr.null) ∧ p6.root = p5.root ∧
                p6.current_command = p5.current_command :=
            ⟨_, add_NULL_to_command_eq p5 hcur5' (by rw [hc5]; exact getElem?_append_last _ _)
              h3.1, rfl, rfl, rfl, rfl, rfl, rfl⟩
          refine ⟨p6, ?_, hv5.heap hb6 hi6 ht6, ?_, by
            rw [hr6, hroot5, hroot4, hroot3, hr0, hroot]; rfl⟩
          · rw [hstart, hrun3]
            show (parse_pipeline_prime fuel p3 >>= _) = _
            rw [hrun4]
            show (expect_token p4 TOKEN_EOF >>= _) = _
            rw [hrun5]
            show (add_NULL_to_command p5 >>= _) = _
            rw [hp6]
            rfl
          · rw [hc6, hc5, set_append_last, h4]
            rfl
        | cons x left =>
          have hres : abs_pipeline Lexeme.type (t :: rest) = none := by
            simp only [abs_pipeline, habs, hrest]
          obtain ⟨htr2, c2, hc2, hm2⟩ :=
            abs_pipeline_prime_consumed Lexeme.type _ rest1 sts (x :: left) hrest
          rw [hres, htr, htr2]
          obtain ⟨p5, hrun5, hv5, hcmds5, hroot5, _⟩ :=
            expect_token_eof_cons orig L p4 x left hv4
          refine ⟨p5, x :: left, ?_, hv5, by
            rw [hroot5, hroot4, hroot3, hr0, hroot]; rfl,
            ⟨_, _, rfl, by rw [hcmds5, hcmds4]⟩, c1 ++ c2, by rw [hc1, hc2]; simp,
            fun e => hc1ne (List.append_eq_nil.1 e).1, ?_⟩
          swap
          · intro y hy l hl
            rcases List.mem_cons.1 hy with rfl | hy
            · exact List.mem_append_left _ (hm1 l hl)
            · exact List.mem_append_right _ (hm2 y hy l hl)
          rw [hstart, hrun3]
          show (parse_pipeline_prime fuel p3 >>= _) = _
          rw [hrun4]
          show (expect_token p4 TOKEN_EOF >>= _) = _
          rw [hrun5]
          rfl

theorem Lexes.length_le {mem : List Char} {q : Nat} {ls : List Lexeme} (h : Lexes mem q ls) :
    ls.length ≤ mem.length := by
  induction h with
  | eof ws rest q _ _ => simp
  | last ws w rest q _ hw _ _ =>
    have := List.length_pos.2 hw
    simp; omega
  | more ws w d rest q ls _ hw _ _ _ ih =>
    simp; omega

/-- The run of `parse` on any line, in terms of the parser on the list of its
lexemes: the run ends without fault, and the root and the heap are as the
stages read dictate. -/
theorem parse_spec (line : List Char) (L : List Lexeme) (hL : Lexes line 0 L) :
    match abs_pipeline Lexeme.type L with
    | some [] =>
      ∃ p, parse line = .ok p ∧ View line L p [] ∧ p.cmds = [] ∧
        p.root = { valid := 1, first_command := none }
    | some (st :: sts) =>
      ∃ p, parse line = .ok p ∧ View line L p [] ∧
        p.cmds = chain_cmds 0 (open_command st) sts ∧
        p.root = { valid := 1, first_command := some 0 }
    | none =>
      ∃ p todo', parse line = .ok p ∧ View line L p todo' ∧
        p.root = { valid := 0, first_command := some 0 } ∧
        (∃ st0 sts0, abs_trace Lexeme.type L = st0 :: sts0 ∧
          p.cmds = layout [] (open_command st0) sts0) ∧
        (∀ st ∈ abs_trace Lexeme.type L, ∀ l ∈ st.lexemes,
          c_string p.buf l.begin = l.text) ∧
        ∃ pre, pre ≠ [] ∧ L = pre ++ todo' := by
  have hv := View.initial line L hL { valid := 0, first_command := none } [] none
  have hpp := parse_pipeline_spec line L L (line.length + 1) _ hv rfl rfl
    (Nat.lt_succ_of_le hL.length_le)
  have hstart : ∀ r p', parse_pipeline (line.length + 1)
      { buf := line, input := 0, prev_token := { type := TOKEN_NONE, begin := 0 },
        root := { valid := 0, first_command := none }, cmds := [],
        current_command := none } = .ok (r, p') →
      parse line = .ok { p' with root := { p'.root with valid := r } } := by
    intro r p' h
    unfold parse add_root
    simp only [bind, Except.bind, h]
    rfl
  cases habs : abs_pipeline Lexeme.type L with
  | none =>
    rw [habs] at hpp
    obtain ⟨p', todo', hrun, hv', hroot, hheap, cons, hcons, hcne, hmem⟩ := hpp
    obtain ⟨pre, hpre, hread⟩ := hv'.lexemes_read_back
    have hpc : pre = cons := List.append_cancel_right (hpre.symm.trans hcons)
    exact ⟨_, todo', hstart _ _ hrun, hv'.heap rfl rfl rfl, by simp [hroot], hheap,
      fun st hst l hl => hread l (hpc ▸ hmem st hst l hl), cons, hcne, hcons⟩
  | some sts =>
    rw [habs] at hpp
    cases sts with
    | nil =>
      obtain ⟨p', hrun, hv', hcmds, hroot⟩ := hpp
      exact ⟨_, hstart _ _ hrun, hv'.heap rfl rfl rfl, hcmds, by simp [hroot]⟩
    | cons st sts =>
      obtain ⟨p', hrun, hv', hcmds, hroot⟩ := hpp
      exact ⟨_, hstart _ _ hrun, hv'.heap rfl rfl rfl, hcmds, by simp [hroot]⟩

/-! ## The parser on token lists: what `abs_command` computes -/

section Generic

variable {α : Type} (ty : α → token_type_t)

theorem span_words (ws rest : List α) (hws : ∀ x ∈ ws, ty x = TOKEN_WORD)
    (hrest : ∀ x, rest.head? = some x → ty x ≠ TOKEN_WORD) :
    (ws ++ rest).takeWhile (fun x => decide (ty x = TOKEN_WORD)) = ws ∧
      (ws ++ rest).dropWhile (fun x => decide (ty x = TOKEN_WORD)) = rest := by
  induction ws with
  | nil =>
    cases rest with
    | nil => exact ⟨rfl, rfl⟩
    | cons r rest =>
      have := hrest r rfl
      exact ⟨List.takeWhile_cons_of_neg (by simpa using this),
        List.dropWhile_cons_of_neg (by simpa using this)⟩
  | cons w ws ih =>
    have hw := hws w (List.mem_cons_self _ _)
    obtain ⟨h1, h2⟩ := ih (fun x hx => hws x (List.mem_cons_of_mem _ hx))
    constructor
    · rw [List.cons_append, List.takeWhile_cons_of_pos (by simpa using hw), h1]
    · rw [List.cons_append, List.dropWhile_cons_of_pos (by simpa using hw), h2]

theorem abs_command_no_word (todo : List α)
    (h : ∀ x, todo.head? = some x → ty x ≠ TOKEN_WORD) : abs_command ty todo = none := by
  have := (span_words ty [] todo (fun _ hx => absurd hx (List.not_mem_nil _)) h).1
  rw [List.nil_append] at this
  simp only [abs_command, this]

theorem abs_command_plain (w : α) (ws rest : List α)
    (hws : ∀ x ∈ w :: ws, ty x = TOKEN_WORD)
    (hrest : ∀ x, rest.head? = some x → ty x ≠ TOKEN_WORD ∧ ty x ≠ TOKEN_OUT_REDIRECT) :
    abs_command ty (w :: ws ++ rest) = some ({ words := w :: ws, out := none }, rest) := by
  obtain ⟨h1, h2⟩ := span_words ty (w :: ws) rest hws (fun x hx => (hrest x hx).1)
  cases rest with
  | nil => simp only [abs_command, h1, h2]
  | cons r rest =>
    have := (hrest r rfl).2
    simp only [abs_command, h1, h2, this, if_false]

theorem abs_command_redirect (w : α) (ws : List α) (r f : α) (rest : List α)
    (hws : ∀ x ∈ w :: ws, ty x = TOKEN_WORD) (hr : ty r = TOKEN_OUT_REDIRECT)
    (hf : ty f = TOKEN_WORD) :
    abs_command ty (w :: ws ++ r :: f :: rest) =
      some ({ words := w :: ws, out := some f }, rest) := by
  obtain ⟨h1, h2⟩ := span_words ty (w :: ws) (r :: f :: rest) hws (fun x hx => by
    simp at hx
    rw [← hx, hr]
    simp)
  simp only [abs_command, h1, h2, hr, hf, if_true]

theorem abs_command_no_target (w : α) (ws : List α) (r : α) (rest : List α)
    (hws : ∀ x ∈ w :: ws, ty x = TOKEN_WORD) (hr : ty r = TOKEN_OUT_REDIRECT)
    (hrest : ∀ x, rest.head? = some x → ty x ≠ TOKEN_WORD) :
    abs_command ty (w :: ws ++ r :: rest) = none := by
  obtain ⟨h1, h2⟩ := span_words ty (w :: ws) (r :: rest) hws (fun x hx => by
    simp at hx
    rw [← hx, hr]
    simp)
  cases rest with
  | nil => simp only [abs_command, h1, h2, hr, if_true]
  | cons f rest =>
    have := hrest f rfl
    simp only [abs_command, h1, h2, hr, this, if_true, if_false]

/-- The shapes of a token list as `abs_command` sees it. -/
theorem abs_command_cases (todo : List α) :
    (∀ x, todo.head? = some x → ty x ≠ TOKEN_WORD) ∨
    (∃ w ws rest, todo = w :: ws ++ rest ∧ (∀ x ∈ w :: ws, ty x = TOKEN_WORD) ∧
      ∀ x, rest.head? = some x → ty x ≠ TOKEN_WORD ∧ ty x ≠ TOKEN_OUT_REDIRECT) ∨
    (∃ w ws r f rest, todo = w :: ws ++ r :: f :: rest ∧ (∀ x ∈ w :: ws, ty x = TOKEN_WORD) ∧
      ty r = TOKEN_OUT_REDIRECT ∧ ty f = TOKEN_WORD) ∨
    (∃ w ws r rest, todo = w :: ws ++ r :: rest ∧ (∀ x ∈ w :: ws, ty x = TOKEN_WORD) ∧
      ty r = TOKEN_OUT_REDIRECT ∧ ∀ x, rest.head? = some x → ty x ≠ TOKEN_WORD) := by
  have hsplit := List.takeWhile_append_dropWhile (fun x => decide (ty x = TOKEN_WORD)) todo
  have hws : ∀ x ∈ todo.takeWhile (fun x => decide (ty x = TOKEN_WORD)), ty x = TOKEN_WORD :=
    fun x hx => by simpa using List.mem_takeWhile_imp hx
  have hds : ∀ x, (todo.dropWhile (fun x => decide (ty x = TOKEN_WORD))).head? = some x →
      ty x ≠ TOKEN_WORD := by
    intro x hx hw
    have := List.head?_dropWhile_not (fun x => decide (ty x = TOKEN_WORD)) todo
    rw [hx] at this
    simp [hw] at this
  generalize todo.takeWhile (fun x => decide (ty x = TOKEN_WORD)) = ws at hsplit hws
  generalize todo.dropWhile (fun x => decide (ty x = TOKEN_WORD)) = ds at hsplit hds
  subst hsplit
  cases ws with
  | nil => exact Or.inl hds
  | cons w ws =>
    cases ds with
    | nil => exact Or.inr (Or.inl ⟨w, ws, [], rfl, hws, fun _ h => by simp at h⟩)
    | cons r rest =>
      by_cases hr : ty r = TOKEN_OUT_REDIRECT
      · cases rest with
        | nil =>
          exact Or.inr (Or.inr (Or.inr ⟨w, ws, r, [], rfl, hws, hr, fun _ h => by simp at h⟩))
        | cons f rest =>
          by_cases hf : ty f = TOKEN_WORD
          · exact Or.inr (Or.inr (Or.inl ⟨w, ws, r, f, rest, rfl, hws, hr, hf⟩))
          · refine Or.inr (Or.inr (Or.inr ⟨w, ws, r, f :: rest, rfl, hws, hr, ?_⟩))
            intro x hx
            simp at hx
            rw [← hx]; exact hf
      · refine Or.inr (Or.inl ⟨w, ws, r :: rest, rfl, hws, ?_⟩)
        intro x hx
        simp at hx
        rw [← hx]
        exact ⟨hds r rfl, hr⟩

end Generic

/-! ## The parser on the tokens of a line -/

theorem token_type_word {t : List Char} : token_type t = TOKEN_WORD ↔ is_WORD t := by
  unfold token_type is_WORD
  by_cases h1 : t = ['|']
  · simp [h1]
  · by_cases h2 : t = ['>']
    · simp [h2]
    · simp [h1, h2]

theorem token_type_pipe {t : List Char} : token_type t = TOKEN_PIPE ↔ t = ['|'] := by
  unfold token_type
  by_cases h1 : t = ['|']
  · simp [h1]
  · by_cases h2 : t = ['>']
    · simp [h2]
    · simp [h1, h2]

theorem token_type_redirect {t : List Char} :
    token_type t = TOKEN_OUT_REDIRECT ↔ t = ['>'] := by
  unfold token_type
  by_cases h1 : t = ['|']
  · simp [h1]
  · by_cases h2 : t = ['>']
    · simp [h2]
    · simp [h1, h2]

theorem eq_pipe_of_not {t : List Char} (h1 : token_type t ≠ TOKEN_WORD)
    (h2 : token_type t ≠ TOKEN_OUT_REDIRECT) : t = ['|'] := by
  by_contra h
  by_cases h3 : t = ['>']
  · exact h2 (token_type_redirect.2 h3)
  · exact h1 (token_type_word.2 ⟨h, h3⟩)

/-- What a successful `abs_command` has read. -/
theorem abs_command_inv (ts : List (List Char)) (st : Stage (List Char))
    (rest : List (List Char)) (h : abs_command token_type ts = some (st, rest)) :
    good_stage st ∧ ts = stage_tokens st ++ rest ∧
      (st.out = none → ∀ x, rest.head? = some x → x = ['|']) := by
  rcases abs_command_cases token_type ts with h0 | ⟨w, ws, r, rfl, hws, hr⟩ |
    ⟨w, ws, r, f, r', rfl, hws, hr, hf⟩ | ⟨w, ws, r, r', rfl, hws, hr, hr'⟩
  · rw [abs_command_no_word token_type ts h0] at h
    exact Option.noConfusion h
  · rw [abs_command_plain token_type w ws r hws hr] at h
    obtain ⟨rfl, rfl⟩ := Prod.mk.inj (Option.some.inj h)
    refine ⟨⟨by simp, fun x hx => token_type_word.1 (hws x hx), fun _ hf => by simp at hf⟩,
      by simp [stage_tokens], fun _ x hx => eq_pipe_of_not (hr x hx).1 (hr x hx).2⟩
  · rw [abs_command_redirect token_type w ws r f r' hws hr hf] at h
    obtain ⟨rfl, rfl⟩ := Prod.mk.inj (Option.some.inj h)
    refine ⟨⟨by simp, fun x hx => token_type_word.1 (hws x hx), fun g hg => ?_⟩, ?_,
      fun h => by simp at h⟩
    · have : f = g := by simpa using hg
      rw [← this]; exact token_type_word.1 hf
    · simp [stage_tokens, token_type_redirect.1 hr]
  · rw [abs_command_no_target token_type w ws r r' hws hr hr'] at h
    exact Option.noConfusion h

/-- A well-formed stage followed by `|` or by nothing is read back by
`abs_command`. -/
theorem abs_command_stage (st : Stage (List Char)) (rest : List (List Char))
    (hst : good_stage st) (hrest : ∀ x, rest.head? = some x → x = ['|']) :
    abs_command token_type (stage_tokens st ++ rest) = some (st, rest) := by
  obtain ⟨ws, out⟩ := st
  obtain ⟨h1, h2, h3⟩ := hst
  obtain ⟨w, ws', rfl⟩ := List.exists_cons_of_ne_nil h1
  have hws : ∀ x ∈ w :: ws', token_type x = TOKEN_WORD := fun x hx => token_type_word.2 (h2 x hx)
  cases out with
  | none =>
    have := abs_command_plain token_type w ws' rest hws (fun x hx => by
      rw [hrest x hx]; decide)
    simpa [stage_tokens] using this
  | some f =>
    have := abs_command_redirect token_type w ws' ['>'] f rest hws (by decide)
      (token_type_word.2 (h3 f rfl))
    simpa [stage_tokens] using this

theorem piped_head (sts : List (Stage (List Char))) :
    ∀ x, (piped sts).head? = some x → x = ['|'] := by
  intro x hx
  cases sts with
  | nil => simp [piped] at hx
  | cons st sts =>
    simp [piped] at hx
    exact hx.symm

theorem stage_tokens_ne_nil (st : Stage (List Char)) (h : good_stage st) :
    stage_tokens st ≠ [] := by
  obtain ⟨w, ws, hw⟩ := List.exists_cons_of_ne_nil h.1
  simp [stage_tokens, hw]

theorem abs_pipeline_prime_inv :
    ∀ (f : Nat) (ts : List (List Char)) (sts : List (Stage (List Char)))
      (left : List (List Char)), abs_pipeline_prime token_type f ts = some (sts, left) →
      (∀ st ∈ sts, good_stage st) ∧ ts = piped sts ++ left ∧
        (∀ x, left.head? = some x → x ≠ ['|']) := by
  intro f
  induction f with
  | zero => exact fun _ _ _ h => by simp [abs_pipeline_prime] at h
  | succ f ih =>
    intro ts sts left h
    cases ts with
    | nil =>
      simp only [abs_pipeline_prime, Option.some.injEq, Prod.mk.injEq] at h
      obtain ⟨rfl, rfl⟩ := h
      exact ⟨fun _ h => absurd h (List.not_mem_nil _), rfl, fun _ h => by simp at h⟩
    | cons t rest =>
      by_cases hp : token_type t = TOKEN_PIPE
      · cases habs : abs_command token_type rest with
        | none => simp [abs_pipeline_prime, hp, habs] at h
        | some res =>
          obtain ⟨st, rest'⟩ := res
          cases hrec : abs_pipeline_prime token_type f rest' with
          | none => simp [abs_pipeline_prime, hp, habs, hrec] at h
          | some res2 =>
            obtain ⟨sts', left'⟩ := res2
            simp only [abs_pipeline_prime, hp, habs, hrec, if_true, Option.some.injEq,
              Prod.mk.injEq] at h
            obtain ⟨rfl, rfl⟩ := h
            obtain ⟨g1, g2, _⟩ := abs_command_inv rest st rest' habs
            obtain ⟨k1, k2, k3⟩ := ih rest' sts' left' hrec
            refine ⟨?_, ?_, k3⟩
            · intro x hx
              rcases List.mem_cons.1 hx with rfl | hx
              · exact g1
              · exact k1 x hx
            · rw [g2, k2, token_type_pipe.1 hp]
              simp [piped]
      · simp only [abs_pipeline_prime, hp, if_false, Option.some.injEq, Prod.mk.injEq] at h
        obtain ⟨rfl, rfl⟩ := h
        refine ⟨fun _ h => absurd h (List.not_mem_nil _), rfl, ?_⟩
        intro x hx hx'
        simp at hx
        rw [← hx] at hx'
        exact hp (token_type_pipe.2 hx')

theorem abs_pipeline_prime_piped :
    ∀ (sts : List (Stage (List Char))) (f : Nat), (∀ st ∈ sts, good_stage st) →
      (piped sts).length < f →
      abs_pipeline_prime token_type f (piped sts) = some (sts, []) := by
  intro sts
  induction sts with
  | nil =>
    intro f _ hf
    obtain ⟨g, rfl⟩ : ∃ g, f = g + 1 := ⟨f - 1, by omega⟩
    rfl
  | cons st sts ih =>
    intro f hgood hf
    obtain ⟨g, rfl⟩ : ∃ g, f = g + 1 := ⟨f - 1, by omega⟩
    have e : piped (st :: sts) = ['|'] :: (stage_tokens st ++ piped sts) := by
      simp [piped]
    rw [e] at hf ⊢
    have h1 := abs_command_stage st (piped sts) (hgood st (List.mem_cons_self _ _))
      (piped_head sts)
    have h2 := ih g (fun x hx => hgood x (List.mem_cons_of_mem _ hx)) (by
      simp at hf; omega)
    have hp : token_type ['|'] = TOKEN_PIPE := rfl
    simp only [abs_pipeline_prime, hp, h1, h2, if_true]

/-- The lists of tokens `abs_pipeline` accepts are the pipelines of well-formed
stages, and the stages it returns are those the tokens are written with. -/
theorem abs_pipeline_iff (ts : List (List Char)) (sts : List (Stage (List Char))) :
    abs_pipeline token_type ts = some sts ↔
      (∀ st ∈ sts, good_stage st) ∧ ts = pipeline_tokens sts := by
  constructor
  · intro h
    cases ts with
    | nil =>
      simp only [abs_pipeline, Option.some.injEq] at h
      subst h
      exact ⟨fun _ h => absurd h (List.not_mem_nil _), rfl⟩
    | cons t rest =>
      cases habs : abs_command token_type (t :: rest) with
      | none => simp [abs_pipeline, habs] at h
      | some res =>
        obtain ⟨st, rest'⟩ := res
        cases hrec : abs_pipeline_prime token_type (rest'.length + 1) rest' with
        | none => simp [abs_pipeline, habs, hrec] at h
        | some res2 =>
          obtain ⟨sts', left⟩ := res2
          cases left with
          | cons x left => simp [abs_pipeline, habs, hrec] at h
          | nil =>
            simp only [abs_pipeline, habs, hrec, Option.some.injEq] at h
            subst h
            obtain ⟨g1, g2, _⟩ := abs_command_inv _ st rest' habs
            obtain ⟨k1, k2, _⟩ := abs_pipeline_prime_inv _ rest' sts' [] hrec
            refine ⟨?_, ?_⟩
            · intro x hx
              rcases List.mem_cons.1 hx with rfl | hx
              · exact g1
              · exact k1 x hx
            · rw [g2, k2]
              simp [pipeline_tokens]
  · rintro ⟨hgood, rfl⟩
    cases sts with
    | nil => rfl
    | cons st sts =>
      have hst := hgood st (List.mem_cons_self _ _)
      have h1 := abs_command_stage st (piped sts) hst (piped_head sts)
      have h2 := abs_pipeline_prime_piped sts ((piped sts).length + 1)
        (fun x hx => hgood x (List.mem_cons_of_mem _ hx)) (Nat.lt_succ_self _)
      obtain ⟨w, ws, hw⟩ := List.exists_cons_of_ne_nil (stage_tokens_ne_nil st hst)
      have e : pipeline_tokens (st :: sts) = w :: (ws ++ piped sts) := by
        simp [pipeline_tokens, hw]
      have h1' : abs_command token_type (w :: (ws ++ piped sts)) = some (st, piped sts) := by
        rw [← List.cons_append, ← hw]; exact h1
      rw [e]
      simp only [abs_pipeline, h1', h2]

/-! ## The grammar and the parser on tokens agree -/

theorem is_command_iff (c : List (List Char)) :
    is_command c ↔ ∃ st, good_stage st ∧ c = stage_tokens st := by
  constructor
  · rintro ⟨sc, ⟨w, ws, rfl, hw, hws⟩, rfl | ⟨f, hf, rfl⟩⟩
    · refine ⟨{ words := w :: ws, out := none }, ⟨by simp, ?_, fun _ h => by simp at h⟩,
        by simp [stage_tokens]⟩
      intro x hx
      rcases List.mem_cons.1 hx with rfl | hx
      · exact hw
      · exact hws x hx
    · refine ⟨{ words := w :: ws, out := some f }, ⟨by simp, ?_, fun g hg => ?_⟩,
        by simp [stage_tokens]⟩
      · intro x hx
        rcases List.mem_cons.1 hx with rfl | hx
        · exact hw
        · exact hws x hx
      · have : f = g := by simpa using hg
        rw [← this]; exact hf
  · rintro ⟨⟨words, out⟩, ⟨h1, h2, h3⟩, rfl⟩
    obtain ⟨w, ws, rfl⟩ := List.exists_cons_of_ne_nil h1
    refine ⟨w :: ws, ⟨w, ws, rfl, h2 w (List.mem_cons_self _ _),
      fun x hx => h2 x (List.mem_cons_of_mem _ hx)⟩, ?_⟩
    cases out with
    | none => exact Or.inl (by simp [stage_tokens])
    | some f => exact Or.inr ⟨f, h3 f rfl, by simp [stage_tokens]⟩

theorem exists_stages (cs : List (List (List Char))) (h : ∀ x ∈ cs, is_command x) :
    ∃ sts : List (Stage (List Char)), (∀ st ∈ sts, good_stage st) ∧
      cs = sts.map stage_tokens := by
  induction cs with
  | nil => exact ⟨[], fun _ h => absurd h (List.not_mem_nil _), rfl⟩
  | cons c cs ih =>
    obtain ⟨sts, h1, h2⟩ := ih (fun x hx => h x (List.mem_cons_of_mem _ hx))
    obtain ⟨st, h3, h4⟩ := (is_command_iff c).1 (h c (List.mem_cons_self _ _))
    refine ⟨st :: sts, ?_, by rw [List.map_cons, ← h4, ← h2]⟩
    intro x hx
    rcases List.mem_cons.1 hx with rfl | hx
    · exact h3
    · exact h1 x hx

theorem piped_eq (sts : List (Stage (List Char))) :
    piped sts = ((sts.map stage_tokens).map (fun x => ['|'] :: x)).flatten := by
  unfold piped
  rw [List.map_map]
  rfl

theorem is_pipeline_iff (ts : List (List Char)) :
    is_pipeline ts ↔ ∃ sts, (∀ st ∈ sts, good_stage st) ∧ ts = pipeline_tokens sts := by
  constructor
  · rintro (rfl | ⟨c, cs, hc, hcs, rfl⟩)
    · exact ⟨[], fun _ h => absurd h (List.not_mem_nil _), rfl⟩
    · obtain ⟨st, h3, rfl⟩ := (is_command_iff c).1 hc
      obtain ⟨sts, h1, rfl⟩ := exists_stages cs hcs
      refine ⟨st :: sts, ?_, by rw [pipeline_tokens, piped_eq]⟩
      intro x hx
      rcases List.mem_cons.1 hx with rfl | hx
      · exact h3
      · exact h1 x hx
  · rintro ⟨sts, hgood, rfl⟩
    cases sts with
    | nil => exact Or.inl rfl
    | cons st sts =>
      refine Or.inr ⟨stage_tokens st, sts.map stage_tokens,
        (is_command_iff _).2 ⟨st, hgood st (List.mem_cons_self _ _), rfl⟩, ?_,
        by rw [pipeline_tokens, piped_eq]⟩
      intro x hx
      obtain ⟨st', hst', rfl⟩ := List.mem_map.1 hx
      exact (is_command_iff _).2 ⟨st', hgood st' (List.mem_cons_of_mem _ hst'), rfl⟩

/-- The parser on tokens accepts exactly the token lists the grammar derives. -/
theorem abs_pipeline_isSome_iff (ts : List (List Char)) :
    (∃ sts, abs_pipeline token_type ts = some sts) ↔ is_pipeline ts := by
  rw [is_pipeline_iff]
  constructor
  · rintro ⟨sts, h⟩
    exact ⟨sts, (abs_pipeline_iff ts sts).1 h⟩
  · rintro ⟨sts, h⟩
    exact ⟨sts, (abs_pipeline_iff ts sts).2 h⟩

/-! ## The parser on token lists commutes with maps of the tokens -/

section Naturality

variable {α β : Type} (ty : β → token_type_t) (f : α → β)

theorem head?_map_cond (rest : List α) (P : token_type_t → Prop)
    (h : ∀ x, rest.head? = some x → P (ty (f x))) :
    ∀ y, (rest.map f).head? = some y → P (ty y) := by
  intro y hy
  cases rest with
  | nil => simp at hy
  | cons x rest =>
    simp at hy
    rw [← hy]
    exact h x rfl

theorem mem_map_cond (ws : List α) (h : ∀ x ∈ ws, ty (f x) = TOKEN_WORD) :
    ∀ y ∈ ws.map f, ty y = TOKEN_WORD := by
  intro y hy
  obtain ⟨x, hx, rfl⟩ := List.mem_map.1 hy
  exact h x hx

theorem abs_command_map (todo : List α) :
    abs_command ty (todo.map f) =
      (abs_command (fun x => ty (f x)) todo).map (fun r => (r.1.map f, r.2.map f)) := by
  rcases abs_command_cases (fun x => ty (f x)) todo with h0 | ⟨w, ws, r, rfl, hws, hr⟩ |
    ⟨w, ws, r, g, r', rfl, hws, hr, hg⟩ | ⟨w, ws, r, r', rfl, hws, hr, hr'⟩
  · rw [abs_command_no_word _ todo h0,
      abs_command_no_word ty _ (head?_map_cond ty f todo (fun t => t ≠ TOKEN_WORD) h0)]
    rfl
  · rw [abs_command_plain _ w ws r hws hr]
    have := abs_command_plain ty (f w) (ws.map f) (r.map f)
      (mem_map_cond ty f (w :: ws) hws)
      (head?_map_cond ty f r (fun t => t ≠ TOKEN_WORD ∧ t ≠ TOKEN_OUT_REDIRECT) hr)
    simpa [Stage.map] using this
  · rw [abs_command_redirect _ w ws r g r' hws hr hg]
    have := abs_command_redirect ty (f w) (ws.map f) (f r) (f g) (r'.map f)
      (mem_map_cond ty f (w :: ws) hws) hr hg
    simpa [Stage.map] using this
  · rw [abs_command_no_target _ w ws r r' hws hr hr']
    have := abs_command_no_target ty (f w) (ws.map f) (f r) (r'.map f)
      (mem_map_cond ty f (w :: ws) hws) hr
      (head?_map_cond ty f r' (fun t => t ≠ TOKEN_WORD) hr')
    simpa using this

theorem abs_pipeline_prime_map :
    ∀ (n : Nat) (todo : List α), abs_pipeline_prime ty n (todo.map f) =
      (abs_pipeline_prime (fun x => ty (f x)) n todo).map
        (fun r => (r.1.map (Stage.map f), r.2.map f)) := by
  intro n
  induction n with
  | zero => exact fun _ => rfl
  | succ n ih =>
    intro todo
    cases todo with
    | nil => rfl
    | cons t rest =>
      by_cases hp : ty (f t) = TOKEN_PIPE
      · have hc := abs_command_map ty f rest
        cases habs : abs_command (fun x => ty (f x)) rest with
        | none =>
          rw [habs] at hc
          simp only [List.map_cons, abs_pipeline_prime, hp, habs, hc, if_true, Option.map_none']
        | some res =>
          obtain ⟨st, rest'⟩ := res
          rw [habs] at hc
          have hr := ih rest'
          cases hrec : abs_pipeline_prime (fun x => ty (f x)) n rest' with
          | none =>
            rw [hrec] at hr
            simp only [Option.map_none'] at hr
            simp only [List.map_cons, abs_pipeline_prime, hp, habs, hc, hrec,
              if_true, Option.map_some', Option.map_none', hr]
          | some res2 =>
            obtain ⟨sts, left⟩ := res2
            rw [hrec] at hr
            simp only [Option.map_some'] at hr
            simp only [List.map_cons, abs_pipeline_prime, hp, habs, hc, hrec,
              if_true, Option.map_some', hr]
      · simp only [List.map_cons, abs_pipeline_prime, hp, if_false, Option.map_some',
          List.map_nil]

theorem abs_pipeline_map (todo : List α) :
    abs_pipeline ty (todo.map f) =
      (abs_pipeline (fun x => ty (f x)) todo).map (List.map (Stage.map f)) := by
  cases todo with
  | nil => rfl
  | cons t rest =>
    have hc := abs_command_map ty f (t :: rest)
    rw [List.map_cons] at hc
    cases habs : abs_command (fun x => ty (f x)) (t :: rest) with
    | none =>
      rw [habs] at hc
      simp only [List.map_cons, abs_pipeline, habs, hc, Option.map_none']
    | some res =>
      obtain ⟨st, rest'⟩ := res
      rw [habs] at hc
      have hr := abs_pipeline_prime_map ty f (rest'.length + 1) rest'
      cases hrec : abs_pipeline_prime (fun x => ty (f x)) (rest'.length + 1) rest' with
      | none =>
        rw [hrec] at hr
        simp only [Option.map_none'] at hr
        simp only [List.map_cons, abs_pipeline, habs, hc, hrec, Option.map_some',
          List.length_map, hr, Option.map_none']
      | some res2 =>
        obtain ⟨sts, left⟩ := res2
        rw [hrec] at hr
        simp only [Option.map_some'] at hr
        cases left with
        | nil =>
          simp only [List.map_cons, abs_pipeline, habs, hc, hrec, Option.map_some',
            List.length_map, hr, List.map_nil]
        | cons x left =>
          simp only [List.map_cons, abs_pipeline, habs, hc, hrec, Option.map_some',
            List.length_map, hr, Option.map_none']

end Naturality

/-! ## The lexemes of the stages are lexemes of the line -/

section Membership

variable {α : Type} (ty : α → token_type_t)

theorem abs_command_mem (todo : List α) (st : Stage α) (rest : List α)
    (h : abs_command ty todo = some (st, rest)) :
    (∀ x ∈ st.words, x ∈ todo) ∧ (∀ g, st.out = some g → g ∈ todo) ∧ ∀ x ∈ rest, x ∈ todo := by
  rcases abs_command_cases ty todo with h0 | ⟨w, ws, r, rfl, hws, hr⟩ |
    ⟨w, ws, r, g, r', rfl, hws, hr, hg⟩ | ⟨w, ws, r, r', rfl, hws, hr, hr'⟩
  · rw [abs_command_no_word ty todo h0] at h
    exact Option.noConfusion h
  · rw [abs_command_plain ty w ws r hws hr] at h
    obtain ⟨rfl, rfl⟩ := Prod.mk.inj (Option.some.inj h)
    exact ⟨fun x hx => List.mem_append_left _ hx, fun _ h => by simp at h,
      fun x hx => List.mem_append_right _ hx⟩
  · rw [abs_command_redirect ty w ws r g r' hws hr hg] at h
    obtain ⟨rfl, rfl⟩ := Prod.mk.inj (Option.some.inj h)
    refine ⟨fun x hx => List.mem_append_left _ hx, fun g' hg' => ?_,
      fun x hx => List.mem_append_right _ (by simp [hx])⟩
    have : g = g' := by simpa using hg'
    rw [← this]
    exact List.mem_append_right _ (by simp)
  · rw [abs_command_no_target ty w ws r r' hws hr hr'] at h
    exact Option.noConfusion h

theorem abs_pipeline_prime_mem :
    ∀ (n : Nat) (todo : List α) (sts : List (Stage α)) (left : List α),
      abs_pipeline_prime ty n todo = some (sts, left) →
      ∀ st ∈ sts, (∀ x ∈ st.words, x ∈ todo) ∧ (∀ g, st.out = some g → g ∈ todo) := by
  intro n
  induction n with
  | zero => exact fun _ _ _ h => by simp [abs_pipeline_prime] at h
  | succ n ih =>
    intro todo sts left h
    cases todo with
    | nil =>
      simp only [abs_pipeline_prime, Option.some.injEq, Prod.mk.injEq] at h
      obtain ⟨rfl, rfl⟩ := h
      exact fun _ h => absurd h (List.not_mem_nil _)
    | cons t rest =>
      by_cases hp : ty t = TOKEN_PIPE
      · cases habs : abs_command ty rest with
        | none => simp [abs_pipeline_prime, hp, habs] at h
        | some res =>
          obtain ⟨st, rest'⟩ := res
          cases hrec : abs_pipeline_prime ty n rest' with
          | none => simp [abs_pipeline_prime, hp, habs, hrec] at h
          | some res2 =>
            obtain ⟨sts', left'⟩ := res2
            simp only [abs_pipeline_prime, hp, habs, hrec, if_true, Option.some.injEq,
              Prod.mk.injEq] at h
            obtain ⟨rfl, rfl⟩ := h
            obtain ⟨g1, g2, g3⟩ := abs_command_mem ty rest st rest' habs
            have k := ih rest' sts' left' hrec
            intro x hx
            rcases List.mem_cons.1 hx with rfl | hx
            · exact ⟨fun y hy => List.mem_cons_of_mem _ (g1 y hy),
                fun g hg => List.mem_cons_of_mem _ (g2 g hg)⟩
            · exact ⟨fun y hy => List.mem_cons_of_mem _ (g3 y ((k x hx).1 y hy)),
                fun g hg => List.mem_cons_of_mem _ (g3 g ((k x hx).2 g hg))⟩
      · simp only [abs_pipeline_prime, hp, if_false, Option.some.injEq, Prod.mk.injEq] at h
        obtain ⟨rfl, rfl⟩ := h
        exact fun _ h => absurd h (List.not_mem_nil _)

theorem abs_pipeline_mem (todo : List α) (sts : List (Stage α))
    (h : abs_pipeline ty todo = some sts) :
    ∀ st ∈ sts, (∀ x ∈ st.words, x ∈ todo) ∧ (∀ g, st.out = some g → g ∈ todo) := by
  cases todo with
  | nil =>
    simp only [abs_pipeline, Option.some.injEq] at h
    subst h
    exact fun _ h => absurd h (List.not_mem_nil _)
  | cons t rest =>
    cases habs : abs_command ty (t :: rest) with
    | none => simp [abs_pipeline, habs] at h
    | some res =>
      obtain ⟨st, rest'⟩ := res
      cases hrec : abs_pipeline_prime ty (rest'.length + 1) rest' with
      | none => simp [abs_pipeline, habs, hrec] at h
      | some res2 =>
        obtain ⟨sts', left⟩ := res2
        cases left with
        | cons x left => simp [abs_pipeline, habs, hrec] at h
        | nil =>
          simp only [abs_pipeline, habs, hrec, Option.some.injEq] at h
          subst h
          obtain ⟨g1, g2, g3⟩ := abs_command_mem ty _ st rest' habs
          have k := abs_pipeline_prime_mem ty _ rest' sts' [] hrec
          intro x hx
          rcases List.mem_cons.1 hx with rfl | hx
          · exact ⟨g1, g2⟩
          · exact ⟨fun y hy => g3 y ((k x hx).1 y hy), fun g hg => g3 g ((k x hx).2 g hg)⟩

end Membership

/-! ## The finished chain -/

theorem closed_spec (st : Stage Lexeme) :
    (push (open_command st) char_ptr.null).argc = st.words.length + 1 ∧
    (push (open_command st) char_ptr.null).argv.take
        (push (open_command st) char_ptr.null).argc =
      st.words.map (fun l => char_ptr.addr l.begin) ++ [char_ptr.null] ∧
    (push (open_command st) char_ptr.null).outfile = out_ptr st.out ∧
    (push (open_command st) char_ptr.null).next = none := by
  obtain ⟨g1, g2, g3, _, g5⟩ := foldl_push_word_spec st.words fresh_command Roomy.fresh
  have e1 : (open_command st).argc = st.words.length := by
    show (List.foldl push_word fresh_command st.words).argc = _
    rw [g2]; simp [fresh_command]
  have e2 : (open_command st).argv.take (open_command st).argc =
      st.words.map (fun l => char_ptr.addr l.begin) := by
    show (List.foldl push_word fresh_command st.words).argv.take
      (List.foldl push_word fresh_command st.words).argc = _
    rw [g3]; simp [fresh_command]
  have e3 : (open_command st).next = none := by
    show (List.foldl push_word fresh_command st.words).next = _
    rw [g5]; rfl
  obtain ⟨_, h2, h3, h4, h5⟩ := push_spec (open_command st) char_ptr.null
    (Roomy.open_command st)
  exact ⟨by rw [h2, e1], by rw [h3, e2], by rw [h4]; rfl, by rw [h5, e3]⟩

theorem represents_closed (buf : List Char) (st : Stage Lexeme) (c : command_t)
    (hargc : c.argc = (push (open_command st) char_ptr.null).argc)
    (hargv : c.argv = (push (open_command st) char_ptr.null).argv)
    (hout : c.outfile = (push (open_command st) char_ptr.null).outfile)
    (hw : ∀ l ∈ st.words, c_string buf l.begin = l.text)
    (ho : ∀ g, st.out = some g → c_string buf g.begin = g.text) :
    represents buf c (st.map (fun l => l.text)) := by
  obtain ⟨h1, h2, h3, _⟩ := closed_spec st
  refine ⟨?_, ?_, ?_⟩
  · rw [hargc, h1]; simp [Stage.map]
  · unfold argv_read
    rw [hargc, hargv, h2]
    simp only [List.map_append, List.map_map, List.map_cons, List.map_nil, Stage.map, read]
    congr 1
    apply List.map_congr_left
    intro l hl
    simp only [Function.comp, read]
    rw [hw l hl]
  · rw [hout, h3]
    cases hso : st.out with
    | none => simp [Stage.map, out_ptr, read, hso]
    | some g => simp [Stage.map, out_ptr, read, hso, ho g hso]

theorem chain_cmds_represents (buf : List Char) :
    ∀ (sts : List (Stage Lexeme)) (base : Nat) (st : Stage Lexeme),
      (∀ s ∈ st :: sts, (∀ l ∈ s.words, c_string buf l.begin = l.text) ∧
        ∀ g, s.out = some g → c_string buf g.begin = g.text) →
      List.Forall₂ (represents buf) (chain_cmds base (open_command st) sts)
        ((st :: sts).map (Stage.map (fun l => l.text))) := by
  intro sts
  induction sts with
  | nil =>
    intro base st h
    have hst := h st (List.mem_cons_self _ _)
    exact List.Forall₂.cons (represents_closed buf st _ rfl rfl rfl hst.1 hst.2)
      List.Forall₂.nil
  | cons st' sts ih =>
    intro base st h
    have hst := h st (List.mem_cons_self _ _)
    exact List.Forall₂.cons (represents_closed buf st _ rfl rfl rfl hst.1 hst.2)
      (ih (base + 1) st' (fun s hs => h s (List.mem_cons_of_mem _ hs)))

theorem chain_cmds_length (sts : List (Stage Lexeme)) :
    ∀ (base : Nat) (c : command_t), (chain_cmds base c sts).length = sts.length + 1 := by
  induction sts with
  | nil => exact fun _ _ => rfl
  | cons st sts ih =>
    intro base c
    rw [chain_cmds, List.length_cons, ih]
    rfl

theorem getElem?_append_cons (H : List command_t) (x : command_t) (xs : List command_t) :
    (H ++ x :: xs)[H.length]? = some x := by
  induction H with
  | nil => simp
  | cons h H ih => simpa using ih

theorem open_command_next (st : Stage Lexeme) : (open_command st).next = none :=
  (foldl_push_word_spec st.words fresh_command Roomy.fresh).2.2.2.2

theorem chain_from_chain_cmds :
    ∀ (sts : List (Stage Lexeme)) (H : List command_t) (c : command_t) (fuel : Nat),
      c.next = none → Roomy c → sts.length < fuel →
      chain_from (H ++ chain_cmds H.length c sts) fuel (some H.length) =
        chain_cmds H.length c sts := by
  intro sts
  induction sts with
  | nil =>
    intro H c fuel hc hroom hfuel
    obtain ⟨f, rfl⟩ : ∃ f, fuel = f + 1 := ⟨fuel - 1, by omega⟩
    have hn : (push c char_ptr.null).next = none := by
      rw [(push_spec c _ hroom).2.2.2.2, hc]
    have hget : (H ++ chain_cmds H.length c [])[H.length]? = some (push c char_ptr.null) :=
      getElem?_append_cons H _ []
    rw [chain_from]
    simp only [hget, hn]
    cases f <;> rfl
  | cons st sts ih =>
    intro H c fuel hc hroom hfuel
    obtain ⟨f, rfl⟩ : ∃ f, fuel = f + 1 := ⟨fuel - 1, by omega⟩
    have hget : (H ++ chain_cmds H.length c (st :: sts))[H.length]? =
        some { push c char_ptr.null with next := some (H.length + 1) } :=
      getElem?_append_cons H _ _
    have hrec := ih (H ++ [{ push c char_ptr.null with next := some (H.length + 1) }])
      (open_command st) f (open_command_next st) (Roomy.open_command st)
      (by simp at hfuel; omega)
    rw [chain_from]
    simp only [hget]
    have e : H ++ chain_cmds H.length c (st :: sts) =
        (H ++ [{ push c char_ptr.null with next := some (H.length + 1) }]) ++
          chain_cmds (H.length + 1) (open_command st) sts := by
      simp [chain_cmds]
    rw [e]
    simp only [List.length_append, List.length_singleton] at hrec
    rw [hrec]
    rfl

theorem chain_cmds_last :
    ∀ (sts : List (Stage Lexeme)) (base : Nat) (c : command_t), c.next = none → Roomy c →
      ∀ x, (chain_cmds base c sts).getLast? = some x → x.next = none := by
  intro sts
  induction sts with
  | nil =>
    intro base c hc hroom x hx
    have : push c char_ptr.null = x := by simpa [chain_cmds] using hx
    rw [← this, (push_spec c _ hroom).2.2.2.2, hc]
  | cons st sts ih =>
    intro base c _ _ x hx
    have hlen := chain_cmds_length sts (base + 1) (open_command st)
    rw [chain_cmds] at hx
    cases hl : chain_cmds (base + 1) (open_command st) sts with
    | nil => rw [hl] at hlen; simp at hlen
    | cons z zs =>
      rw [hl, List.getLast?_cons_cons] at hx
      rw [← hl] at hx
      exact ih (base + 1) (open_command st) (open_command_next st) (Roomy.open_command st) x hx

/-! ## The run of `parse` in terms of the tokens of the line -/

/-- On a line whose tokens the parser on tokens accepts, `parse` returns a valid
root whose command chain is the whole heap and holds the stages read, in order. -/
theorem parse_valid (line : List Char) (sts : List (Stage (List Char)))
    (h : abs_pipeline token_type (tokens line) = some sts) :
    ∃ p, parse line = .ok p ∧ p.root.valid = 1 ∧ (p.root.first_command = none ↔ sts = []) ∧
      commands p = p.cmds ∧ List.Forall₂ (represents p.buf) (commands p) sts ∧
      ∀ c, (commands p).getLast? = some c → c.next = none := by
  obtain ⟨L, hL⟩ := exists_lexes line 0
  have hnat := abs_pipeline_map token_type (fun l : Lexeme => l.text) L
  rw [hL.tokens, h] at hnat
  have hspec := parse_spec line L hL
  have e : abs_pipeline Lexeme.type L = abs_pipeline (fun x => token_type x.text) L := rfl
  rw [e] at hspec
  cases habs : abs_pipeline (fun x : Lexeme => token_type x.text) L with
  | none =>
    rw [habs] at hnat
    exact Option.noConfusion hnat
  | some stsL =>
    rw [habs] at hnat hspec
    have hsts : sts = stsL.map (Stage.map (fun l => l.text)) := by simpa using hnat
    have hmem := abs_pipeline_mem _ L stsL habs
    cases stsL with
    | nil =>
      obtain ⟨p, hrun, _, hcmds, hroot⟩ := hspec
      subst hsts
      have hc : commands p = [] := by
        unfold commands
        rw [hcmds, hroot]
        rfl
      refine ⟨p, hrun, by rw [hroot], by simp [hroot], by rw [hc, hcmds], ?_, ?_⟩
      · rw [hc]; exact List.Forall₂.nil
      · intro c hcl
        rw [hc] at hcl
        exact Option.noConfusion hcl
    | cons st stsL =>
      obtain ⟨p, hrun, hv, hcmds, hroot⟩ := hspec
      obtain ⟨pre, hpre, hread⟩ := hv.lexemes_read_back
      rw [List.append_nil] at hpre
      subst hpre
      have hc : commands p = chain_cmds 0 (open_command st) stsL := by
        unfold commands
        rw [hcmds, hroot, chain_cmds_length]
        have := chain_from_chain_cmds stsL [] (open_command st) (stsL.length + 1)
          (open_command_next st) (Roomy.open_command st) (Nat.lt_succ_self _)
        simpa using this
      refine ⟨p, hrun, by rw [hroot], by simp [hroot, hsts], by rw [hc, hcmds], ?_, ?_⟩
      · rw [hc, hsts]
        apply chain_cmds_represents
        intro s hs
        exact ⟨fun l hl => hread l ((hmem s hs).1 l hl),
          fun g hg => hread g ((hmem s hs).2 g hg)⟩
      · rw [hc]
        exact chain_cmds_last stsL 0 (open_command st) (open_command_next st)
          (Roomy.open_command st)

/-- On a line whose tokens the parser on tokens rejects, `parse` returns a root
that is not valid. -/
theorem parse_invalid (line : List Char) (h : abs_pipeline token_type (tokens line) = none) :
    ∃ p, parse line = .ok p ∧ p.root.valid = 0 ∧ p.root.first_command = some 0 := by
  obtain ⟨L, hL⟩ := exists_lexes line 0
  have hnat := abs_pipeline_map token_type (fun l : Lexeme => l.text) L
  rw [hL.tokens, h] at hnat
  have hspec := parse_spec line L hL
  have e : abs_pipeline Lexeme.type L = abs_pipeline (fun x => token_type x.text) L := rfl
  rw [e] at hspec
  cases habs : abs_pipeline (fun x : Lexeme => token_type x.text) L with
  | none =>
    rw [habs] at hspec
    obtain ⟨p, _, hrun, _, hroot, _⟩ := hspec
    exact ⟨p, hrun, by rw [hroot], by rw [hroot]⟩
  | some stsL =>
    rw [habs] at hnat
    simp at hnat

/-! ## Stages and the `|` tokens -/

theorem stage_tokens_no_pipe (st : Stage (List Char)) (h : good_stage st) :
    ∀ t ∈ stage_tokens st, t ≠ ['|'] := by
  intro t ht
  unfold stage_tokens at ht
  rcases List.mem_append.1 ht with hw | ho
  · exact (h.2.1 t hw).1
  · cases hso : st.out with
    | none => rw [hso] at ho; simp at ho
    | some f =>
      rw [hso] at ho
      simp at ho
      rcases ho with rfl | ho
      · decide
      · rw [ho]; exact (h.2.2 f hso).1

theorem splitOn_pipeline (sts : List (Stage (List Char))) :
    ∀ st, (∀ s ∈ st :: sts, good_stage s) →
      (stage_tokens st ++ piped sts).splitOn ['|'] = (st :: sts).map stage_tokens := by
  induction sts with
  | nil =>
    intro st h
    have hno := stage_tokens_no_pipe st (h st (List.mem_cons_self _ _))
    simp only [piped, List.map_nil, List.flatten_nil, List.append_nil, List.splitOn,
      List.map_cons]
    exact List.splitOnP_eq_single _ _ (fun t ht => by simpa using hno t ht)
  | cons st' sts ih =>
    intro st h
    have hno := stage_tokens_no_pipe st (h st (List.mem_cons_self _ _))
    have e : piped (st' :: sts) = ['|'] :: (stage_tokens st' ++ piped sts) := by
      simp [piped]
    have := ih st' (fun s hs => h s (List.mem_cons_of_mem _ hs))
    rw [e, List.map_cons, ← this]
    simp only [List.splitOn]
    exact List.splitOnP_first _ _ (fun t ht => by simpa using hno t ht) ['|'] (by simp) _

theorem stages_pipeline_tokens (sts : List (Stage (List Char)))
    (h : ∀ s ∈ sts, good_stage s) : stages (pipeline_tokens sts) = sts.map stage_tokens := by
  cases sts with
  | nil => rfl
  | cons st sts =>
    have hne : pipeline_tokens (st :: sts) ≠ [] := by
      obtain ⟨w, ws, hw⟩ := List.exists_cons_of_ne_nil
        (stage_tokens_ne_nil st (h st (List.mem_cons_self _ _)))
      simp [pipeline_tokens, hw]
    unfold stages
    rw [if_neg hne]
    exact splitOn_pipeline sts st h

theorem stage_words_tokens (st : Stage (List Char)) (h : good_stage st) :
    stage_words (stage_tokens st) = st.words := by
  have hw : ∀ t ∈ st.words, decide (t ≠ ['>']) = true := fun t ht => by
    simpa using (h.2.1 t ht).2
  unfold stage_words stage_tokens
  cases st.out with
  | none =>
    simp only [List.append_nil]
    exact List.takeWhile_eq_self_iff.2 hw
  | some f =>
    rw [List.takeWhile_append_of_pos hw]
    simp

theorem stage_outfile_tokens (st : Stage (List Char)) (h : good_stage st) :
    stage_outfile (stage_tokens st) = st.out := by
  have hw : ∀ t ∈ st.words, decide (t ≠ ['>']) = true := fun t ht => by
    simpa using (h.2.1 t ht).2
  unfold stage_outfile stage_tokens
  cases st.out with
  | none =>
    simp only [List.append_nil]
    rw [List.dropWhile_eq_nil_iff.2 hw]
    rfl
  | some f =>
    rw [List.dropWhile_append_of_pos hw]
    simp

theorem count_stage_tokens (st : Stage (List Char)) (h : good_stage st) :
    (stage_tokens st).count ['|'] = 0 :=
  List.count_eq_zero.2 (fun hm => stage_tokens_no_pipe st h _ hm rfl)

theorem count_piped (sts : List (Stage (List Char))) (h : ∀ s ∈ sts, good_stage s) :
    (piped sts).count ['|'] = sts.length := by
  induction sts with
  | nil => rfl
  | cons st sts ih =>
    have e : piped (st :: sts) = ['|'] :: (stage_tokens st ++ piped sts) := by
      simp [piped]
    rw [e, List.count_cons_self, List.count_append,
      count_stage_tokens st (h st (List.mem_cons_self _ _)),
      ih (fun s hs => h s (List.mem_cons_of_mem _ hs))]
    simp

/-! ## The automaton accepts every pipeline the parser accepts -/

theorem run_append (s : PState) (a b : List (List Char)) :
    run s (a ++ b) = run (run s a) b := by
  unfold run
  rw [List.foldl_append]

theorem run_cons (s : PState) (t : List Char) (ts : List (List Char)) :
    run s (t :: ts) = run (step s (token_type t)) ts := rfl

theorem step_dead (ty : token_type_t) : step PState.dead ty = PState.dead := by
  cases ty <;> rfl

theorem run_dead (ts : List (List Char)) : run PState.dead ts = PState.dead := by
  induction ts with
  | nil => rfl
  | cons t ts ih => rw [run_cons, step_dead, ih]

theorem run_words (ws : List (List Char)) (h : ∀ w ∈ ws, is_WORD w) :
    run PState.words ws = PState.words := by
  induction ws with
  | nil => rfl
  | cons w ws ih =>
    rw [run_cons, token_type_word.2 (h w (List.mem_cons_self _ _))]
    exact ih (fun x hx => h x (List.mem_cons_of_mem _ hx))

theorem run_stage (st : Stage (List Char)) (h : good_stage st) :
    accepting (run PState.start (stage_tokens st)) = true := by
  obtain ⟨ws, out⟩ := st
  obtain ⟨h1, h2, h3⟩ := h
  obtain ⟨w, ws', rfl⟩ := List.exists_cons_of_ne_nil h1
  have hw := token_type_word.2 (h2 w (List.mem_cons_self _ _))
  have hws := run_words ws' (fun x hx => h2 x (List.mem_cons_of_mem _ hx))
  have e1 : run PState.start (w :: ws') = PState.words := by
    rw [run_cons, hw]
    exact hws
  cases out with
  | none =>
    simp only [stage_tokens, List.append_nil]
    rw [e1]; rfl
  | some f =>
    have hf := token_type_word.2 (h3 f rfl)
    simp only [stage_tokens]
    rw [run_append, e1, run_cons, run_cons, hf]
    rfl

theorem step_pipe_of_accepting (s : PState) (h : accepting s = true) :
    step s TOKEN_PIPE = PState.start := by
  cases s <;> first | rfl | exact Bool.noConfusion h

theorem run_piped (sts : List (Stage (List Char))) :
    ∀ s, accepting s = true → (∀ st ∈ sts, good_stage st) →
      accepting (run s (piped sts)) = true := by
  induction sts with
  | nil => exact fun s hs _ => hs
  | cons st sts ih =>
    intro s hs h
    have e : piped (st :: sts) = ['|'] :: (stage_tokens st ++ piped sts) := by
      simp [piped]
    rw [e, run_cons, show token_type ['|'] = TOKEN_PIPE from rfl, step_pipe_of_accepting s hs,
      run_append]
    exact ih _ (run_stage st (h st (List.mem_cons_self _ _)))
      (fun x hx => h x (List.mem_cons_of_mem _ hx))

theorem run_pipeline_tokens (st : Stage (List Char)) (sts : List (Stage (List Char)))
    (h : ∀ s ∈ st :: sts, good_stage s) :
    accepting (run PState.start (pipeline_tokens (st :: sts))) = true := by
  rw [pipeline_tokens, run_append]
  exact run_piped sts _ (run_stage st (h st (List.mem_cons_self _ _)))
    (fun x hx => h x (List.mem_cons_of_mem _ hx))

/-! ## Token sequences the automaton rejects -/

theorem step_target_not_word (ty : token_type_t) (h : ty ≠ TOKEN_WORD) :
    step PState.target ty = PState.dead := by
  cases ty <;> first | rfl | exact absurd rfl h

theorem accepting_dead_run (ts : List (List Char)) :
    accepting (run PState.dead ts) = false := by
  rw [run_dead]; rfl

theorem reject_after_redirect (s : PState) (post : List (List Char))
    (hpost : ∀ x, post.head? = some x → ¬ is_WORD x) :
    accepting (run (step s TOKEN_OUT_REDIRECT) post) = false := by
  have hs : step s TOKEN_OUT_REDIRECT = PState.target ∨
      step s TOKEN_OUT_REDIRECT = PState.dead := by
    cases s <;> simp [step]
  rcases hs with hs | hs
  · rw [hs]
    cases post with
    | nil => rfl
    | cons x rest =>
      have hx : token_type x ≠ TOKEN_WORD := fun h => hpost x rfl (token_type_word.1 h)
      rw [run_cons, step_target_not_word _ hx]
      exact accepting_dead_run rest
  · rw [hs]; exact accepting_dead_run post

theorem reject_redirect_target (pre post : List (List Char))
    (hpost : ∀ x, post.head? = some x → ¬ is_WORD x) :
    accepting (run PState.start (pre ++ ['>'] :: post)) = false := by
  rw [run_append, run_cons]
  exact reject_after_redirect _ post hpost

theorem reject_after_target (pre : List (List Char)) (w x : List Char)
    (rest : List (List Char)) (hx : x ≠ ['|']) :
    accepting (run PState.start (pre ++ ['>'] :: w :: x :: rest)) = false := by
  rw [run_append, run_cons, run_cons, run_cons]
  have hs : step (step (step (run PState.start pre) (token_type ['>'])) (token_type w))
      (token_type x) = PState.dead := by
    have h1 : token_type ['>'] = TOKEN_OUT_REDIRECT := rfl
    have hxp : token_type x ≠ TOKEN_PIPE := fun h => hx (token_type_pipe.1 h)
    rw [h1]
    generalize run PState.start pre = s
    generalize token_type w = tw
    generalize token_type x = tx at hxp
    cases s <;> cases tw <;> cases tx <;> first | rfl | exact absurd rfl hxp
  rw [hs]
  exact accepting_dead_run rest

theorem reject_leading_pipe (rest : List (List Char)) :
    accepting (run PState.start (['|'] :: rest)) = false := by
  rw [run_cons]
  exact accepting_dead_run rest

theorem reject_trailing_pipe (pre : List (List Char)) :
    accepting (run PState.start (pre ++ [['|']])) = false := by
  rw [run_append, run_cons]
  show accepting (step (run PState.start pre) TOKEN_PIPE) = false
  generalize run PState.start pre = s
  cases s <;> rfl

theorem reject_double_pipe (pre post : List (List Char)) :
    accepting (run PState.start (pre ++ ['|'] :: ['|'] :: post)) = false := by
  rw [run_append, run_cons, run_cons]
  have hs : step (step (run PState.start pre) (token_type ['|'])) (token_type ['|']) =
      PState.dead := by
    generalize run PState.start pre = s
    cases s <;> rfl
  rw [hs]
  exact accepting_dead_run post

/-! ## Consequences for a run of `parse` -/

theorem parse_total (line : List Char) : ∃ p, parse line = .ok p := by
  cases h : abs_pipeline token_type (tokens line) with
  | none =>
    obtain ⟨p, hp, _⟩ := parse_invalid line h
    exact ⟨p, hp⟩
  | some sts =>
    obtain ⟨p, hp, _⟩ := parse_valid line sts h
    exact ⟨p, hp⟩

/-- A run of `parse` that ends valid has read a pipeline of well-formed stages,
and its command chain holds them. -/
theorem parse_valid_inv (line : List Char) (p : parser_t) (h : parse line = .ok p)
    (hv : p.root.valid ≠ 0) :
    ∃ sts, (∀ st ∈ sts, good_stage st) ∧ tokens line = pipeline_tokens sts ∧
      (p.root.first_command = none ↔ sts = []) ∧ commands p = p.cmds ∧
      List.Forall₂ (represents p.buf) (commands p) sts ∧
      ∀ c, (commands p).getLast? = some c → c.next = none := by
  cases habs : abs_pipeline token_type (tokens line) with
  | none =>
    obtain ⟨p', hp', hv', _⟩ := parse_invalid line habs
    rw [h] at hp'
    rw [Except.ok.inj hp'] at hv
    exact absurd hv' hv
  | some sts =>
    obtain ⟨p', hp', _, h1, h2, h3, h4⟩ := parse_valid line sts habs
    rw [h] at hp'
    rw [← Except.ok.inj hp'] at h1 h2 h3 h4
    obtain ⟨g1, g2⟩ := (abs_pipeline_iff _ sts).1 habs
    exact ⟨sts, g1, g2, h1, h2, h3, h4⟩

/-- A line with tokens that the automaton rejects parses as not valid. -/
theorem invalid_of_rejected (line : List Char) (hne : tokens line ≠ [])
    (hrej : accepting (run PState.start (tokens line)) = false) :
    ∃ p, parse line = .ok p ∧ p.root.valid = 0 := by
  cases habs : abs_pipeline token_type (tokens line) with
  | none =>
    obtain ⟨p, hp, hv, _⟩ := parse_invalid line habs
    exact ⟨p, hp, hv⟩
  | some sts =>
    obtain ⟨g1, g2⟩ := (abs_pipeline_iff _ sts).1 habs
    cases sts with
    | nil => exact absurd g2 hne
    | cons st sts =>
      have := run_pipeline_tokens st sts g1
      rw [← g2, hrej] at this
      exact Bool.noConfusion this

theorem forall₂_stage_tokens (buf : List Char) (cs : List command_t)
    (sts : List (Stage (List Char))) (h : List.Forall₂ (represents buf) cs sts)
    (hgood : ∀ st ∈ sts, good_stage st) :
    List.Forall₂ (fun c stage =>
        c.argc = (stage_words stage).length + 1 ∧ 2 ≤ c.argc ∧
        argv_read buf c = (stage_words stage).map c_str.str ++ [c_str.NULL] ∧
        read buf c.outfile = target_str (stage_outfile stage))
      cs (sts.map stage_tokens) := by
  induction h with
  | nil => exact List.Forall₂.nil
  | @cons c st cs sts hc _ ih =>
    have hst := hgood st (List.mem_cons_self _ _)
    obtain ⟨r1, r2, r3⟩ := hc
    refine List.Forall₂.cons ⟨?_, ?_, ?_, ?_⟩ (ih (fun x hx => hgood x (List.mem_cons_of_mem _ hx)))
    · rw [stage_words_tokens st hst, r1]
    · have := List.length_pos.2 hst.1
      omega
    · rw [stage_words_tokens st hst, r2]
    · rw [stage_outfile_tokens st hst, r3]
      cases st.out <;> rfl

/-! ## Tokens of particular lines -/

theorem c_string_self (s : List Char) (h : ∀ c ∈ s, c ≠ NUL) : c_string s 0 = s := by
  unfold c_string
  rw [List.drop_zero]
  exact List.takeWhile_eq_self_iff.2 (fun c hc => by simpa using h c hc)

theorem tokens_of_spaces (line : List Char) (h : ∀ c ∈ line, isspace c = true) :
    tokens line = [] := by
  unfold tokens
  rw [c_string_self line (fun c hc => ne_NUL_of_isspace (h c hc))]
  have := split_spaces line [] h
  rw [List.append_nil] at this
  rw [this]
  rfl

theorem intercalate_cons_cons (w w' : List Char) (ws : List (List Char)) :
    [' '].intercalate (w :: w' :: ws) = w ++ ' ' :: [' '].intercalate (w' :: ws) := by
  simp [List.intercalate]

theorem split_joined (ws : List (List Char)) (hne : ws ≠ [])
    (hw : ∀ w ∈ ws, w ≠ [] ∧ ∀ c ∈ w, isspace c = false) :
    (([' '].intercalate ws).splitOnP isspace).filter (fun w => w ≠ []) = ws := by
  induction ws with
  | nil => exact absurd rfl hne
  | cons w ws ih =>
    obtain ⟨h1, h2⟩ := hw w (List.mem_cons_self _ _)
    cases ws with
    | nil =>
      have e : [' '].intercalate [w] = w := by simp [List.intercalate]
      rw [e, List.splitOnP_eq_single _ _ (fun c hc => by simp [h2 c hc])]
      simp [h1]
    | cons w' ws =>
      rw [intercalate_cons_cons, List.splitOnP_first _ _ (fun c hc => by simp [h2 c hc]) ' '
        (by decide)]
      have := ih (by simp) (fun x hx => hw x (List.mem_cons_of_mem _ hx))
      rw [List.filter_cons_of_pos (by simpa using h1), this]

theorem mem_intercalate (ws : List (List Char)) (c : Char)
    (hc : c ∈ [' '].intercalate ws) : c = ' ' ∨ ∃ w ∈ ws, c ∈ w := by
  induction ws with
  | nil => simp [List.intercalate] at hc
  | cons w ws ih =>
    cases ws with
    | nil =>
      have e : [' '].intercalate [w] = w := by simp [List.intercalate]
      rw [e] at hc
      exact Or.inr ⟨w, List.mem_cons_self _ _, hc⟩
    | cons w' ws =>
      rw [intercalate_cons_cons] at hc
      rcases List.mem_append.1 hc with hc | hc
      · exact Or.inr ⟨w, List.mem_cons_self _ _, hc⟩
      · rcases List.mem_cons.1 hc with hc | hc
        · exact Or.inl hc
        · rcases ih hc with h | ⟨x, hx, hcx⟩
          · exact Or.inl h
          · exact Or.inr ⟨x, List.mem_cons_of_mem _ hx, hcx⟩

theorem tokens_joined (ws : List (List Char)) (hne : ws ≠ [])
    (hw : ∀ w ∈ ws, w ≠ [] ∧ ∀ c ∈ w, c ≠ NUL ∧ isspace c = false) :
    tokens ([' '].intercalate ws) = ws := by
  have hnul : ∀ c ∈ [' '].intercalate ws, c ≠ NUL := by
    intro c hc
    rcases mem_intercalate ws c hc with rfl | ⟨w, hw', hcw⟩
    · decide
    · exact ((hw w hw').2 c hcw).1
  unfold tokens
  rw [c_string_self _ hnul]
  exact split_joined ws hne (fun w h => ⟨(hw w h).1, fun c hc => ((hw w h).2 c hc).2⟩)

/-! ## The heap and the chain after a syntax error -/

theorem layout_open_chain :
    ∀ (sts : List (Stage Lexeme)) (H : List command_t) (c : command_t),
      layout H c sts = H ++ open_chain H.length c sts := by
  intro sts
  induction sts with
  | nil => exact fun _ _ => rfl
  | cons st sts ih =>
    intro H c
    rw [layout, ih]
    simp [open_chain]

theorem open_chain_length (sts : List (Stage Lexeme)) :
    ∀ (base : Nat) (c : command_t), (open_chain base c sts).length = sts.length + 1 := by
  induction sts with
  | nil => exact fun _ _ => rfl
  | cons st sts ih =>
    intro base c
    rw [open_chain, List.length_cons, ih]
    rfl

theorem chain_from_open_chain :
    ∀ (sts : List (Stage Lexeme)) (H : List command_t) (c : command_t) (fuel : Nat),
      c.next = none → sts.length < fuel →
      chain_from (H ++ open_chain H.length c sts) fuel (some H.length) =
        open_chain H.length c sts := by
  intro sts
  induction sts with
  | nil =>
    intro H c fuel hc hfuel
    obtain ⟨f, rfl⟩ : ∃ f, fuel = f + 1 := ⟨fuel - 1, by omega⟩
    have hget : (H ++ open_chain H.length c [])[H.length]? = some c :=
      getElem?_append_cons H _ []
    rw [chain_from]
    simp only [hget, hc]
    cases f <;> rfl
  | cons st sts ih =>
    intro H c fuel hc hfuel
    obtain ⟨f, rfl⟩ : ∃ f, fuel = f + 1 := ⟨fuel - 1, by omega⟩
    have hget : (H ++ open_chain H.length c (st :: sts))[H.length]? =
        some { push c char_ptr.null with next := some (H.length + 1) } :=
      getElem?_append_cons H _ _
    have hrec := ih (H ++ [{ push c char_ptr.null with next := some (H.length + 1) }])
      (open_command st) f (open_command_next st) (by simp at hfuel; omega)
    rw [chain_from]
    simp only [hget]
    have e : H ++ open_chain H.length c (st :: sts) =
        (H ++ [{ push c char_ptr.null with next := some (H.length + 1) }]) ++
          open_chain (H.length + 1) (open_command st) sts := by
      simp [open_chain]
    rw [e]
    simp only [List.length_append, List.length_singleton] at hrec
    rw [hrec]
    rfl

theorem open_spec (st : Stage Lexeme) :
    (open_command st).argc = st.words.length ∧
    (open_command st).argv.take (open_command st).argc =
      st.words.map (fun l => char_ptr.addr l.begin) ∧
    (open_command st).outfile = out_ptr st.out := by
  obtain ⟨_, g2, g3, _, _⟩ := foldl_push_word_spec st.words fresh_command Roomy.fresh
  refine ⟨?_, ?_, rfl⟩
  · show (List.foldl push_word fresh_command st.words).argc = _
    rw [g2]; simp [fresh_command]
  · show (List.foldl push_word fresh_command st.words).argv.take
      (List.foldl push_word fresh_command st.words).argc = _
    rw [g3]; simp [fresh_command]

theorem content_closed (buf : List Char) (c : command_t) (st : Stage (List Char))
    (h : represents buf c st) : content buf c = closed_content st := by
  obtain ⟨h1, h2, h3⟩ := h
  unfold content closed_content
  rw [h1, h2, h3]
  cases st.out <;> rfl

theorem content_open (buf : List Char) (st : Stage Lexeme)
    (hw : ∀ l ∈ st.lexemes, c_string buf l.begin = l.text) :
    content buf (open_command st) = open_content (st.map (fun l => l.text)) := by
  obtain ⟨h1, h2, h3⟩ := open_spec st
  unfold content open_content argv_read
  rw [h1] at h2 ⊢
  rw [h2, h3]
  refine Prod.ext (by simp [Stage.map]) (Prod.ext ?_ ?_)
  · simp only [List.map_map, Stage.map]
    apply List.map_congr_left
    intro l hl
    simp only [Function.comp, read]
    rw [hw l (List.mem_append_left _ hl)]
  · cases hso : st.out with
    | none => simp [Stage.map, out_ptr, read, hso, target_str]
    | some g =>
      have := hw g (by simp [Stage.lexemes, hso])
      simp [Stage.map, out_ptr, read, hso, target_str, this]

theorem open_chain_contents (buf : List Char) :
    ∀ (sts : List (Stage Lexeme)) (base : Nat) (st : Stage Lexeme),
      (∀ s ∈ st :: sts, ∀ l ∈ s.lexemes, c_string buf l.begin = l.text) →
      (open_chain base (open_command st) sts).map (content buf) =
        trace_contents ((st :: sts).map (Stage.map (fun l => l.text))) := by
  intro sts
  induction sts with
  | nil =>
    intro base st h
    simp only [open_chain, List.map_cons, List.map_nil, trace_contents]
    rw [content_open buf st (h st (List.mem_cons_self _ _))]
  | cons st' sts ih =>
    intro base st h
    have hst := h st (List.mem_cons_self _ _)
    have hrep : represents buf { push (open_command st) char_ptr.null with
        next := some (base + 1) } (st.map (fun l => l.text)) :=
      represents_closed buf st _ rfl rfl rfl
        (fun l hl => hst l (List.mem_append_left _ hl))
        (fun g hg => hst g (by simp [Stage.lexemes, hg]))
    have hrec := ih (base + 1) st' (fun s hs => h s (List.mem_cons_of_mem _ hs))
    simp only [open_chain, List.map_cons, trace_contents]
    rw [content_closed buf _ _ hrep]
    simp only [List.map_cons] at hrec
    rw [hrec]

section TraceNaturality

variable {α β : Type} (ty : β → token_type_t) (f : α → β)

theorem failed_stage_map (todo : List α) :
    failed_stage ty (todo.map f) = (failed_stage (fun x => ty (f x)) todo).map f := by
  simp only [failed_stage, Stage.map, List.takeWhile_map, Option.map_none']
  rfl

theorem abs_prime_trace_map :
    ∀ (n : Nat) (todo : List α), abs_prime_trace ty n (todo.map f) =
      (abs_prime_trace (fun x => ty (f x)) n todo).map (Stage.map f) := by
  intro n
  induction n with
  | zero => exact fun _ => rfl
  | succ n ih =>
    intro todo
    cases todo with
    | nil => rfl
    | cons t rest =>
      by_cases hp : ty (f t) = TOKEN_PIPE
      · have hc := abs_command_map ty f rest
        cases habs : abs_command (fun x => ty (f x)) rest with
        | none =>
          rw [habs] at hc
          simp only [List.map_cons, abs_prime_trace, hp, habs, hc, if_true, Option.map_none',
            failed_stage_map, List.map_nil]
        | some res =>
          obtain ⟨st, rest'⟩ := res
          rw [habs] at hc
          simp only [List.map_cons, abs_prime_trace, hp, habs, hc, if_true, Option.map_some',
            ih rest']
      · simp only [List.map_cons, abs_prime_trace, hp, if_false, List.map_nil]

theorem abs_trace_map (todo : List α) :
    abs_trace ty (todo.map f) = (abs_trace (fun x => ty (f x)) todo).map (Stage.map f) := by
  cases todo with
  | nil => rfl
  | cons t rest =>
    have hc := abs_command_map ty f (t :: rest)
    cases habs : abs_command (fun x => ty (f x)) (t :: rest) with
    | none =>
      rw [habs] at hc
      rw [List.map_cons] at hc
      simp only [List.map_cons, abs_trace, habs, hc, Option.map_none', List.map_nil]
      rw [← List.map_cons, failed_stage_map]
    | some res =>
      obtain ⟨st, rest'⟩ := res
      rw [habs] at hc
      rw [List.map_cons] at hc
      simp only [List.map_cons, abs_trace, habs, hc, Option.map_some', List.length_map,
        abs_prime_trace_map]

end TraceNaturality

theorem map_closed_content (buf : List Char) (cs : List command_t)
    (sts : List (Stage (List Char))) (h : List.Forall₂ (represents buf) cs sts) :
    cs.map (content buf) = sts.map closed_content := by
  induction h with
  | nil => rfl
  | cons hrep _ ih => rw [List.map_cons, List.map_cons, ih, content_closed _ _ _ hrep]

/-- On every line `parse` returns a root whose validity flag and chain contents
are those the tokens of the line dictate. -/
theorem parse_contents (line : List Char) :
    ∃ p, parse line = .ok p ∧ (p.root.valid, chain_contents p) = spec_contents (tokens line) := by
  cases h : abs_pipeline token_type (tokens line) with
  | some sts =>
    obtain ⟨p, hrun, hvalid, _, _, hrep, _⟩ := parse_valid line sts h
    refine ⟨p, hrun, ?_⟩
    unfold spec_contents chain_contents
    rw [h, hvalid, map_closed_content _ _ _ hrep]
  | none =>
    obtain ⟨L, hL⟩ := exists_lexes line 0
    have hnat := abs_pipeline_map token_type (fun l : Lexeme => l.text) L
    have htr := abs_trace_map token_type (fun l : Lexeme => l.text) L
    rw [hL.tokens] at hnat htr
    rw [h] at hnat
    have hspec := parse_spec line L hL
    have e : abs_pipeline Lexeme.type L = abs_pipeline (fun x => token_type x.text) L := rfl
    have e' : abs_trace Lexeme.type L = abs_trace (fun x => token_type x.text) L := rfl
    rw [e] at hspec
    cases habs : abs_pipeline (fun x : Lexeme => token_type x.text) L with
    | some stsL =>
      rw [habs] at hnat
      simp at hnat
    | none =>
      rw [habs] at hspec
      obtain ⟨p, _, hrun, _, hroot, ⟨st0, sts0, htrace, hcmds⟩, hread, _⟩ := hspec
      refine ⟨p, hrun, ?_⟩
      have hc : commands p = open_chain 0 (open_command st0) sts0 := by
        unfold commands
        rw [hcmds, hroot, layout_open_chain, List.nil_append, open_chain_length]
        have := chain_from_open_chain sts0 [] (open_command st0) (sts0.length + 1)
          (open_command_next st0) (Nat.lt_succ_self _)
        simpa using this
      unfold spec_contents chain_contents
      rw [h, hroot, hc, htr, ← e', htrace]
      rw [open_chain_contents p.buf sts0 0 st0 (by rw [← htrace]; exact hread)]

/-! ## Tokens under whitespace edits -/

theorem splitOnP_append_sep (P : Char → Bool) (a b : List Char) (c : Char) (hc : P c = true) :
    (a ++ c :: b).splitOnP P = a.splitOnP P ++ b.splitOnP P := by
  induction a with
  | nil =>
    rw [List.nil_append, List.splitOnP_cons, if_pos hc, List.splitOnP_nil]
    rfl
  | cons x a ih =>
    rw [List.cons_append, List.splitOnP_cons, List.splitOnP_cons, ih]
    by_cases hx : P x = true
    · rw [if_pos hx, if_pos hx]
      rfl
    · rw [if_neg hx, if_neg hx]
      cases hs : a.splitOnP P with
      | nil => exact absurd hs (List.splitOnP_ne_nil _ _)
      | cons y ys => rfl

theorem split_run (a ws b : List Char) (hws : ∀ c ∈ ws, isspace c = true) (hne : ws ≠ []) :
    ((a ++ ws ++ b).splitOnP isspace).filter (fun w => w ≠ []) =
      (a.splitOnP isspace).filter (fun w => w ≠ []) ++
        (b.splitOnP isspace).filter (fun w => w ≠ []) := by
  cases ws with
  | nil => exact absurd rfl hne
  | cons c ws =>
    have e : a ++ c :: ws ++ b = a ++ c :: (ws ++ b) := by simp
    rw [e, splitOnP_append_sep isspace a (ws ++ b) c (hws c (List.mem_cons_self _ _)),
      List.filter_append,
      split_spaces ws b (fun d hd => hws d (List.mem_cons_of_mem _ hd))]

theorem split_trail (a ws : List Char) (hws : ∀ c ∈ ws, isspace c = true) :
    ((a ++ ws).splitOnP isspace).filter (fun w => w ≠ []) =
      (a.splitOnP isspace).filter (fun w => w ≠ []) := by
  cases ws with
  | nil => rw [List.append_nil]
  | cons c ws =>
    have := split_run a (c :: ws) [] hws (by simp)
    rw [List.append_nil] at this
    rw [this]
    simp

theorem c_string_append_of_nul (a r : List Char) (h : NUL ∈ a) :
    c_string (a ++ r) 0 = c_string a 0 := by
  unfold c_string
  rw [List.drop_zero, List.drop_zero]
  induction a with
  | nil => exact absurd h (List.not_mem_nil _)
  | cons x a ih =>
    by_cases hx : x = NUL
    · simp [List.takeWhile, hx]
    · have hmem : NUL ∈ a := by
        rcases List.mem_cons.1 h with h | h
        · exact absurd h.symm hx
        · exact h
      rw [List.cons_append, List.takeWhile_cons_of_pos (by simpa using hx),
        List.takeWhile_cons_of_pos (by simpa using hx), ih hmem]

theorem c_string_append_of_no_nul (a r : List Char) (h : NUL ∉ a) :
    c_string (a ++ r) 0 = a ++ c_string r 0 := by
  unfold c_string
  rw [List.drop_zero, List.drop_zero]
  exact takeWhile_append_all _ a r (fun c hc => by
    have : c ≠ NUL := fun e => h (e ▸ hc)
    simpa using this)

theorem isspace_of_blank (ws : List Char) (h : blank ws) : ∀ c ∈ ws, isspace c = true := by
  have hsp : ∀ c ∈ whitespace, isspace c = true := by decide
  exact fun c hc => hsp c (h c hc)

theorem not_nul_of_blank (ws : List Char) (h : blank ws) : NUL ∉ ws :=
  fun hn => ne_NUL_of_isspace (isspace_of_blank ws h NUL hn) rfl

theorem tokens_ws_step (s s' : List Char) (h : ws_step s s') : tokens s' = tokens s := by
  cases h with
  | lead ws s hws =>
    unfold tokens
    rw [c_string_append_of_no_nul ws s (not_nul_of_blank ws hws),
      split_spaces ws _ (isspace_of_blank ws hws)]
  | trail s ws hws =>
    unfold tokens
    by_cases hn : NUL ∈ s
    · rw [c_string_append_of_nul s ws hn]
    · rw [c_string_append_of_no_nul s ws hn, c_string_self s (fun c hc e => hn (e ▸ hc)),
        c_string_self ws (fun c hc e => not_nul_of_blank ws hws (e ▸ hc)),
        split_trail s ws (isspace_of_blank ws hws)]
  | run a ws ws' b hws hws' hne hne' =>
    unfold tokens
    by_cases hn : NUL ∈ a
    · rw [List.append_assoc, List.append_assoc, c_string_append_of_nul a _ hn,
        c_string_append_of_nul a _ hn]
    · have h1 : NUL ∉ a ++ ws := fun hm => by
        rcases List.mem_append.1 hm with hm | hm
        · exact hn hm
        · exact not_nul_of_blank ws hws hm
      have h2 : NUL ∉ a ++ ws' := fun hm => by
        rcases List.mem_append.1 hm with hm | hm
        · exact hn hm
        · exact not_nul_of_blank ws' hws' hm
      rw [c_string_append_of_no_nul _ b h1, c_string_append_of_no_nul _ b h2,
        split_run a ws _ (isspace_of_blank ws hws) hne,
        split_run a ws' _ (isspace_of_blank ws' hws') hne']

theorem tokens_ws_variant (s s' : List Char) (h : Relation.ReflTransGen ws_step s s') :
    tokens s' = tokens s := by
  induction h with
  | refl => rfl
  | tail _ hstep ih => rw [tokens_ws_step _ _ hstep, ih]

/-! ## Every command but the one under construction holds a word -/

theorem abs_command_words {α : Type} (ty : α → token_type_t) (todo : List α)
    (st : Stage α) (rest : List α) (h : abs_command ty todo = some (st, rest)) :
    st.words ≠ [] := by
  unfold abs_command at h
  generalize todo.takeWhile (fun x => decide (ty x = TOKEN_WORD)) = ws at h
  generalize todo.dropWhile (fun x => decide (ty x = TOKEN_WORD)) = ds at h
  cases ws with
  | nil => exact Option.noConfusion h
  | cons w ws =>
    cases ds with
    | nil =>
      obtain ⟨rfl, _⟩ := Prod.mk.inj (Option.some.inj h)
      simp
    | cons r ds =>
      by_cases hr : ty r = TOKEN_OUT_REDIRECT
      · cases ds with
        | nil => simp [hr] at h
        | cons f ds =>
          by_cases hf : ty f = TOKEN_WORD
          · simp only [hr, hf, if_true] at h
            obtain ⟨rfl, _⟩ := Prod.mk.inj (Option.some.inj h)
            simp
          · simp [hr, hf] at h
      · simp only [hr, if_false] at h
        obtain ⟨rfl, _⟩ := Prod.mk.inj (Option.some.inj h)
        simp

theorem mem_dropLast_cons {α : Type} (a x : α) (l : List α) (h : x ∈ (a :: l).dropLast) :
    x = a ∨ x ∈ l.dropLast := by
  cases l with
  | nil => exact absurd h (List.not_mem_nil _)
  | cons b l =>
    rw [List.dropLast_cons₂] at h
    exact List.mem_cons.1 h

theorem abs_prime_trace_words {α : Type} (ty : α → token_type_t) :
    ∀ (n : Nat) (todo : List α), ∀ st ∈ (abs_prime_trace ty n todo).dropLast,
      st.words ≠ [] := by
  intro n
  induction n with
  | zero => exact fun _ _ h => absurd h (List.not_mem_nil _)
  | succ n ih =>
    intro todo st hst
    cases todo with
    | nil => exact absurd hst (List.not_mem_nil _)
    | cons t rest =>
      by_cases hp : ty t = TOKEN_PIPE
      · cases habs : abs_command ty rest with
        | none =>
          simp only [abs_prime_trace, hp, habs, if_true] at hst
          exact absurd hst (List.not_mem_nil _)
        | some res =>
          obtain ⟨s, rest'⟩ := res
          simp only [abs_prime_trace, hp, habs, if_true] at hst
          rcases mem_dropLast_cons _ _ _ hst with rfl | hst
          · exact abs_command_words ty rest _ rest' habs
          · exact ih rest' st hst
      · simp only [abs_prime_trace, hp, if_false] at hst
        exact absurd hst (List.not_mem_nil _)

theorem abs_trace_words {α : Type} (ty : α → token_type_t) (todo : List α) :
    ∀ st ∈ (abs_trace ty todo).dropLast, st.words ≠ [] := by
  intro st hst
  cases todo with
  | nil => exact absurd hst (List.not_mem_nil _)
  | cons t rest =>
    cases habs : abs_command ty (t :: rest) with
    | none =>
      simp only [abs_trace, habs] at hst
      exact absurd hst (List.not_mem_nil _)
    | some res =>
      obtain ⟨s, rest'⟩ := res
      simp only [abs_trace, habs] at hst
      rcases mem_dropLast_cons _ _ _ hst with rfl | hst
      · exact abs_command_words ty _ _ rest' habs
      · exact abs_prime_trace_words ty _ rest' st hst

theorem trace_contents_dropLast :
    ∀ tr : List (Stage (List Char)),
      (trace_contents tr).dropLast = tr.dropLast.map closed_content := by
  intro tr
  induction tr with
  | nil => rfl
  | cons st tr ih =>
    cases tr with
    | nil => rfl
    | cons st' tr =>
      rw [trace_contents, List.dropLast_cons₂, List.map_cons]
      cases htc : trace_contents (st' :: tr) with
      | nil => cases tr <;> simp [trace_contents] at htc
      | cons x xs =>
        rw [List.dropLast_cons₂, ← htc, ih]

theorem parse_deterministic (line : List Char) (p p' : parser_t) (h : parse line = .ok p)
    (h' : parse line = .ok p') : p = p' :=
  Except.ok.inj (h.symm.trans h')

theorem closed_content_word (st : Stage (List Char)) (h : st.words ≠ []) :
    ∃ w ws, (closed_content st).2.1 = c_str.str w :: ws := by
  obtain ⟨w, ws, hw⟩ := List.exists_cons_of_ne_nil h
  exact ⟨w, ws.map c_str.str ++ [c_str.NULL], by simp [closed_content, hw]⟩

/-- In the chain `parse` returns, every command of a valid line, and every
command but the last of any line, holds a word in its first `argv` slot. -/
theorem parse_words (line : List Char) (p : parser_t) (h : parse line = .ok p) :
    (p.root.valid ≠ 0 → ∀ c ∈ commands p, ∃ w ws, argv_read p.buf c = c_str.str w :: ws) ∧
    ∀ c ∈ (commands p).dropLast, ∃ w ws, argv_read p.buf c = c_str.str w :: ws := by
  obtain ⟨q, hq, hcont⟩ := parse_contents line
  have hpq := parse_deterministic line q p hq h
  subst hpq
  cases habs : abs_pipeline token_type (tokens line) with
  | some sts =>
    have hs : spec_contents (tokens line) = (1, sts.map closed_content) := by
      unfold spec_contents; rw [habs]
    rw [hs] at hcont
    obtain ⟨hvalid, hchain⟩ := Prod.mk.inj hcont
    have hgood := ((abs_pipeline_iff _ _).1 habs).1
    have hall : ∀ c ∈ commands q, ∃ w ws, argv_read q.buf c = c_str.str w :: ws := by
      intro c hc
      have hm : content q.buf c ∈ sts.map closed_content := by
        have hchain' : chain_contents q = sts.map closed_content := hchain
        rw [← hchain']
        exact List.mem_map_of_mem _ hc
      obtain ⟨st, hst, hcs⟩ := List.mem_map.1 hm
      obtain ⟨w, ws, hw⟩ := closed_content_word st (hgood st hst).1
      rw [hcs] at hw
      exact ⟨w, ws, hw⟩
    exact ⟨fun _ => hall, fun c hc => hall c (List.mem_of_mem_dropLast hc)⟩
  | none =>
    have hs : spec_contents (tokens line) =
        (0, trace_contents (abs_trace token_type (tokens line))) := by
      unfold spec_contents; rw [habs]
    rw [hs] at hcont
    obtain ⟨hvalid, hchain⟩ := Prod.mk.inj hcont
    refine ⟨fun hv => absurd hvalid hv, fun c hc => ?_⟩
    have hchain' : chain_contents q = trace_contents (abs_trace token_type (tokens line)) :=
      hchain
    have hm : content q.buf c ∈ (chain_contents q).dropLast := by
      unfold chain_contents
      rw [← List.map_dropLast]
      exact List.mem_map_of_mem _ hc
    rw [hchain', trace_contents_dropLast] at hm
    obtain ⟨st, hst, hcs⟩ := List.mem_map.1 hm
    obtain ⟨w, ws, hw⟩ := closed_content_word st (abs_trace_words token_type _ st hst)
    rw [hcs] at hw
    exact ⟨w, ws, hw⟩

/-! ## Descriptor tables -/

theorem fd_get_nil (j : Nat) : fd_get [] j = none := by
  simp [fd_get]

theorem fd_get_cons_zero (b : Option file_t) (t : fd_table) : fd_get (b :: t) 0 = b := by
  simp [fd_get]

theorem fd_get_cons_succ (b : Option file_t) (t : fd_table) (j : Nat) :
    fd_get (b :: t) (j + 1) = fd_get t j := by
  simp [fd_get]

theorem lowest_free_cons (b : Option file_t) (t : fd_table) :
    lowest_free (b :: t) = if b = none then 0 else lowest_free t + 1 := by
  unfold lowest_free
  rw [List.findIdx_cons]
  by_cases hb : b = none <;> simp [hb]

theorem lowest_free_free (t : fd_table) : fd_get t (lowest_free t) = none := by
  induction t with
  | nil => exact fd_get_nil _
  | cons b t ih =>
    rw [lowest_free_cons]
    by_cases hb : b = none
    · rw [if_pos hb, fd_get_cons_zero, hb]
    · rw [if_neg hb, fd_get_cons_succ, ih]

theorem lowest_free_min (t : fd_table) : ∀ j, j < lowest_free t → fd_get t j ≠ none := by
  induction t with
  | nil => exact fun j h => absurd h (Nat.not_lt_zero _)
  | cons b t ih =>
    intro j h
    rw [lowest_free_cons] at h
    by_cases hb : b = none
    · rw [if_pos hb] at h
      exact absurd h (Nat.not_lt_zero _)
    · rw [if_neg hb] at h
      cases j with
      | zero => rw [fd_get_cons_zero]; exact hb
      | succ j => rw [fd_get_cons_succ]; exact ih j (by omega)

theorem lowest_free_eq (t : fd_table) (a : Nat) (h : fd_get t a = none)
    (hmin : ∀ j, j < a → fd_get t j ≠ none) : lowest_free t = a := by
  rcases Nat.lt_trichotomy (lowest_free t) a with hlt | heq | hgt
  · exact absurd (lowest_free_free t) (hmin _ hlt)
  · exact heq
  · exact absurd h (lowest_free_min t a hgt)

theorem fd_get_close (t : fd_table) (a j : Nat) :
    fd_get (sys_close t a) j = if j = a then none else fd_get t j := by
  unfold fd_get sys_close
  rw [List.getElem?_set]
  by_cases h : a = j
  · subst h
    by_cases hl : a < t.length <;> simp [hl]
  · have h' : ¬ j = a := fun e => h e.symm
    simp [h, h']

theorem fd_get_of_length_le (t : fd_table) (j : Nat) (h : t.length ≤ j) : fd_get t j = none := by
  unfold fd_get
  rw [List.getElem?_eq_none h]
  rfl

theorem fd_get_put (t : fd_table) (a : Nat) (x : file_t) (j : Nat) :
    fd_get (fd_put t a x) j = if j = a then some x else fd_get t j := by
  unfold fd_put
  by_cases hl : a < t.length
  · rw [if_pos hl]
    unfold fd_get
    rw [List.getElem?_set]
    by_cases h : a = j
    · subst h
      simp [hl]
    · have h' : ¬ j = a := fun e => h e.symm
      simp [h, h']
  · rw [if_neg hl]
    by_cases hj : j < t.length
    · have hne : ¬ j = a := by omega
      rw [if_neg hne]
      unfold fd_get
      rw [List.append_assoc, List.getElem?_append_left hj]
    · rw [fd_get_of_length_le t j (by omega)]
      unfold fd_get
      rw [List.append_assoc, List.getElem?_append_right (by omega)]
      by_cases hja : j = a
      · subst hja
        rw [if_pos rfl, List.getElem?_append_right (by simp)]
        simp
      · rw [if_neg hja]
        by_cases hlt : j - t.length < a - t.length
        · rw [List.getElem?_append_left (by simpa using hlt)]
          simp [hlt]
        · rw [List.getElem?_append_right (by simpa using hlt)]
          have : 0 < j - t.length - (List.replicate (a - t.length) (none : Option file_t)).length := by
            simp; omega
          obtain ⟨k, hk⟩ := Nat.exists_eq_succ_of_ne_zero (Nat.pos_iff_ne_zero.1 this)
          rw [hk]
          rfl

theorem fd_get_dup (t : fd_table) (a : Nat) (x : file_t) (h : fd_get t a = some x) (j : Nat) :
    fd_get (sys_dup t a) j = if j = lowest_free t then some x else fd_get t j := by
  unfold sys_dup
  rw [h]
  exact fd_get_put t _ x j

theorem sys_dup_closed (t : fd_table) (a : Nat) (h : fd_get t a = none) : sys_dup t a = t := by
  unfold sys_dup
  rw [h]

/-! ## The loop of the executor follows the chain -/

theorem stage_loop_chain (infile : command_t → char_ptr) (cmds : List command_t)
    (first : Option Nat) (cs : List command_t) (h : Chain cmds first cs) :
    ∀ (fuel : Nat) (s : shell_t), cs.length < fuel →
      stage_loop infile cmds fuel first s = .ok (stages_run infile cs s) := by
  induction h with
  | nil =>
    intro fuel s _
    cases fuel <;> rfl
  | cons a c cs hget _ ih =>
    intro fuel s hfuel
    obtain ⟨f, rfl⟩ : ∃ f, fuel = f + 1 := ⟨fuel - 1, by simp at hfuel; omega⟩
    rw [stage_loop]
    simp only [hget]
    rw [ih f (stage infile c s) (by simp at hfuel; omega)]
    rfl

theorem execute_chain (infile : command_t → char_ptr) (cmds : List command_t)
    (first : Option Nat) (cs : List command_t) (h : Chain cmds first cs) (fuel : Nat)
    (s : shell_t) (hfuel : cs.length < fuel) :
    execute infile cmds first fuel s =
      .ok (final_close (stages_run infile cs (loop_entry s))) := by
  unfold execute
  simp only [bind, Except.bind]
  have := stage_loop_chain infile cmds first cs h fuel (loop_entry s) hfuel
  unfold loop_entry at this
  rw [this]
  rfl

theorem Chain.last_next {cmds : List command_t} {first : Option Nat} {cs : List command_t}
    (h : Chain cmds first cs) :
    ∀ c rest, c :: rest ∈ cs.tails → (c.next = none ↔ rest = []) := by
  induction h with
  | nil =>
    intro c rest hm
    simp at hm
  | cons a c cs _ hch ih =>
    intro d rest hm
    rw [List.tails_cons, List.mem_cons] at hm
    rcases hm with heq | hm
    · obtain ⟨rfl, rfl⟩ := List.cons.inj heq
      generalize hn : d.next = n at hch
      cases hch with
      | nil => exact ⟨fun _ => rfl, fun _ => rfl⟩
      | cons b e es _ _ =>
        exact ⟨fun h => Option.noConfusion h, fun h => List.noConfusion h⟩
    · exact ih d rest hm

theorem chain_chain_cmds :
    ∀ (sts : List (Stage Lexeme)) (H : List command_t) (c : command_t),
      c.next = none → Roomy c →
      Chain (H ++ chain_cmds H.length c sts) (some H.length) (chain_cmds H.length c sts) := by
  intro sts
  induction sts with
  | nil =>
    intro H c hc hroom
    have hn : (push c char_ptr.null).next = none := by
      rw [(push_spec c _ hroom).2.2.2.2, hc]
    refine Chain.cons _ _ _ (getElem?_append_cons H _ []) ?_
    rw [hn]
    exact Chain.nil
  | cons st sts ih =>
    intro H c _ _
    have hrec := ih (H ++ [{ push c char_ptr.null with next := some (H.length + 1) }])
      (open_command st) (open_command_next st) (Roomy.open_command st)
    have e : H ++ chain_cmds H.length c (st :: sts) =
        (H ++ [{ push c char_ptr.null with next := some (H.length + 1) }]) ++
          chain_cmds (H.length + 1) (open_command st) sts := by
      simp [chain_cmds]
    simp only [List.length_append, List.length_singleton] at hrec
    rw [e]
    exact Chain.cons _ _ _ (by rw [← e]; exact getElem?_append_cons H _ _) hrec

/-- The chain of a valid parse result is linked in the heap from `first_command`
to a last command whose `next` is `NULL`. -/
theorem parse_valid_chain (line : List Char) (p : parser_t) (h : parse line = .ok p)
    (hv : p.root.valid ≠ 0) :
    Chain p.cmds p.root.first_command (commands p) ∧ (commands p).length = p.cmds.length := by
  obtain ⟨L, hL⟩ := exists_lexes line 0
  have hspec := parse_spec line L hL
  cases habs : abs_pipeline Lexeme.type L with
  | none =>
    rw [habs] at hspec
    obtain ⟨q, _, hq, _, hroot, _⟩ := hspec
    rw [parse_deterministic line q p hq h] at hroot
    rw [hroot] at hv
    exact absurd rfl hv
  | some sts =>
    rw [habs] at hspec
    cases sts with
    | nil =>
      obtain ⟨q, hq, _, hcmds, hroot⟩ := hspec
      rw [parse_deterministic line q p hq h] at hroot hcmds
      have hc : commands p = [] := by
        unfold commands
        rw [hcmds, hroot]
        rfl
      rw [hc, hroot, hcmds]
      exact ⟨Chain.nil, rfl⟩
    | cons st sts =>
      obtain ⟨q, hq, _, hcmds, hroot⟩ := hspec
      rw [parse_deterministic line q p hq h] at hroot hcmds
      have hc : commands p = chain_cmds 0 (open_command st) sts := by
        unfold commands
        rw [hcmds, hroot, chain_cmds_length]
        have := chain_from_chain_cmds sts [] (open_command st) (sts.length + 1)
          (open_command_next st) (Roomy.open_command st) (Nat.lt_succ_self _)
        simpa using this
      rw [hc, hroot, hcmds]
      have := chain_chain_cmds sts [] (open_command st) (open_command_next st)
        (Roomy.open_command st)
      exact ⟨by simpa using this, rfl⟩

/-- On a valid line the shell runs the loop body on the commands of the chain, in
order, and then closes the last source pipe. -/
theorem shell_line_valid (infile : command_t → char_ptr) (line : List Char) (p : parser_t)
    (h : parse line = .ok p) (hv : p.root.valid ≠ 0) (s : shell_t) :
    shell_line infile line s =
      .ok (final_close (stages_run infile (commands p) (loop_entry s))) := by
  obtain ⟨hch, hlen⟩ := parse_valid_chain line p h hv
  unfold shell_line
  simp only [bind, Except.bind, h]
  rw [if_neg hv]
  exact execute_chain infile p.cmds _ _ hch _ s (by rw [hlen]; exact Nat.lt_succ_self _)

/-! ## The log of a run -/

theorem pipes_created_append (a b : List event) :
    pipes_created (a ++ b) = pipes_created a + pipes_created b := by
  simp [pipes_created, List.filter_append]

theorem children_append (a b : List event) : children (a ++ b) = children a ++ children b := by
  simp [children, List.filterMap_append]

theorem make_pipe_log (c : command_t) (s : shell_t) :
    pipes_created (make_pipe c s).log = pipes_created s.log + (if c.next = none then 0 else 1) ∧
    children (make_pipe c s).log = children s.log := by
  unfold make_pipe
  by_cases h : c.next = none
  · simp [h]
  · simp [h, pipes_created_append, children_append, pipes_created, children]

theorem open_outfile_log (c : command_t) (s : shell_t) :
    pipes_created (open_outfile c s).log = pipes_created s.log ∧
    children (open_outfile c s).log = children s.log := by
  unfold open_outfile
  by_cases h : c.outfile = char_ptr.null
  · simp [h]
  · simp [h, pipes_created_append, children_append, pipes_created, children]

theorem open_infile_log (infile : command_t → char_ptr) (c : command_t) (s : shell_t) :
    pipes_created (open_infile infile c s).log = pipes_created s.log ∧
    children (open_infile infile c s).log = children s.log := by
  unfold open_infile
  by_cases h : infile c = char_ptr.null
  · simp [h]
  · simp [h, pipes_created_append, children_append, pipes_created, children]

theorem spawn_log (c : command_t) (s : shell_t) :
    pipes_created (spawn c s).log = pipes_created s.log ∧
    children (spawn c s).log = children s.log ++ [child c s] := by
  simp [spawn, pipes_created_append, children_append, pipes_created, children]

theorem do_close_log (s : shell_t) (fd : Nat) :
    pipes_created (do_close s fd).log = pipes_created s.log ∧
    children (do_close s fd).log = children s.log := by
  simp [do_close, pipes_created_append, children_append, pipes_created, children]

theorem rotate_log (s : shell_t) :
    pipes_created (rotate s).log = pipes_created s.log ∧
    children (rotate s).log = children s.log := by
  unfold rotate
  by_cases h1 : s.sourcePipe.1 = 0 <;> by_cases h2 : s.sourcePipe.2 = 0 <;>
    simp [h1, h2, do_close, pipes_created_append, children_append, pipes_created, children]

theorem close_files_log (s : shell_t) :
    pipes_created (close_files s).log = pipes_created s.log ∧
    children (close_files s).log = children s.log := by
  unfold close_files
  by_cases h1 : s.outfile = 0 <;> by_cases h2 : s.infile = 0 <;>
    simp [h1, h2, do_close, pipes_created_append, children_append, pipes_created, children]

theorem final_close_log (s : shell_t) :
    pipes_created (final_close s).log = pipes_created s.log ∧
    children (final_close s).log = children s.log := by
  unfold final_close
  by_cases h1 : s.sourcePipe.1 = 0 <;> by_cases h2 : s.sourcePipe.2 = 0 <;>
    simp [h1, h2, do_close, pipes_created_append, children_append, pipes_created, children]

theorem stage_log (infile : command_t → char_ptr) (c : command_t) (s : shell_t) :
    pipes_created (stage infile c s).log =
      pipes_created s.log + (if c.next = none then 0 else 1) ∧
    children (stage infile c s).log = children s.log ++
      [child c (open_infile infile c (open_outfile c (make_pipe c s)))] := by
  unfold stage
  rw [(close_files_log _).1, (close_files_log _).2, (rotate_log _).1, (rotate_log _).2,
    (spawn_log _ _).1, (spawn_log _ _).2, (open_infile_log _ _ _).1, (open_infile_log _ _ _).2,
    (open_outfile_log _ _).1, (open_outfile_log _ _).2, (make_pipe_log _ _).1,
    (make_pipe_log _ _).2]
  exact ⟨rfl, rfl⟩

theorem stages_run_log (infile : command_t → char_ptr) (cmds : List command_t)
    (first : Option Nat) (cs : List command_t) (h : Chain cmds first cs) :
    ∀ s : shell_t,
      pipes_created (stages_run infile cs s).log = pipes_created s.log + (cs.length - 1) ∧
      (children (stages_run infile cs s).log).map (fun ch => ch.command) =
        (children s.log).map (fun ch => ch.command) ++ cs := by
  induction h with
  | nil =>
    intro s
    simp [stages_run]
  | cons a c cs _ hch ih =>
    intro s
    obtain ⟨h1, h2⟩ := ih (stage infile c s)
    have hs : stages_run infile (c :: cs) s = stages_run infile cs (stage infile c s) := rfl
    rw [hs, h1, h2, (stage_log infile c s).1, (stage_log infile c s).2]
    constructor
    · generalize hn : c.next = n at hch
      cases hch with
      | nil => simp
      | cons b e es _ _ => simp; omega
    · simp [child]

/-! ## The descriptors of a child -/

theorem fd_get_close_ne (t : fd_table) (a j : Nat) (h : j ≠ a) :
    fd_get (sys_close t a) j = fd_get t j := by
  rw [fd_get_close, if_neg h]

theorem fd_get_close_self (t : fd_table) (a : Nat) : fd_get (sys_close t a) a = none := by
  rw [fd_get_close, if_pos rfl]

theorem fd_get_put_open (t : fd_table) (x : file_t) (j : Nat) (h : fd_get t j ≠ none) :
    fd_get (fd_put t (lowest_free t) x) j = fd_get t j := by
  have hne : j ≠ lowest_free t := fun e => h (by rw [e]; exact lowest_free_free t)
  rw [fd_get_put, if_neg hne]

theorem fd_get_put_self (t : fd_table) (a : Nat) (x : file_t) :
    fd_get (fd_put t a x) a = some x := by
  rw [fd_get_put, if_pos rfl]

theorem fd_get_dup_open (t : fd_table) (a j : Nat) (h : fd_get t j ≠ none) :
    fd_get (sys_dup t a) j = fd_get t j := by
  cases ha : fd_get t a with
  | none => rw [sys_dup_closed t a ha]
  | some x =>
    have hne : j ≠ lowest_free t := fun e => h (by rw [e]; exact lowest_free_free t)
    rw [fd_get_dup t a x ha, if_neg hne]

theorem fd_get_dup_other (t : fd_table) (a j : Nat) (h : j ≠ lowest_free t) :
    fd_get (sys_dup t a) j = fd_get t j := by
  cases ha : fd_get t a with
  | none => rw [sys_dup_closed t a ha]
  | some x => rw [fd_get_dup t a x ha, if_neg h]

theorem lowest_free_put_lt (t : fd_table) (x : file_t) :
    lowest_free t < lowest_free (fd_put t (lowest_free t) x) := by
  have hfree := lowest_free_free (fd_put t (lowest_free t) x)
  rcases Nat.lt_trichotomy (lowest_free (fd_put t (lowest_free t) x)) (lowest_free t)
    with hlt | heq | hgt
  · rw [fd_get_put, if_neg (Nat.ne_of_lt hlt)] at hfree
    exact absurd hfree (lowest_free_min t _ hlt)
  · rw [heq, fd_get_put_self] at hfree
    exact Option.noConfusion hfree
  · exact hgt

theorem lowest_free_ne_of_open (t : fd_table) (j : Nat) (h : fd_get t j ≠ none) :
    lowest_free t ≠ j :=
  fun e => h (by rw [← e]; exact lowest_free_free t)

theorem child_source_spec (s : shell_t) (t : fd_table) (h0 : fd_get t 0 ≠ none)
    (hsp : s.sourcePipe = (0, 0) ∨
      (s.sourcePipe.1 < s.sourcePipe.2 ∧ fd_get t s.sourcePipe.1 ≠ none)) :
    fd_get (child_source s t) 0 ≠ none ∧
    ∀ j, j ≠ 0 → j ≠ s.sourcePipe.1 → j ≠ s.sourcePipe.2 →
      fd_get (child_source s t) j = fd_get t j := by
  unfold child_source
  by_cases h1 : s.sourcePipe.1 = 0
  · rw [if_neg (not_not.2 h1)]
    exact ⟨h0, fun _ _ _ _ => rfl⟩
  · rw [if_pos h1]
    rcases hsp with hsp | ⟨hlt, hopen⟩
    · rw [hsp] at h1
      exact absurd rfl h1
    · have h2 : s.sourcePipe.2 ≠ 0 := by omega
      have hlow : lowest_free (sys_close t 0) = 0 :=
        lowest_free_eq _ 0 (fd_get_close_self t 0) (fun j hj => absurd hj (Nat.not_lt_zero _))
      obtain ⟨x, hx⟩ := Option.ne_none_iff_exists'.1 hopen
      have hx' : fd_get (sys_close t 0) s.sourcePipe.1 = some x := by
        rw [fd_get_close_ne _ _ _ h1, hx]
      constructor
      · rw [fd_get_close_ne _ _ _ (Ne.symm h2), fd_get_close_ne _ _ _ (Ne.symm h1),
          fd_get_dup _ _ x hx', hlow, if_pos rfl]
        exact fun e => Option.noConfusion e
      · intro j hj0 hj1 hj2
        rw [fd_get_close_ne _ _ _ hj2, fd_get_close_ne _ _ _ hj1,
          fd_get_dup_other _ _ _ (by rw [hlow]; exact hj0), fd_get_close_ne _ _ _ hj0]

theorem child_dest_spec (s : shell_t) (t : fd_table) (h0 : fd_get t 0 ≠ none)
    (hd : s.destPipe = (0, 0) ∨ s.destPipe.1 < s.destPipe.2) :
    fd_get (child_dest s t) 0 ≠ none ∧
    ∀ j, fd_get t j ≠ none → j ≠ 1 → j ≠ s.destPipe.1 → j ≠ s.destPipe.2 →
      fd_get (child_dest s t) j = fd_get t j := by
  unfold child_dest
  by_cases h1 : s.destPipe.1 = 0
  · rw [if_neg (not_not.2 h1)]
    exact ⟨h0, fun _ _ _ _ _ => rfl⟩
  · rw [if_pos h1]
    rcases hd with hd | hlt
    · rw [hd] at h1
      exact absurd rfl h1
    · have h2 : s.destPipe.2 ≠ 0 := by omega
      have key : ∀ j, fd_get t j ≠ none → j ≠ 1 → j ≠ s.destPipe.1 → j ≠ s.destPipe.2 →
          fd_get (sys_close (sys_close (sys_dup (sys_close t 1) s.destPipe.2) s.destPipe.1)
            s.destPipe.2) j = fd_get t j := by
        intro j hj hj1 hjr hjw
        rw [fd_get_close_ne _ _ _ hjw, fd_get_close_ne _ _ _ hjr,
          fd_get_dup_open _ _ _ (by rw [fd_get_close_ne _ _ _ hj1]; exact hj),
          fd_get_close_ne _ _ _ hj1]
      exact ⟨by rw [key 0 h0 (by decide) (Ne.symm h1) (Ne.symm h2)]; exact h0, key⟩

theorem child_outfile_spec (s : shell_t) (t : fd_table) (x : file_t) (h0 : fd_get t 0 ≠ none)
    (ho : s.outfile ≠ 0) (h1 : s.outfile ≠ 1) (hx : fd_get t s.outfile = some x) :
    fd_get (child_outfile s t) 1 = some x := by
  unfold child_outfile
  rw [if_pos ho]
  have hlow : lowest_free (sys_close t 1) = 1 :=
    lowest_free_eq _ 1 (fd_get_close_self t 1) (fun j hj => by
      have : j = 0 := by omega
      rw [this, fd_get_close_ne _ _ _ (by decide)]
      exact h0)
  have hx' : fd_get (sys_close t 1) s.outfile = some x := by
    rw [fd_get_close_ne _ _ _ h1, hx]
  rw [fd_get_close_ne _ _ _ (Ne.symm h1), fd_get_dup _ _ x hx', hlow, if_pos rfl]

theorem child_infile_spec (s : shell_t) (t : fd_table) (h : fd_get t 1 ≠ none)
    (hi : s.infile ≠ 1) : fd_get (child_infile s t) 1 = fd_get t 1 := by
  unfold child_infile
  by_cases h0 : s.infile = 0
  · rw [if_neg (not_not.2 h0)]
  · rw [if_pos h0, fd_get_close_ne _ _ _ (Ne.symm hi),
      fd_get_dup_open _ _ _ (by rw [fd_get_close_ne _ _ _ (by decide)]; exact h),
      fd_get_close_ne _ _ _ (by decide)]

/-! ## The descriptors the shell opens for a command -/

theorem make_pipe_spec (c : command_t) (s : shell_t) (hn : c.next ≠ none) :
    (make_pipe c s).destPipe.1 = lowest_free s.fds ∧
    (make_pipe c s).destPipe.1 < (make_pipe c s).destPipe.2 ∧
    (make_pipe c s).destPipe.2 < lowest_free (make_pipe c s).fds ∧
    fd_get s.fds (make_pipe c s).destPipe.1 = none ∧
    fd_get s.fds (make_pipe c s).destPipe.2 = none ∧
    (∀ j, fd_get (make_pipe c s).fds j =
      if j = (make_pipe c s).destPipe.2 then some (file_t.pipe_write s.pipes)
      else if j = (make_pipe c s).destPipe.1 then some (file_t.pipe_read s.pipes)
      else fd_get s.fds j) ∧
    (make_pipe c s).sourcePipe = s.sourcePipe ∧ (make_pipe c s).outfile = s.outfile ∧
    (make_pipe c s).infile = s.infile := by
  unfold make_pipe
  rw [if_pos hn]
  have h1 := lowest_free_put_lt s.fds (file_t.pipe_read s.pipes)
  have h2 := lowest_free_put_lt (fd_put s.fds (lowest_free s.fds) (file_t.pipe_read s.pipes))
    (file_t.pipe_write s.pipes)
  have h3 := lowest_free_free (fd_put s.fds (lowest_free s.fds) (file_t.pipe_read s.pipes))
  rw [fd_get_put, if_neg (Nat.ne_of_gt h1)] at h3
  refine ⟨rfl, h1, h2, lowest_free_free _, h3, fun j => ?_, rfl, rfl, rfl⟩
  show fd_get (fd_put (fd_put s.fds _ _) _ _) j = _
  rw [fd_get_put, fd_get_put]
  rfl

theorem make_pipe_skip (c : command_t) (s : shell_t) (hn : c.next = none) :
    make_pipe c s = s := by
  unfold make_pipe
  rw [if_neg (not_not.2 hn)]

theorem open_outfile_spec (c : command_t) (s : shell_t) (ho : c.outfile ≠ char_ptr.null) :
    (open_outfile c s).outfile = lowest_free s.fds ∧
    (open_outfile c s).outfile < lowest_free (open_outfile c s).fds ∧
    (∀ j, fd_get (open_outfile c s).fds j =
      if j = (open_outfile c s).outfile then some (file_t.file c.outfile [O_WRONLY, O_CREAT])
      else fd_get s.fds j) ∧
    (open_outfile c s).sourcePipe = s.sourcePipe ∧ (open_outfile c s).destPipe = s.destPipe ∧
    (open_outfile c s).infile = s.infile := by
  unfold open_outfile
  rw [if_pos ho]
  refine ⟨rfl, lowest_free_put_lt _ _, fun j => ?_, rfl, rfl, rfl⟩
  show fd_get (fd_put s.fds _ _) j = _
  rw [fd_get_put]
  rfl

theorem open_outfile_skip (c : command_t) (s : shell_t) (ho : c.outfile = char_ptr.null) :
    open_outfile c s = s := by
  unfold open_outfile
  rw [if_neg (not_not.2 ho)]

theorem open_infile_spec (infile : command_t → char_ptr) (c : command_t) (s : shell_t)
    (hi : infile c ≠ char_ptr.null) :
    (open_infile infile c s).infile = lowest_free s.fds ∧
    (∀ j, fd_get (open_infile infile c s).fds j =
      if j = (open_infile infile c s).infile then some (file_t.file (infile c) [O_RDONLY])
      else fd_get s.fds j) ∧
    (open_infile infile c s).sourcePipe = s.sourcePipe ∧
    (open_infile infile c s).destPipe = s.destPipe ∧
    (open_infile infile c s).outfile = s.outfile := by
  unfold open_infile
  rw [if_pos hi]
  refine ⟨rfl, fun j => ?_, rfl, rfl, rfl⟩
  show fd_get (fd_put s.fds _ _) j = _
  rw [fd_get_put]
  rfl

theorem open_infile_skip (infile : command_t → char_ptr) (c : command_t) (s : shell_t)
    (hi : infile c = char_ptr.null) : open_infile infile c s = s := by
  unfold open_infile
  rw [if_neg (not_not.2 hi)]

/-- What `open_infile` keeps: the open descriptors, and the fact that `infile` is
either 0 or a descriptor above every descriptor open before. -/
theorem open_infile_keeps (infile : command_t → char_ptr) (c : command_t) (s : shell_t)
    (h0 : s.infile = 0) :
    (∀ j, fd_get s.fds j ≠ none → fd_get (open_infile infile c s).fds j = fd_get s.fds j) ∧
    ((open_infile infile c s).infile = 0 ∨
      fd_get s.fds (open_infile infile c s).infile = none) ∧
    (open_infile infile c s).sourcePipe = s.sourcePipe ∧
    (open_infile infile c s).destPipe = s.destPipe ∧
    (open_infile infile c s).outfile = s.outfile := by
  by_cases hi : infile c = char_ptr.null
  · rw [open_infile_skip infile c s hi]
    exact ⟨fun _ _ => rfl, Or.inl h0, rfl, rfl, rfl⟩
  · obtain ⟨g1, g2, g3, g4, g5⟩ := open_infile_spec infile c s hi
    refine ⟨fun j hj => ?_, Or.inr (by rw [g1]; exact lowest_free_free _), g3, g4, g5⟩
    rw [g2 j, if_neg (fun e => hj (by rw [e, g1]; exact lowest_free_free _))]

/-- C14 for one command: when the shell is at the head of the loop and the
command has both a following command and an output file, the child's descriptor
1 refers to the file when it calls `execvp`. -/
theorem child_stdout_is_file (infile : command_t → char_ptr) (c : command_t) (s : shell_t)
    (hp : Piped s) (hn : c.next ≠ none) (ho : c.outfile ≠ char_ptr.null) :
    fd_get (child c (open_infile infile c (open_outfile c (make_pipe c s)))).at_exec 1 =
      some (file_t.file c.outfile [O_WRONLY, O_CREAT]) := by
  obtain ⟨_, _, hinf, hsp⟩ := hp
  obtain ⟨p1, p2, p3, p4, p5, p6, p7, p8, p9⟩ := make_pipe_spec c s hn
  obtain ⟨o1, o2, o3, o4, o5, o6⟩ := open_outfile_spec c (make_pipe c s) ho
  obtain ⟨i1, i2, i3, i4, i5⟩ := open_infile_keeps infile c (open_outfile c (make_pipe c s))
    (by rw [o6, p9, hinf])
  generalize hs1 : make_pipe c s = s1 at *
  generalize hs2 : open_outfile c s1 = s2 at *
  generalize hs3 : open_infile infile c s2 = s3 at *
  -- the descriptors: read end < write end < outfile, so outfile is at least 2
  have hr_lt : s1.destPipe.1 < s1.destPipe.2 := p2
  have hw_lt : s1.destPipe.2 < s2.outfile := by rw [o1]; exact p3
  have ho2 : 2 ≤ s2.outfile := by omega
  -- descriptor 0 and the file are open in the shell when it forks
  have h0_1 : fd_get s1.fds 0 ≠ none := lowest_free_min s1.fds 0 (by rw [← o1]; omega)
  have h0_2 : fd_get s2.fds 0 ≠ none := by
    rw [o3 0, if_neg (by omega)]; exact h0_1
  have hf_2 : fd_get s2.fds s2.outfile = some (file_t.file c.outfile [O_WRONLY, O_CREAT]) := by
    rw [o3, if_pos rfl]
  have h0_3 : fd_get s3.fds 0 ≠ none := by rw [i1 0 h0_2]; exact h0_2
  have hf_3 : fd_get s3.fds s2.outfile = some (file_t.file c.outfile [O_WRONLY, O_CREAT]) := by
    rw [i1 _ (by rw [hf_2]; exact fun e => Option.noConfusion e), hf_2]
  -- the ends of the source pipe are open in the shell when it forks
  have hopen_1 : ∀ j, fd_get s.fds j ≠ none → fd_get s1.fds j ≠ none := by
    intro j hj
    rw [p6 j]
    split
    · exact fun e => Option.noConfusion e
    · split
      · exact fun e => Option.noConfusion e
      · exact hj
  have hopen_2 : ∀ j, fd_get s1.fds j ≠ none → fd_get s2.fds j ≠ none := by
    intro j hj
    rw [o3 j]
    split
    · exact fun e => Option.noConfusion e
    · exact hj
  have hopen_3 : ∀ j, fd_get s.fds j ≠ none → fd_get s3.fds j ≠ none := by
    intro j hj
    have := hopen_2 j (hopen_1 j hj)
    rw [i1 j this]
    exact this
  have hne_out : ∀ j, fd_get s.fds j ≠ none → s2.outfile ≠ j := by
    intro j hj e
    have := hopen_1 j hj
    rw [← e, o1] at this
    exact this (lowest_free_free _)
  have hsp3 : s3.sourcePipe = s.sourcePipe := by rw [i3, o4, p7]
  have hdp3 : s3.destPipe = s1.destPipe := by rw [i4, o5]
  have hout3 : s3.outfile = s2.outfile := i5
  -- the child
  unfold child
  show fd_get (child_infile s3 (child_outfile s3 (child_dest s3 (child_source s3 s3.fds)))) 1 = _
  obtain ⟨a0, a1⟩ := child_source_spec s3 s3.fds h0_3 (by
    rw [hsp3]
    rcases hsp with h | ⟨h1, h2, _⟩
    · exact Or.inl h
    · exact Or.inr ⟨h1, hopen_3 _ h2⟩)
  have hf_a : fd_get (child_source s3 s3.fds) s2.outfile =
      some (file_t.file c.outfile [O_WRONLY, O_CREAT]) := by
    rw [a1 _ (by omega) ?_ ?_, hf_3]
    · rw [hsp3]
      rcases hsp with h | ⟨_, h2, _⟩
      · rw [h]; omega
      · exact hne_out _ h2
    · rw [hsp3]
      rcases hsp with h | ⟨_, _, h3⟩
      · rw [h]; omega
      · exact hne_out _ h3
  obtain ⟨b0, b1⟩ := child_dest_spec s3 (child_source s3 s3.fds) a0 (by
    rw [hdp3]; exact Or.inr hr_lt)
  have hf_b : fd_get (child_dest s3 (child_source s3 s3.fds)) s2.outfile =
      some (file_t.file c.outfile [O_WRONLY, O_CREAT]) := by
    rw [b1 _ (by rw [hf_a]; exact fun e => Option.noConfusion e) (by omega)
      (by rw [hdp3]; omega) (by rw [hdp3]; omega), hf_a]
  have hc := child_outfile_spec s3 _ _ b0 (by rw [hout3]; omega) (by rw [hout3]; omega)
    (by rw [hout3]; exact hf_b)
  rw [child_infile_spec s3 _ (by rw [hc]; exact fun e => Option.noConfusion e) ?_, hc]
  -- infile is 0 or a descriptor that was not open when the file was
  rcases i2 with h | h
  · rw [h]; decide
  · intro e
    rw [e] at h
    exact lowest_free_min s2.fds 1 (by
      have := o2
      omega) h

/-! ## The descriptors of the shell across one command -/

theorem make_pipe_keeps (c : command_t) (s : shell_t) :
    (∀ j, fd_get s.fds j ≠ none → fd_get (make_pipe c s).fds j = fd_get s.fds j) ∧
    (∀ j, fd_get s.fds j = none → fd_get (make_pipe c s).fds j ≠ none →
      c.next ≠ none ∧ (j = (make_pipe c s).destPipe.1 ∨ j = (make_pipe c s).destPipe.2)) ∧
    (c.next = none → (make_pipe c s).destPipe = s.destPipe) ∧
    (c.next ≠ none → (make_pipe c s).destPipe.1 < (make_pipe c s).destPipe.2 ∧
      fd_get s.fds (make_pipe c s).destPipe.1 = none ∧
      fd_get s.fds (make_pipe c s).destPipe.2 = none ∧
      fd_get (make_pipe c s).fds (make_pipe c s).destPipe.1 ≠ none ∧
      fd_get (make_pipe c s).fds (make_pipe c s).destPipe.2 ≠ none) ∧
    (make_pipe c s).sourcePipe = s.sourcePipe ∧ (make_pipe c s).outfile = s.outfile ∧
    (make_pipe c s).infile = s.infile := by
  by_cases hn : c.next = none
  · rw [make_pipe_skip c s hn]
    exact ⟨fun _ _ => rfl, fun j h h' => absurd h h', fun _ => rfl, fun h => absurd hn h,
      rfl, rfl, rfl⟩
  · obtain ⟨_, p2, _, p4, p5, p6, p7, p8, p9⟩ := make_pipe_spec c s hn
    refine ⟨fun j hj => ?_, fun j hj hj' => ⟨hn, ?_⟩, fun h => absurd h hn,
      fun _ => ⟨p2, p4, p5, ?_, ?_⟩, p7, p8, p9⟩
    · rw [p6 j, if_neg (fun e => hj (by rw [e]; exact p5)),
        if_neg (fun e => hj (by rw [e]; exact p4))]
    · by_contra hcon
      rw [not_or] at hcon
      rw [p6 j, if_neg hcon.2, if_neg hcon.1] at hj'
      exact hj' hj
    · rw [p6, if_neg (Nat.ne_of_lt p2), if_pos rfl]
      exact fun e => Option.noConfusion e
    · rw [p6, if_pos rfl]
      exact fun e => Option.noConfusion e

theorem open_outfile_keeps (c : command_t) (s : shell_t) :
    (∀ j, fd_get s.fds j ≠ none → fd_get (open_outfile c s).fds j = fd_get s.fds j) ∧
    (∀ j, fd_get s.fds j = none → fd_get (open_outfile c s).fds j ≠ none →
      j = (open_outfile c s).outfile) ∧
    ((open_outfile c s).outfile = s.outfile ∨ fd_get s.fds (open_outfile c s).outfile = none) ∧
    (open_outfile c s).sourcePipe = s.sourcePipe ∧ (open_outfile c s).destPipe = s.destPipe ∧
    (open_outfile c s).infile = s.infile := by
  by_cases ho : c.outfile = char_ptr.null
  · rw [open_outfile_skip c s ho]
    exact ⟨fun _ _ => rfl, fun j h h' => absurd h h', Or.inl rfl, rfl, rfl, rfl⟩
  · obtain ⟨o1, _, o3, o4, o5, o6⟩ := open_outfile_spec c s ho
    have hfree : fd_get s.fds (open_outfile c s).outfile = none := by
      rw [o1]; exact lowest_free_free _
    refine ⟨fun j hj => ?_, fun j hj hj' => ?_, Or.inr hfree, o4, o5, o6⟩
    · rw [o3 j, if_neg (fun e => hj (by rw [e]; exact hfree))]
    · by_contra hcon
      rw [o3 j, if_neg hcon] at hj'
      exact hj' hj

theorem open_infile_new (infile : command_t → char_ptr) (c : command_t) (s : shell_t) :
    ∀ j, fd_get s.fds j = none → fd_get (open_infile infile c s).fds j ≠ none →
      j = (open_infile infile c s).infile := by
  intro j hj hj'
  by_cases hi : infile c = char_ptr.null
  · rw [open_infile_skip infile c s hi] at hj'
    exact absurd hj hj'
  · obtain ⟨_, g2, _⟩ := open_infile_spec infile c s hi
    by_contra hcon
    rw [g2 j, if_neg hcon] at hj'
    exact hj' hj

theorem close_if_spec (s : shell_t) (a : Nat) :
    (close_if s a).sourcePipe = s.sourcePipe ∧ (close_if s a).destPipe = s.destPipe ∧
    (close_if s a).outfile = s.outfile ∧ (close_if s a).infile = s.infile ∧
    ∀ j, fd_get (close_if s a).fds j = if j = a ∧ a ≠ 0 then none else fd_get s.fds j := by
  unfold close_if
  by_cases h : a = 0
  · rw [if_neg (not_not.2 h)]
    exact ⟨rfl, rfl, rfl, rfl, fun j => by rw [if_neg (fun e => e.2 h)]⟩
  · rw [if_pos h]
    refine ⟨rfl, rfl, rfl, rfl, fun j => ?_⟩
    show fd_get (sys_close s.fds a) j = _
    rw [fd_get_close]
    by_cases e : j = a <;> simp [e, h]

theorem rotate_eq (s : shell_t) :
    rotate s = { close_if (close_if s s.sourcePipe.1) s.sourcePipe.2 with
      sourcePipe := s.destPipe, destPipe := (0, 0) } := by
  unfold rotate close_if
  by_cases h1 : s.sourcePipe.1 = 0 <;> by_cases h2 : s.sourcePipe.2 = 0 <;>
    simp [h1, h2, do_close]

theorem close_files_eq (s : shell_t) :
    close_files s = { close_if (close_if s s.outfile) s.infile with
      outfile := 0, infile := 0 } := by
  unfold close_files close_if
  by_cases h1 : s.outfile = 0 <;> by_cases h2 : s.infile = 0 <;>
    simp [h1, h2, do_close]

theorem final_close_eq (s : shell_t) :
    final_close s = close_if (close_if s s.sourcePipe.1) s.sourcePipe.2 := by
  unfold final_close close_if
  by_cases h1 : s.sourcePipe.1 = 0 <;> by_cases h2 : s.sourcePipe.2 = 0 <;>
    simp [h1, h2, do_close]

theorem rotate_spec (s : shell_t) :
    (rotate s).sourcePipe = s.destPipe ∧ (rotate s).destPipe = (0, 0) ∧
    (rotate s).outfile = s.outfile ∧ (rotate s).infile = s.infile ∧
    ∀ j, fd_get (rotate s).fds j =
      if (j = s.sourcePipe.1 ∧ s.sourcePipe.1 ≠ 0) ∨ (j = s.sourcePipe.2 ∧ s.sourcePipe.2 ≠ 0)
      then none else fd_get s.fds j := by
  rw [rotate_eq]
  obtain ⟨_, _, a3, a4, a5⟩ := close_if_spec s s.sourcePipe.1
  obtain ⟨_, _, b3, b4, b5⟩ := close_if_spec (close_if s s.sourcePipe.1) s.sourcePipe.2
  refine ⟨rfl, rfl, b3.trans a3, b4.trans a4, fun j => ?_⟩
  show fd_get (close_if (close_if s s.sourcePipe.1) s.sourcePipe.2).fds j = _
  rw [b5, a5]
  by_cases e1 : j = s.sourcePipe.1 ∧ s.sourcePipe.1 ≠ 0 <;>
    by_cases e2 : j = s.sourcePipe.2 ∧ s.sourcePipe.2 ≠ 0 <;> simp [e1, e2]

theorem close_files_spec (s : shell_t) :
    (close_files s).sourcePipe = s.sourcePipe ∧ (close_files s).destPipe = s.destPipe ∧
    (close_files s).outfile = 0 ∧ (close_files s).infile = 0 ∧
    ∀ j, fd_get (close_files s).fds j =
      if (j = s.outfile ∧ s.outfile ≠ 0) ∨ (j = s.infile ∧ s.infile ≠ 0)
      then none else fd_get s.fds j := by
  rw [close_files_eq]
  obtain ⟨a1, a2, _, _, a5⟩ := close_if_spec s s.outfile
  obtain ⟨b1, b2, _, _, b5⟩ := close_if_spec (close_if s s.outfile) s.infile
  refine ⟨b1.trans a1, b2.trans a2, rfl, rfl, fun j => ?_⟩
  show fd_get (close_if (close_if s s.outfile) s.infile).fds j = _
  rw [b5, a5]
  by_cases e1 : j = s.outfile ∧ s.outfile ≠ 0 <;>
    by_cases e2 : j = s.infile ∧ s.infile ≠ 0 <;> simp [e1, e2]

/-- The descriptors the shell holds when it forks the child of a command, in
terms of those it held at the head of the loop. -/
theorem opening_spec (infile : command_t → char_ptr) (c : command_t) (s : shell_t)
    (ho : s.outfile = 0) (hi : s.infile = 0) (hd : s.destPipe = (0, 0)) :
    (∀ j, fd_get s.fds j ≠ none →
      fd_get (open_infile infile c (open_outfile c (make_pipe c s))).fds j = fd_get s.fds j) ∧
    (∀ j, fd_get s.fds j = none →
      fd_get (open_infile infile c (open_outfile c (make_pipe c s))).fds j ≠ none →
      (c.next ≠ none ∧
        (j = (open_infile infile c (open_outfile c (make_pipe c s))).destPipe.1 ∨
          j = (open_infile infile c (open_outfile c (make_pipe c s))).destPipe.2)) ∨
      j = (open_infile infile c (open_outfile c (make_pipe c s))).outfile ∨
      j = (open_infile infile c (open_outfile c (make_pipe c s))).infile) ∧
    ((open_infile infile c (open_outfile c (make_pipe c s))).outfile = 0 ∨
      (fd_get s.fds (open_infile infile c (open_outfile c (make_pipe c s))).outfile = none ∧
        (c.next ≠ none →
          (open_infile infile c (open_outfile c (make_pipe c s))).outfile ≠
            (open_infile infile c (open_outfile c (make_pipe c s))).destPipe.1 ∧
          (open_infile infile c (open_outfile c (make_pipe c s))).outfile ≠
            (open_infile infile c (open_outfile c (make_pipe c s))).destPipe.2))) ∧
    ((open_infile infile c (open_outfile c (make_pipe c s))).infile = 0 ∨
      (fd_get s.fds (open_infile infile c (open_outfile c (make_pipe c s))).infile = none ∧
        (c.next ≠ none →
          (open_infile infile c (open_outfile c (make_pipe c s))).infile ≠
            (open_infile infile c (open_outfile c (make_pipe c s))).destPipe.1 ∧
          (open_infile infile c (open_outfile c (make_pipe c s))).infile ≠
            (open_infile infile c (open_outfile c (make_pipe c s))).destPipe.2))) ∧
    (c.next = none →
      (open_infile infile c (open_outfile c (make_pipe c s))).destPipe = (0, 0)) ∧
    (c.next ≠ none →
      (open_infile infile c (open_outfile c (make_pipe c s))).destPipe.1 <
        (open_infile infile c (open_outfile c (make_pipe c s))).destPipe.2 ∧
      fd_get s.fds (open_infile infile c (open_outfile c (make_pipe c s))).destPipe.1 = none ∧
      fd_get s.fds (open_infile infile c (open_outfile c (make_pipe c s))).destPipe.2 = none ∧
      fd_get (open_infile infile c (open_outfile c (make_pipe c s))).fds
        (open_infile infile c (open_outfile c (make_pipe c s))).destPipe.1 ≠ none ∧
      fd_get (open_infile infile c (open_outfile c (make_pipe c s))).fds
        (open_infile infile c (open_outfile c (make_pipe c s))).destPipe.2 ≠ none) ∧
    (open_infile infile c (open_outfile c (make_pipe c s))).sourcePipe = s.sourcePipe := by
  obtain ⟨m1, m2, m3, m4, m5, m6, m7⟩ := make_pipe_keeps c s
  obtain ⟨p1, p2, p3, p4, p5, p6⟩ := open_outfile_keeps c (make_pipe c s)
  obtain ⟨q1, q3, q4, q5, q6⟩ := open_infile_keeps infile c (open_outfile c (make_pipe c s))
    (by rw [p6, m7, hi])
  have q2 := open_infile_new infile c (open_outfile c (make_pipe c s))
  generalize make_pipe c s = s1 at *
  generalize open_outfile c s1 = s2 at *
  generalize open_infile infile c s2 = s3 at *
  -- descriptors open before stay open, with the same file
  have open1 : ∀ j, fd_get s.fds j ≠ none → fd_get s1.fds j ≠ none :=
    fun j hj => by rw [m1 j hj]; exact hj
  have open2 : ∀ j, fd_get s1.fds j ≠ none → fd_get s2.fds j ≠ none :=
    fun j hj => by rw [p1 j hj]; exact hj
  have open3 : ∀ j, fd_get s2.fds j ≠ none → fd_get s3.fds j ≠ none :=
    fun j hj => by rw [q1 j hj]; exact hj
  have free1 : ∀ j, fd_get s1.fds j = none → fd_get s.fds j = none :=
    fun j hj => by_contra (fun h => open1 j h hj)
  have free2 : ∀ j, fd_get s2.fds j = none → fd_get s1.fds j = none :=
    fun j hj => by_contra (fun h => open2 j h hj)
  have hd3 : s3.destPipe = s1.destPipe := by rw [q5, p5]
  have hout3 : s3.outfile = s2.outfile := q6
  refine ⟨fun j hj => ?_, fun j hj hj' => ?_, ?_, ?_, fun hn => ?_, fun hn => ?_, ?_⟩
  · rw [q1 j (open2 j (open1 j hj)), p1 j (open1 j hj), m1 j hj]
  · by_cases h2 : fd_get s2.fds j = none
    · exact Or.inr (Or.inr (q2 j h2 hj'))
    · by_cases h1 : fd_get s1.fds j = none
      · exact Or.inr (Or.inl (by rw [hout3]; exact p2 j h1 h2))
      · rw [hd3]
        exact Or.inl (m2 j hj h1)
  · rw [hout3]
    rcases p3 with h | h
    · exact Or.inl (by rw [h, m6, ho])
    · refine Or.inr ⟨free1 _ h, fun hn => ?_⟩
      obtain ⟨_, _, _, g4, g5⟩ := m4 hn
      rw [hd3]
      exact ⟨fun e => g4 (by rw [← e]; exact h), fun e => g5 (by rw [← e]; exact h)⟩
  · rcases q3 with h | h
    · exact Or.inl h
    · refine Or.inr ⟨free1 _ (free2 _ h), fun hn => ?_⟩
      obtain ⟨_, _, _, g4, g5⟩ := m4 hn
      rw [hd3]
      exact ⟨fun e => open2 _ g4 (by rw [← e]; exact h),
        fun e => open2 _ g5 (by rw [← e]; exact h)⟩
  · rw [hd3, m3 hn, hd]
  · obtain ⟨g1, g2, g3, g4, g5⟩ := m4 hn
    rw [hd3]
    exact ⟨g1, g2, g3, open3 _ (open2 _ g4), open3 _ (open2 _ g5)⟩
  · rw [q4, p4, m5]

/-- One turn of the loop, from its head to its head: the descriptors that were
open stay as they were except the ends of the source pipe, which are closed;
of the descriptors opened in the turn only the ends of the new pipe remain. -/
theorem stage_spec (infile : command_t → char_ptr) (c : command_t) (s : shell_t)
    (hp : Piped s) :
    (stage infile c s).destPipe = (0, 0) ∧ (stage infile c s).outfile = 0 ∧
    (stage infile c s).infile = 0 ∧
    (∀ j, fd_get s.fds j ≠ none → j ≠ s.sourcePipe.1 ∨ j = 0 → j ≠ s.sourcePipe.2 ∨ j = 0 →
      fd_get (stage infile c s).fds j = fd_get s.fds j) ∧
    (∀ j, j ≠ 0 → j = s.sourcePipe.1 ∨ j = s.sourcePipe.2 →
      fd_get (stage infile c s).fds j = none) ∧
    (∀ j, j ≠ 0 → fd_get s.fds j = none → j ≠ (stage infile c s).sourcePipe.1 →
      j ≠ (stage infile c s).sourcePipe.2 → fd_get (stage infile c s).fds j = none) ∧
    ((c.next = none ∧ (stage infile c s).sourcePipe = (0, 0)) ∨
      (c.next ≠ none ∧ (stage infile c s).sourcePipe.1 < (stage infile c s).sourcePipe.2 ∧
        fd_get s.fds (stage infile c s).sourcePipe.1 = none ∧
        fd_get s.fds (stage infile c s).sourcePipe.2 = none ∧
        fd_get (stage infile c s).fds (stage infile c s).sourcePipe.1 ≠ none ∧
        fd_get (stage infile c s).fds (stage infile c s).sourcePipe.2 ≠ none)) := by
  obtain ⟨hd, ho, hi, hsp⟩ := hp
  obtain ⟨o1, o2, o3a, o3b, o4a, o4b, o5⟩ := opening_spec infile c s ho hi hd
  unfold stage
  generalize open_infile infile c (open_outfile c (make_pipe c s)) = s3 at *
  obtain ⟨r1, r2, r3, r4, r5⟩ := rotate_spec (spawn c s3)
  obtain ⟨f1, f2, f3, f4, f5⟩ := close_files_spec (rotate (spawn c s3))
  have hsrc : (close_files (rotate (spawn c s3))).sourcePipe = s3.destPipe := by
    rw [f1, r1]; rfl
  have hfd : ∀ j, fd_get (close_files (rotate (spawn c s3))).fds j =
      if (j = s3.outfile ∧ s3.outfile ≠ 0) ∨ (j = s3.infile ∧ s3.infile ≠ 0) then none
      else if (j = s.sourcePipe.1 ∧ s.sourcePipe.1 ≠ 0) ∨
          (j = s.sourcePipe.2 ∧ s.sourcePipe.2 ≠ 0) then none
      else fd_get s3.fds j := by
    intro j
    have e1 : (spawn c s3).sourcePipe = s.sourcePipe := o5
    have e2 : (spawn c s3).outfile = s3.outfile := rfl
    have e3 : (spawn c s3).infile = s3.infile := rfl
    have e4 : (spawn c s3).fds = s3.fds := rfl
    rw [f5 j, r5 j, r3, r4, e1, e2, e3, e4]
  -- a descriptor that was open is not one the shell opened for the command
  have not_files : ∀ j, fd_get s.fds j ≠ none →
      ¬ ((j = s3.outfile ∧ s3.outfile ≠ 0) ∨ (j = s3.infile ∧ s3.infile ≠ 0)) := by
    intro j hj hcon
    rcases hcon with ⟨e, h0⟩ | ⟨e, h0⟩
    · rcases o3a with h | ⟨h, _⟩
      · exact h0 h
      · exact hj (by rw [e]; exact h)
    · rcases o3b with h | ⟨h, _⟩
      · exact h0 h
      · exact hj (by rw [e]; exact h)
  -- a descriptor that was free is not an end of the source pipe, unless it is 0
  have not_source : ∀ j, fd_get s.fds j = none →
      ¬ ((j = s.sourcePipe.1 ∧ s.sourcePipe.1 ≠ 0) ∨
        (j = s.sourcePipe.2 ∧ s.sourcePipe.2 ≠ 0)) := by
    intro j hj hcon
    rcases hsp with h | ⟨_, h1, h2⟩
    · rw [h] at hcon
      rcases hcon with ⟨_, h0⟩ | ⟨_, h0⟩ <;> exact h0 rfl
    · rcases hcon with ⟨e, _⟩ | ⟨e, _⟩
      · exact h1 (by rw [← e]; exact hj)
      · exact h2 (by rw [← e]; exact hj)
  refine ⟨by rw [f2, r2], f3, f4, fun j hj h1 h2 => ?_, fun j hj0 hj => ?_,
    fun j hj0 hj h1 h2 => ?_, ?_⟩
  · rw [hfd j, if_neg (not_files j hj), if_neg ?_, o1 j hj]
    intro hcon
    rcases hcon with ⟨e, h0⟩ | ⟨e, h0⟩
    · rcases h1 with h | h
      · exact h e
      · exact h0 (by rw [← e]; exact h)
    · rcases h2 with h | h
      · exact h e
      · exact h0 (by rw [← e]; exact h)
  · rw [hfd j]
    split
    · rfl
    · rw [if_pos ?_]
      rcases hj with e | e
      · exact Or.inl ⟨e, by rw [← e]; exact hj0⟩
      · exact Or.inr ⟨e, by rw [← e]; exact hj0⟩
  · rw [hsrc] at h1 h2
    rw [hfd j]
    split
    · rfl
    · rename_i hnf
      rw [if_neg (not_source j hj)]
      by_contra hopen
      rcases o2 j hj hopen with ⟨_, h | h⟩ | h | h
      · exact h1 h
      · exact h2 h
      · exact hnf (Or.inl ⟨h, by rw [← h]; exact hj0⟩)
      · exact hnf (Or.inr ⟨h, by rw [← h]; exact hj0⟩)
  · rw [hsrc]
    by_cases hn : c.next = none
    · exact Or.inl ⟨hn, o4a hn⟩
    · obtain ⟨g1, g2, g3, g4, g5⟩ := o4b hn
      refine Or.inr ⟨hn, g1, g2, g3, ?_, ?_⟩
      · rw [hfd, if_neg ?_, if_neg (not_source _ g2)]
        · exact g4
        · intro hcon
          rcases hcon with ⟨e, h0⟩ | ⟨e, h0⟩
          · rcases o3a with h | ⟨_, h⟩
            · exact h0 h
            · exact (h hn).1 e.symm
          · rcases o3b with h | ⟨_, h⟩
            · exact h0 h
            · exact (h hn).1 e.symm
      · rw [hfd, if_neg ?_, if_neg (not_source _ g3)]
        · exact g5
        · intro hcon
          rcases hcon with ⟨e, h0⟩ | ⟨e, h0⟩
          · rcases o3a with h | ⟨_, h⟩
            · exact h0 h
            · exact (h hn).2 e.symm
          · rcases o3b with h | ⟨_, h⟩
            · exact h0 h
            · exact (h hn).2 e.symm

theorem stage_piped (infile : command_t → char_ptr) (c : command_t) (s : shell_t)
    (hp : Piped s) : Piped (stage infile c s) := by
  obtain ⟨h1, h2, h3, _, _, _, h7⟩ := stage_spec infile c s hp
  refine ⟨h1, h2, h3, ?_⟩
  rcases h7 with ⟨_, h⟩ | ⟨_, g1, _, _, g4, g5⟩
  · exact Or.inl h
  · exact Or.inr ⟨g1, g4, g5⟩

theorem stages_run_piped (infile : command_t → char_ptr) (cs : List command_t) :
    ∀ s : shell_t, Piped s → Piped (stages_run infile cs s) := by
  induction cs with
  | nil => exact fun _ h => h
  | cons c cs ih => exact fun s h => ih (stage infile c s) (stage_piped infile c s h)

theorem stage_tracks (infile : command_t → char_ptr) (c : command_t) (s : shell_t)
    (t0 : fd_table) (hp : Piped s) (ht : Tracks t0 s) : Tracks t0 (stage infile c s) := by
  obtain ⟨_, _, _, h4, h5, h6, h7⟩ := stage_spec infile c s hp
  obtain ⟨t1, t2, t3, t4⟩ := ht
  have h0 : fd_get s.fds 0 = fd_get t0 0 := t2 0 (Or.inr rfl)
  -- what the table `t0` holds at a descriptor that is free in the shell
  have free0 : ∀ j, j ≠ 0 → fd_get s.fds j = none → fd_get t0 j = none := by
    intro j hj0 hj
    by_cases e1 : j = s.sourcePipe.1
    · exact e1 ▸ t3 (by rw [← e1]; exact hj0)
    · by_cases e2 : j = s.sourcePipe.2
      · exact e2 ▸ t4 (by rw [← e2]; exact hj0)
      · rw [← t2 j (Or.inl ⟨e1, e2⟩)]
        exact hj
  have hpos : ∀ j, fd_get s.fds j = none → j ≠ 0 := by
    intro j hj e
    rw [e, h0] at hj
    exact t1 hj
  refine ⟨t1, fun j hj => ?_, fun hne => ?_, fun hne => ?_⟩
  · by_cases hj0 : j = 0
    · rw [hj0, h4 0 (by rw [h0]; exact t1) (Or.inr rfl) (Or.inr rfl), h0]
    · have hj' : j ≠ (stage infile c s).sourcePipe.1 ∧ j ≠ (stage infile c s).sourcePipe.2 := by
        rcases hj with h | h
        · exact h
        · exact absurd h hj0
      by_cases hopen : fd_get s.fds j = none
      · rw [h6 j hj0 hopen hj'.1 hj'.2, free0 j hj0 hopen]
      · by_cases e1 : j = s.sourcePipe.1
        · rw [h5 j hj0 (Or.inl e1)]
          exact (e1 ▸ t3 (by rw [← e1]; exact hj0)).symm
        · by_cases e2 : j = s.sourcePipe.2
          · rw [h5 j hj0 (Or.inr e2)]
            exact (e2 ▸ t4 (by rw [← e2]; exact hj0)).symm
          · rw [h4 j hopen (Or.inl e1) (Or.inl e2), t2 j (Or.inl ⟨e1, e2⟩)]
  · rcases h7 with ⟨_, h⟩ | ⟨_, _, g2, _, _, _⟩
    · rw [h] at hne
      exact absurd rfl hne
    · exact free0 _ hne g2
  · rcases h7 with ⟨_, h⟩ | ⟨_, _, _, g3, _, _⟩
    · rw [h] at hne
      exact absurd rfl hne
    · exact free0 _ hne g3

theorem stages_run_tracks (infile : command_t → char_ptr) (t0 : fd_table)
    (cs : List command_t) :
    ∀ s : shell_t, Piped s → Tracks t0 s → Tracks t0 (stages_run infile cs s) := by
  induction cs with
  | nil => exact fun _ _ h => h
  | cons c cs ih =>
    exact fun s hp ht => ih (stage infile c s) (stage_piped infile c s hp)
      (stage_tracks infile c s t0 hp ht)

theorem loop_entry_piped (s : shell_t) : Piped (loop_entry s) :=
  ⟨rfl, rfl, rfl, Or.inl rfl⟩

theorem loop_entry_tracks (s : shell_t) (h0 : fd_get s.fds 0 ≠ none) :
    Tracks s.fds (loop_entry s) :=
  ⟨h0, fun _ _ => rfl, fun h => absurd rfl h, fun h => absurd rfl h⟩

theorem final_close_tracks (t0 : fd_table) (s : shell_t) (ht : Tracks t0 s) :
    ∀ j, fd_get (final_close s).fds j = fd_get t0 j := by
  obtain ⟨_, t2, t3, t4⟩ := ht
  obtain ⟨_, _, _, _, a5⟩ := close_if_spec s s.sourcePipe.1
  obtain ⟨_, _, _, _, b5⟩ := close_if_spec (close_if s s.sourcePipe.1) s.sourcePipe.2
  intro j
  rw [final_close_eq, b5, a5]
  by_cases e2 : j = s.sourcePipe.2 ∧ s.sourcePipe.2 ≠ 0
  · rw [if_pos e2, e2.1, t4 e2.2]
  · rw [if_neg e2]
    by_cases e1 : j = s.sourcePipe.1 ∧ s.sourcePipe.1 ≠ 0
    · rw [if_pos e1, e1.1, t3 e1.2]
    · rw [if_neg e1]
      by_cases hj0 : j = 0
      · exact t2 j (Or.inr hj0)
      · refine t2 j (Or.inl ⟨fun e => e1 ⟨e, ?_⟩, fun e => e2 ⟨e, ?_⟩⟩)
        · rw [← e]; exact hj0
        · rw [← e]; exact hj0

/-- Every child forked in the loop whose command has both a following command
and an output file has the file on descriptor 1 when it calls `execvp`. -/
theorem stages_run_children (infile : command_t → char_ptr) (cs : List command_t) :
    ∀ s : shell_t, Piped s →
      ∃ new, children (stages_run infile cs s).log = children s.log ++ new ∧
        ∀ ch ∈ new, ch.command.next ≠ none → ch.command.outfile ≠ char_ptr.null →
          fd_get ch.at_exec 1 =
            some (file_t.file ch.command.outfile [O_WRONLY, O_CREAT]) := by
  induction cs with
  | nil => exact fun s _ => ⟨[], by simp [stages_run], fun _ h => absurd h (List.not_mem_nil _)⟩
  | cons c cs ih =>
    intro s hp
    obtain ⟨new, h1, h2⟩ := ih (stage infile c s) (stage_piped infile c s hp)
    refine ⟨child c (open_infile infile c (open_outfile c (make_pipe c s))) :: new, ?_, ?_⟩
    · have hs : stages_run infile (c :: cs) s = stages_run infile cs (stage infile c s) := rfl
      rw [hs, h1, (stage_log infile c s).2]
      simp
    · intro ch hch hn ho
      rcases List.mem_cons.1 hch with h | h
      · rw [h] at hn ho ⊢
        exact child_stdout_is_file infile c s hp hn ho
      · exact h2 ch h hn ho

/-! ## The log only grows -/

theorem do_close_mono (s : shell_t) (fd : Nat) : ∀ e ∈ s.log, e ∈ (do_close s fd).log :=
  fun _ h => List.mem_append_left _ h

theorem close_if_mono (s : shell_t) (fd : Nat) : ∀ e ∈ s.log, e ∈ (close_if s fd).log := by
  intro e h
  unfold close_if
  split
  · exact do_close_mono s fd e h
  · exact h

theorem make_pipe_mono (c : command_t) (s : shell_t) : ∀ e ∈ s.log, e ∈ (make_pipe c s).log := by
  intro e h
  unfold make_pipe
  split
  · exact List.mem_append_left _ h
  · exact h

theorem open_outfile_mono (c : command_t) (s : shell_t) :
    ∀ e ∈ s.log, e ∈ (open_outfile c s).log := by
  intro e h
  unfold open_outfile
  split
  · exact List.mem_append_left _ h
  · exact h

theorem open_infile_mono (infile : command_t → char_ptr) (c : command_t) (s : shell_t) :
    ∀ e ∈ s.log, e ∈ (open_infile infile c s).log := by
  intro e h
  unfold open_infile
  split
  · exact List.mem_append_left _ h
  · exact h

theorem rotate_mono (s : shell_t) : ∀ e ∈ s.log, e ∈ (rotate s).log := by
  intro e h
  rw [rotate_eq]
  exact close_if_mono _ _ e (close_if_mono _ _ e h)

theorem close_files_mono (s : shell_t) : ∀ e ∈ s.log, e ∈ (close_files s).log := by
  intro e h
  rw [close_files_eq]
  exact close_if_mono _ _ e (close_if_mono _ _ e h)

theorem final_close_mono (s : shell_t) : ∀ e ∈ s.log, e ∈ (final_close s).log := by
  intro e h
  rw [final_close_eq]
  exact close_if_mono _ _ e (close_if_mono _ _ e h)

theorem after_pipe_mono (infile : command_t → char_ptr) (c : command_t) (s1 : shell_t) :
    ∀ e ∈ s1.log,
      e ∈ (close_files (rotate (spawn c (open_infile infile c (open_outfile c s1))))).log :=
  fun e h => close_files_mono _ e (rotate_mono _ e (List.mem_append_left _
    (open_infile_mono infile c _ e (open_outfile_mono c _ e h))))

theorem stage_mono (infile : command_t → char_ptr) (c : command_t) (s : shell_t) :
    ∀ e ∈ s.log, e ∈ (stage infile c s).log :=
  fun e h => after_pipe_mono infile c _ e (make_pipe_mono c s e h)

theorem stages_run_mono (infile : command_t → char_ptr) (cs : List command_t) :
    ∀ s : shell_t, ∀ e ∈ s.log, e ∈ (stages_run infile cs s).log := by
  induction cs with
  | nil => exact fun _ _ h => h
  | cons c cs ih => exact fun s e h => ih (stage infile c s) e (stage_mono infile c s e h)

/-! ## A command for which the shell opens nothing -/

theorem stage_plain (infile : command_t → char_ptr) (c : command_t) (s : shell_t)
    (hp : Piped s) (hsp : s.sourcePipe = (0, 0)) (hn : c.next = none)
    (ho : c.outfile = char_ptr.null) (hi : infile c = char_ptr.null) :
    (stage infile c s).fds = s.fds ∧ (stage infile c s).sourcePipe = (0, 0) := by
  obtain ⟨hd, hof, hif, _⟩ := hp
  unfold stage
  rw [make_pipe_skip c s hn, open_outfile_skip c s ho, open_infile_skip infile c s hi,
    close_files_eq, rotate_eq]
  have e1 : (spawn c s).sourcePipe = (0, 0) := hsp
  have e2 : (spawn c s).destPipe = (0, 0) := hd
  simp only [e1, e2]
  have e3 : close_if (close_if (spawn c s) 0) 0 = spawn c s := rfl
  rw [e3]
  have e4 : (spawn c s).outfile = 0 := hof
  have e5 : (spawn c s).infile = 0 := hif
  simp only [e4, e5]
  exact ⟨rfl, rfl⟩

/-- When descriptor 0 is not open, a command for which `pipe` or `open` is called
gets descriptor 0 from the call. -/
theorem stage_returns_zero (infile : command_t → char_ptr) (c : command_t) (s : shell_t)
    (h0 : fd_get s.fds 0 = none)
    (hc : c.next ≠ none ∨ c.outfile ≠ char_ptr.null ∨ infile c ≠ char_ptr.null) :
    ¬ returns_nonzero (stage infile c s).log := by
  have hlow : lowest_free s.fds = 0 :=
    lowest_free_eq _ 0 h0 (fun j hj => absurd hj (Nat.not_lt_zero _))
  intro hnz
  by_cases hn : c.next = none
  · by_cases ho : c.outfile = char_ptr.null
    · have hi : infile c ≠ char_ptr.null := by
        rcases hc with h | h | h
        · exact absurd hn h
        · exact absurd ho h
        · exact h
      have hmem : event.opened (infile c) [O_RDONLY] 0o644 (lowest_free s.fds) ∈
          (stage infile c s).log := by
        unfold stage
        rw [make_pipe_skip c s hn, open_outfile_skip c s ho]
        refine close_files_mono _ _ (rotate_mono _ _ (List.mem_append_left _ ?_))
        unfold open_infile
        rw [if_pos hi]
        exact List.mem_append_right _ (List.mem_singleton.2 rfl)
      exact hnz _ hmem hlow
    · have hmem : event.opened c.outfile [O_WRONLY, O_CREAT] 0o644 (lowest_free s.fds) ∈
          (stage infile c s).log := by
        unfold stage
        rw [make_pipe_skip c s hn]
        refine close_files_mono _ _ (rotate_mono _ _ (List.mem_append_left _
          (open_infile_mono infile c _ _ ?_)))
        unfold open_outfile
        rw [if_pos ho]
        exact List.mem_append_right _ (List.mem_singleton.2 rfl)
      exact hnz _ hmem hlow
  · have hmem : event.pipe (sys_pipe s.fds s.pipes).1.1 (sys_pipe s.fds s.pipes).1.2 ∈
        (stage infile c s).log := by
      refine after_pipe_mono infile c _ _ ?_
      unfold make_pipe
      rw [if_pos hn]
      exact List.mem_append_right _ (List.mem_singleton.2 rfl)
    exact (hnz _ hmem).1 hlow

/-- The descriptors of the shell after a pipeline, when every descriptor that
`pipe` or `open` returned is non-zero: they are those it had before. -/
theorem run_restores (infile : command_t → char_ptr) (cmds : List command_t)
    (first : Option Nat) (cs : List command_t) (hch : Chain cmds first cs) (s : shell_t)
    (hnz : returns_nonzero (final_close (stages_run infile cs (loop_entry s))).log) :
    ∀ fd, fd_get (final_close (stages_run infile cs (loop_entry s))).fds fd =
      fd_get s.fds fd := by
  by_cases h0 : fd_get s.fds 0 = none
  · -- descriptor 0 is not open: no descriptor is opened at all
    cases hch with
    | nil => exact fun _ => rfl
    | cons a c cs hget hrest =>
      have hs : stages_run infile (c :: cs) (loop_entry s) =
          stages_run infile cs (stage infile c (loop_entry s)) := rfl
      rw [hs] at hnz ⊢
      have hnz1 : returns_nonzero (stage infile c (loop_entry s)).log :=
        fun e he => hnz e (final_close_mono _ e (stages_run_mono infile cs _ e he))
      have hplain : ¬ (c.next ≠ none ∨ c.outfile ≠ char_ptr.null ∨
          infile c ≠ char_ptr.null) :=
        fun hc => stage_returns_zero infile c (loop_entry s) h0 hc hnz1
      rw [not_or, not_or, not_not, not_not, not_not] at hplain
      obtain ⟨hn, ho, hi⟩ := hplain
      obtain ⟨e1, e2⟩ := stage_plain infile c (loop_entry s) (loop_entry_piped s) rfl hn ho hi
      generalize hnx : c.next = n at hrest
      cases hrest with
      | nil =>
        intro fd
        rw [final_close_eq]
        show fd_get (close_if (close_if (stage infile c (loop_entry s))
          (stage infile c (loop_entry s)).sourcePipe.1)
          (stage infile c (loop_entry s)).sourcePipe.2).fds fd = _
        rw [e2]
        show fd_get (stage infile c (loop_entry s)).fds fd = _
        rw [e1]
        rfl
      | cons b d ds _ _ => rw [hn] at hnx; exact Option.noConfusion hnx
  · exact final_close_tracks s.fds _
      (stages_run_tracks infile s.fds cs (loop_entry s) (loop_entry_piped s)
        (loop_entry_tracks s h0))

/-! ## Capacity of the argument arrays -/

theorem tight_roomy {c : command_t} (h : Tight c) : Roomy c := by
  obtain ⟨h1, _, h3, _⟩ := h
  exact ⟨by omega, by omega, h1⟩

theorem tight_fresh : Tight fresh_command :=
  ⟨rfl, ⟨0, rfl⟩, by decide, by decide⟩

theorem tight_push {c : command_t} (h : Tight c) (x : char_ptr) : Tight (push c x) := by
  obtain ⟨r1, r2, r3, r4⟩ := push_spec c x (tight_roomy h)
  obtain ⟨h1, ⟨k, hk⟩, h3, h4⟩ := h
  by_cases hfull : c.argc = c.capacity
  · have e : (push c x).capacity = 2 * c.capacity := by rw [push_full c x hfull]
    refine ⟨r1.2.2, ⟨k + 1, by rw [e, hk, pow_succ]; omega⟩, ?_, ?_⟩
    · rw [r2, e]; omega
    · rw [r2, e]; omega
  · have e : (push c x).capacity = c.capacity := by rw [push_room c x hfull]
    refine ⟨r1.2.2, ⟨k, by rw [e, hk]⟩, ?_, ?_⟩
    · rw [r2, e]; omega
    · rw [r2, e]; omega

theorem tight_foldl (ws : List Lexeme) : ∀ c : command_t, Tight c → Tight (ws.foldl push_word c) := by
  induction ws with
  | nil => exact fun _ h => h
  | cons l ws ih => exact fun c h => ih _ (tight_push h _)

theorem tight_open_command (st : Stage Lexeme) : Tight (open_command st) :=
  tight_foldl st.words fresh_command tight_fresh

theorem tight_least {c : command_t} (h : Tight c) :
    c.argc ≤ c.capacity ∧ c.argv.length = c.capacity ∧ least_pow2 (max c.argc 1) c.capacity := by
  obtain ⟨h1, ⟨k, hk⟩, h3, h4⟩ := h
  refine ⟨by omega, h1, ⟨k, hk⟩, h3, fun j hj => ?_⟩
  rw [hk]
  have hlt : 2 ^ k < 2 ^ (j + 1) := by
    rw [← hk, pow_succ]; omega
  have : k < j + 1 := (Nat.pow_lt_pow_iff_right (by decide)).1 hlt
  exact Nat.pow_le_pow_right (by decide) (by omega)

theorem chain_cmds_tight :
    ∀ (sts : List (Stage Lexeme)) (base : Nat) (c : command_t), Tight c →
      ∀ x ∈ chain_cmds base c sts, Tight x := by
  intro sts
  induction sts with
  | nil =>
    intro base c h x hx
    rw [chain_cmds, List.mem_singleton] at hx
    rw [hx]
    exact tight_push h _
  | cons st sts ih =>
    intro base c h x hx
    rw [chain_cmds, List.mem_cons] at hx
    rcases hx with hx | hx
    · rw [hx]
      exact tight_push h char_ptr.null
    · exact ih (base + 1) (open_command st) (tight_open_command st) x hx

theorem open_chain_tight :
    ∀ (sts : List (Stage Lexeme)) (base : Nat) (c : command_t), Tight c →
      ∀ x ∈ open_chain base c sts, Tight x := by
  intro sts
  induction sts with
  | nil =>
    intro base c h x hx
    rw [open_chain, List.mem_singleton] at hx
    rw [hx]
    exact h
  | cons st sts ih =>
    intro base c h x hx
    rw [open_chain, List.mem_cons] at hx
    rcases hx with hx | hx
    · rw [hx]
      exact tight_push h char_ptr.null
    · exact ih (base + 1) (open_command st) (tight_open_command st) x hx

/-- Every command in the chain `parse` returns has a tight argument array. -/
theorem parse_tight (line : List Char) (p : parser_t) (h : parse line = .ok p) :
    ∀ c ∈ commands p, Tight c := by
  obtain ⟨L, hL⟩ := exists_lexes line 0
  have hspec := parse_spec line L hL
  cases habs : abs_pipeline Lexeme.type L with
  | none =>
    rw [habs] at hspec
    obtain ⟨q, _, hq, _, hroot, ⟨st0, sts0, _, hcmds⟩, _⟩ := hspec
    rw [parse_deterministic line q p hq h] at hroot hcmds
    have hc : commands p = open_chain 0 (open_command st0) sts0 := by
      unfold commands
      rw [hcmds, hroot, layout_open_chain, List.nil_append, open_chain_length]
      have := chain_from_open_chain sts0 [] (open_command st0) (sts0.length + 1)
        (open_command_next st0) (Nat.lt_succ_self _)
      simpa using this
    rw [hc]
    exact open_chain_tight sts0 0 _ (tight_open_command st0)
  | some sts =>
    rw [habs] at hspec
    cases sts with
    | nil =>
      obtain ⟨q, hq, _, hcmds, hroot⟩ := hspec
      rw [parse_deterministic line q p hq h] at hroot hcmds
      have hc : commands p = [] := by
        unfold commands
        rw [hcmds, hroot]
        rfl
      rw [hc]
      exact fun _ hx => absurd hx (List.not_mem_nil _)
    | cons st sts =>
      obtain ⟨q, hq, _, hcmds, hroot⟩ := hspec
      rw [parse_deterministic line q p hq h] at hroot hcmds
      have hc : commands p = chain_cmds 0 (open_command st) sts := by
        unfold commands
        rw [hcmds, hroot, chain_cmds_length]
        have := chain_from_chain_cmds sts [] (open_command st) (sts.length + 1)
          (open_command_next st) (Roomy.open_command st) (Nat.lt_succ_self _)
        simpa using this
      rw [hc]
      exact chain_cmds_tight sts 0 _ (tight_open_command st)

theorem realloc_array_take (argv : List char_ptr) (n k : Nat) (hk : k ≤ n)
    (hl : k ≤ argv.length) : (realloc_array argv n).take k = argv.take k := by
  unfold realloc_array
  rw [List.take_append_of_le_length (by rw [List.length_take]; omega), List.take_take]
  congr 1
  omega

/-- The effect of `check_capacity` on the command under construction: the
assertion holds, the capacity stays or doubles, there is room for one more
entry, and the entries stored so far are kept in order. -/
theorem check_capacity_spec (p : parser_t) (a : Nat) (c : command_t)
    (h : p.current_command = some a) (hc : p.cmds[a]? = some c) (hroom : Roomy c) :
    ∃ p' c', check_capacity p = .ok p' ∧ p'.cmds[a]? = some c' ∧
      (c'.capacity = c.capacity ∨ c'.capacity = 2 * c.capacity) ∧ c'.argc = c.argc ∧
      c.argc < c'.capacity ∧ c'.argv.take c.argc = c.argv.take c.argc := by
  obtain ⟨h1, h2, h3⟩ := hroom
  by_cases hfull : c.argc = c.capacity
  · obtain ⟨p', c', hp', hcmds, hcap, hargc, hargv⟩ : ∃ p' c', check_capacity p = .ok p' ∧
        p'.cmds = p.cmds.set a c' ∧ c'.capacity = 2 * c.capacity ∧ c'.argc = c.argc ∧
        c'.argv = realloc_array c.argv (2 * c.capacity) :=
      ⟨_, _, check_capacity_full p h hc hfull, rfl, rfl, rfl, rfl⟩
    refine ⟨p', c', hp', by rw [hcmds, List.getElem?_set_self (lt_length_of_get hc)],
      Or.inr hcap, hargc, by rw [hcap]; omega, ?_⟩
    rw [hargv]
    exact realloc_array_take _ _ _ (by omega) (by omega)
  · exact ⟨p, c, check_capacity_room p h hc (by omega), hc, Or.inl rfl, rfl, by omega, rfl⟩

/-- The command `add_command` makes current has no entry and capacity 1. -/
theorem add_command_capacity (p : parser_t)
    (hwf : ∀ a, p.current_command = some a → a < p.cmds.length) :
    ∃ p' a c, add_command p = .ok p' ∧ p'.current_command = some a ∧ p'.cmds[a]? = some c ∧
      c.capacity = 1 ∧ c.argc = 0 ∧ c.argv.length = 1 := by
  cases hcur : p.current_command with
  | none =>
    obtain ⟨p', hp', h1, h2⟩ : ∃ p', add_command p = .ok p' ∧
        p'.current_command = some p.cmds.length ∧ p'.cmds = p.cmds ++ [fresh_command] :=
      ⟨_, add_command_first p hcur, rfl, rfl⟩
    exact ⟨p', p.cmds.length, fresh_command, hp', h1,
      by rw [h2]; exact getElem?_append_last _ _, rfl, rfl, rfl⟩
  | some a =>
    have ha := hwf a hcur
    obtain ⟨c, hc⟩ : ∃ c, p.cmds[a]? = some c := ⟨p.cmds[a], List.getElem?_eq_getElem ha⟩
    obtain ⟨p', hp', h1, h2⟩ : ∃ p', add_command p = .ok p' ∧
        p'.current_command = some p.cmds.length ∧
        p'.cmds = p.cmds.set a { c with next := some p.cmds.length } ++ [fresh_command] :=
      ⟨_, add_command_next p hcur hc, rfl, rfl⟩
    refine ⟨p', p.cmds.length, fresh_command, hp', h1, ?_, rfl, rfl, rfl⟩
    rw [h2]
    have := getElem?_append_last (p.cmds.set a { c with next := some p.cmds.length })
      fresh_command
    rw [List.length_set] at this
    exact this

/-! ## Two pipelines joined by a pipe -/

theorem tokens_pipe_join (a b : List Char) (ha : NUL ∉ a) :
    tokens (a ++ " | ".toList ++ b) = tokens a ++ ['|'] :: tokens b := by
  have hsep : NUL ∉ " | ".toList := by decide
  have hsp : isspace ' ' = true := by decide
  unfold tokens
  rw [List.append_assoc, c_string_append_of_no_nul a _ ha,
    c_string_append_of_no_nul " | ".toList b hsep, c_string_self a (fun c hc e => ha (e ▸ hc))]
  have e1 : a ++ (" | ".toList ++ c_string b 0) = a ++ ' ' :: (['|'] ++ ' ' :: c_string b 0) := rfl
  rw [e1, splitOnP_append_sep isspace a _ ' ' hsp,
    splitOnP_append_sep isspace ['|'] _ ' ' hsp, List.filter_append, List.filter_append]
  have e2 : (List.splitOnP isspace ['|']).filter (fun w => decide (w ≠ [])) = [['|']] := by
    decide
  rw [e2]
  rfl

theorem piped_append (xs ys : List (Stage (List Char))) :
    piped (xs ++ ys) = piped xs ++ piped ys := by
  simp [piped]

theorem pipeline_tokens_append (sa sb : List (Stage (List Char))) (ha : sa ≠ [])
    (hb : sb ≠ []) :
    pipeline_tokens (sa ++ sb) = pipeline_tokens sa ++ ['|'] :: pipeline_tokens sb := by
  obtain ⟨x, xs, rfl⟩ := List.exists_cons_of_ne_nil ha
  obtain ⟨y, ys, rfl⟩ := List.exists_cons_of_ne_nil hb
  have e : piped (y :: ys) = ['|'] :: (stage_tokens y ++ piped ys) := by
    simp [piped]
  rw [List.cons_append, pipeline_tokens, pipeline_tokens, pipeline_tokens, piped_append, e,
    List.append_assoc]

theorem abs_pipeline_join (ta tb : List (List Char)) (sa sb : List (Stage (List Char)))
    (ha : abs_pipeline token_type ta = some sa) (hb : abs_pipeline token_type tb = some sb)
    (hna : sa ≠ []) (hnb : sb ≠ []) :
    abs_pipeline token_type (ta ++ ['|'] :: tb) = some (sa ++ sb) := by
  obtain ⟨ga, ea⟩ := (abs_pipeline_iff _ _).1 ha
  obtain ⟨gb, eb⟩ := (abs_pipeline_iff _ _).1 hb
  refine (abs_pipeline_iff _ _).2 ⟨fun st hst => ?_, ?_⟩
  · rcases List.mem_append.1 hst with h | h
    · exact ga st h
    · exact gb st h
  · rw [pipeline_tokens_append sa sb hna hnb, ← ea, ← eb]

/-- What `parse` returns on a line whose result is valid, in terms of the stages
of its tokens. -/
theorem parse_valid_contents (line : List Char) (p : parser_t) (h : parse line = .ok p)
    (hv : p.root.valid ≠ 0) :
    ∃ sts, abs_pipeline token_type (tokens line) = some sts ∧
      chain_contents p = sts.map closed_content := by
  obtain ⟨q, hq, hc⟩ := parse_contents line
  rw [parse_deterministic line q p hq h] at hc
  cases habs : abs_pipeline token_type (tokens line) with
  | none =>
    have hs : spec_contents (tokens line) =
        (0, trace_contents (abs_trace token_type (tokens line))) := by
      unfold spec_contents; rw [habs]
    rw [hs] at hc
    exact absurd (Prod.mk.inj hc).1 hv
  | some sts =>
    have hs : spec_contents (tokens line) = (1, sts.map closed_content) := by
      unfold spec_contents; rw [habs]
    rw [hs] at hc
    exact ⟨sts, rfl, (Prod.mk.inj hc).2⟩

/-! ## The buffer after a parse -/

/-- The buffer `parse` leaves is the line with some whitespace characters, each
directly after a token character, overwritten by NUL, and the first lexeme of
the line is sealed in it. -/
theorem parse_frame (line : List Char) (L : List Lexeme) (hL : Lexes line 0 L) :
    ∃ p, parse line = .ok p ∧ Edited line p.buf p.input ∧
      ∀ l, L.head? = some l → Sealed p.buf p.input l := by
  have hspec := parse_spec line L hL
  cases habs : abs_pipeline Lexeme.type L with
  | none =>
    rw [habs] at hspec
    obtain ⟨p, todo', hp, hv, _, _, _, pre', hne, hpre'⟩ := hspec
    obtain ⟨hed, ⟨pre, hpre, hseal⟩, _⟩ := hv
    have e : pre = pre' := List.append_cancel_right (hpre.symm.trans hpre')
    refine ⟨p, hp, hed, fun l hl => hseal l ?_⟩
    obtain ⟨x, xs, hx⟩ := List.exists_cons_of_ne_nil hne
    rw [e, hx]
    rw [hpre', hx] at hl
    have : x = l := by simpa using hl
    rw [this]
    exact List.mem_cons_self _ _
  | some sts =>
    rw [habs] at hspec
    have key : ∀ p, View line L p [] → Edited line p.buf p.input ∧
        ∀ l, L.head? = some l → Sealed p.buf p.input l := by
      intro p hv
      obtain ⟨hed, ⟨pre, hpre, hseal⟩, _⟩ := hv
      rw [List.append_nil] at hpre
      refine ⟨hed, fun l hl => hseal l ?_⟩
      rw [← hpre]
      exact List.mem_of_mem_head? hl
    cases sts with
    | nil =>
      obtain ⟨p, hp, hv, _⟩ := hspec
      exact ⟨p, hp, key p hv⟩
    | cons st sts =>
      obtain ⟨p, hp, hv, _⟩ := hspec
      exact ⟨p, hp, key p hv⟩

theorem take_eq_of_deref (buf line : List Char) (n : Nat) (hlen : buf.length = line.length)
    (h : ∀ j, j < n → deref buf j = deref line j) : buf.take n = line.take n := by
  apply List.ext_getElem?
  intro i
  by_cases hi : i < n
  · rw [List.getElem?_take_of_lt hi, List.getElem?_take_of_lt hi]
    by_cases hl : i < buf.length
    · have hl' : i < line.length := hlen ▸ hl
      have := h i hi
      unfold deref at this
      rw [List.getD_eq_getElem _ _ hl, List.getD_eq_getElem _ _ hl'] at this
      rw [List.getElem?_eq_getElem hl, List.getElem?_eq_getElem hl', this]
    · rw [List.getElem?_eq_none (by omega), List.getElem?_eq_none (by omega)]
  · rw [List.getElem?_eq_none (by rw [List.length_take]; omega),
      List.getElem?_eq_none (by rw [List.length_take]; omega)]

theorem deref_prefix_mem (ws x : List Char) (k : Nat) (hk : k < ws.length) :
    deref (ws ++ x) k ∈ ws := by
  unfold deref
  rw [List.getD_eq_getElem?_getD, List.getElem?_append_left hk, List.getElem?_eq_getElem hk]
  exact List.getElem_mem _

/-- After a parse of a line that starts with whitespace `ws`, a token `w` and a
whitespace character, the buffer reads as `ws ++ w`. -/
theorem parse_first_token (ws w : List Char) (d : Char) (rest : List Char)
    (hws : ∀ c ∈ ws, isspace c = true) (hw : w ≠ [])
    (hwc : ∀ c ∈ w, c ≠ NUL ∧ isspace c = false) (hd : isspace d = true) :
    ∃ p, parse (ws ++ w ++ d :: rest) = .ok p ∧ c_string p.buf 0 = ws ++ w := by
  obtain ⟨ls, hls⟩ := exists_lexes rest (0 + ws.length + w.length + 1)
  have hL := Lexes.more ws w d rest 0 ls hws hw hwc hd hls
  rw [← List.append_assoc] at hL
  obtain ⟨p, hp, hed, hseal⟩ := parse_frame _ _ hL
  refine ⟨p, hp, ?_⟩
  obtain ⟨_, _, _, r, hdrop, hr⟩ := hseal _ rfl
  obtain ⟨hlen, _, hch⟩ := hed
  have hpre : p.buf.take ws.length = ws := by
    rw [take_eq_of_deref p.buf _ ws.length hlen ?_, List.append_assoc, List.take_left]
    intro j hj
    by_contra hne
    obtain ⟨_, _, hpos, _, _, hprev⟩ := hch j hne
    have hmem := deref_prefix_mem ws (w ++ d :: rest) (j - 1) (by omega)
    rw [← List.append_assoc] at hmem
    rw [hws _ hmem] at hprev
    exact Bool.noConfusion hprev
  have hbuf : p.buf = ws ++ (w ++ r) := by
    have := List.take_append_drop ws.length p.buf
    rw [hpre] at this
    rw [← this]
    congr 1
    have hd' : p.buf.drop (0 + ws.length) = w ++ r := hdrop
    rw [Nat.zero_add] at hd'
    exact hd'
  unfold c_string
  rw [List.drop_zero, hbuf, takeWhile_append_all _ _ _ (fun c hc => by
    simpa using ne_NUL_of_isspace (hws c hc)), takeWhile_append_all _ _ _ (fun c hc => by
    simpa using (hwc c hc).1), takeWhile_stop _ hr, List.append_nil]

/-! ## The pipe a child reads from is still held by the shell at the fork -/

theorem child_source_zero (s : shell_t) (t : fd_table) (x : file_t)
    (h1 : s.sourcePipe.1 ≠ 0) (hlt : s.sourcePipe.1 < s.sourcePipe.2)
    (hx : fd_get t s.sourcePipe.1 = some x) :
    fd_get (child_source s t) 0 = some x ∧ fd_get (child_source s t) s.sourcePipe.2 = none := by
  unfold child_source
  rw [if_pos h1]
  have h2 : s.sourcePipe.2 ≠ 0 := by omega
  have hlow : lowest_free (sys_close t 0) = 0 :=
    lowest_free_eq _ 0 (fd_get_close_self t 0) (fun j hj => absurd hj (Nat.not_lt_zero _))
  have hx' : fd_get (sys_close t 0) s.sourcePipe.1 = some x := by
    rw [fd_get_close_ne _ _ _ h1, hx]
  exact ⟨by rw [fd_get_close_ne _ _ _ (Ne.symm h2), fd_get_close_ne _ _ _ (Ne.symm h1),
    fd_get_dup _ _ x hx', hlow, if_pos rfl], fd_get_close_self _ _⟩

theorem lowest_free_after_close_one (t : fd_table) (h0 : fd_get t 0 ≠ none) :
    lowest_free (sys_close t 1) = 1 :=
  lowest_free_eq _ 1 (fd_get_close_self t 1) (fun j hj => by
    have : j = 0 := by omega
    rw [this, fd_get_close_ne _ _ _ (by decide)]
    exact h0)

theorem fd_get_close_none (t : fd_table) (a j : Nat) (h : fd_get t j = none) :
    fd_get (sys_close t a) j = none := by
  rw [fd_get_close]
  split
  · rfl
  · exact h

theorem child_dest_keeps (s : shell_t) (t : fd_table) (h0 : fd_get t 0 ≠ none)
    (hd : s.destPipe = (0, 0) ∨ s.destPipe.1 < s.destPipe.2) :
    fd_get (child_dest s t) 0 = fd_get t 0 ∧
    ∀ w, w ≠ 1 → fd_get t w = none → fd_get (child_dest s t) w = none := by
  unfold child_dest
  by_cases h1 : s.destPipe.1 = 0
  · rw [if_neg (not_not.2 h1)]
    exact ⟨rfl, fun _ _ h => h⟩
  · rw [if_pos h1]
    rcases hd with hd | hlt
    · rw [hd] at h1
      exact absurd rfl h1
    · have h2 : s.destPipe.2 ≠ 0 := by omega
      constructor
      · rw [fd_get_close_ne _ _ _ (Ne.symm h2), fd_get_close_ne _ _ _ (Ne.symm h1),
          fd_get_dup_open _ _ _ (by rw [fd_get_close_ne _ _ _ (by decide)]; exact h0),
          fd_get_close_ne _ _ _ (by decide)]
      · intro w hw1 hw
        refine fd_get_close_none _ _ _ (fd_get_close_none _ _ _ ?_)
        rw [fd_get_dup_other _ _ _ (by rw [lowest_free_after_close_one t h0]; exact hw1),
          fd_get_close_ne _ _ _ hw1, hw]

theorem child_outfile_keeps (s : shell_t) (t : fd_table) (h0 : fd_get t 0 ≠ none) :
    fd_get (child_outfile s t) 0 = fd_get t 0 ∧
    ∀ w, w ≠ 1 → fd_get t w = none → fd_get (child_outfile s t) w = none := by
  unfold child_outfile
  by_cases h1 : s.outfile = 0
  · rw [if_neg (not_not.2 h1)]
    exact ⟨rfl, fun _ _ h => h⟩
  · rw [if_pos h1]
    constructor
    · rw [fd_get_close_ne _ _ _ (Ne.symm h1),
        fd_get_dup_open _ _ _ (by rw [fd_get_close_ne _ _ _ (by decide)]; exact h0),
        fd_get_close_ne _ _ _ (by decide)]
    · intro w hw1 hw
      refine fd_get_close_none _ _ _ ?_
      rw [fd_get_dup_other _ _ _ (by rw [lowest_free_after_close_one t h0]; exact hw1),
        fd_get_close_ne _ _ _ hw1, hw]

theorem child_infile_keeps (s : shell_t) (t : fd_table) :
    (s.infile = 0 → child_infile s t = t) ∧
    ∀ w, w ≠ 0 → fd_get t w = none → fd_get (child_infile s t) w = none := by
  unfold child_infile
  by_cases h1 : s.infile = 0
  · rw [if_neg (not_not.2 h1)]
    exact ⟨fun _ => rfl, fun _ _ h => h⟩
  · rw [if_pos h1]
    refine ⟨fun h => absurd h h1, fun w hw0 hw => fd_get_close_none _ _ _ ?_⟩
    have hlow : lowest_free (sys_close t 0) = 0 :=
      lowest_free_eq _ 0 (fd_get_close_self t 0) (fun j hj => absurd hj (Nat.not_lt_zero _))
    rw [fd_get_dup_other _ _ _ (by rw [hlow]; exact hw0), fd_get_close_ne _ _ _ hw0, hw]

/-- The child of a command forked while the shell has a source pipe: the shell
holds both ends of the pipe at the fork, and the child closes the write end. -/
theorem child_forked_with_source (infile : command_t → char_ptr) (c : command_t)
    (s : shell_t) (hp : Piped s) (h0 : fd_get s.fds 0 ≠ none) (id : Nat)
    (hs : Sourced s id) :
    forked_with_source infile
      (child c (open_infile infile c (open_outfile c (make_pipe c s)))) := by
  obtain ⟨hd, ho, hi, _⟩ := hp
  obtain ⟨s1, s2, hr, hw⟩ := hs
  obtain ⟨o1, _, _, _, o4a, o4b, o5⟩ := opening_spec infile c s ho hi hd
  have hinf : infile c = char_ptr.null →
      (open_infile infile c (open_outfile c (make_pipe c s))).infile = 0 := by
    intro hnull
    rw [open_infile_skip infile c _ hnull, (open_outfile_keeps c _).2.2.2.2.2,
      (make_pipe_keeps c s).2.2.2.2.2.2, hi]
  generalize open_infile infile c (open_outfile c (make_pipe c s)) = s3 at *
  have hr3 : fd_get s3.fds s.sourcePipe.1 = some (file_t.pipe_read id) := by
    rw [o1 _ (by rw [hr]; exact fun e => Option.noConfusion e), hr]
  have hw3 : fd_get s3.fds s.sourcePipe.2 = some (file_t.pipe_write id) := by
    rw [o1 _ (by rw [hw]; exact fun e => Option.noConfusion e), hw]
  have h03 : fd_get s3.fds 0 ≠ none := by rw [o1 0 h0]; exact h0
  have hdest : s3.destPipe = (0, 0) ∨ s3.destPipe.1 < s3.destPipe.2 := by
    by_cases hn : c.next = none
    · exact Or.inl (o4a hn)
    · exact Or.inr (o4b hn).1
  have hw2 : s.sourcePipe.2 ≠ 1 := by omega
  have hw0 : s.sourcePipe.2 ≠ 0 := by omega
  -- the child, block by block
  obtain ⟨a0, aw⟩ := child_source_zero s3 s3.fds _ (by rw [o5]; exact s1)
    (by rw [o5]; exact s2) (by rw [o5]; exact hr3)
  rw [o5] at aw
  have a0' : fd_get (child_source s3 s3.fds) 0 ≠ none := by
    rw [a0]; exact fun e => Option.noConfusion e
  obtain ⟨b0, bw⟩ := child_dest_keeps s3 (child_source s3 s3.fds) a0' hdest
  have b0' : fd_get (child_dest s3 (child_source s3 s3.fds)) 0 ≠ none := by
    rw [b0]; exact a0'
  obtain ⟨c0, cw⟩ := child_outfile_keeps s3 (child_dest s3 (child_source s3 s3.fds)) b0'
  obtain ⟨d0, dw⟩ := child_infile_keeps s3
    (child_outfile s3 (child_dest s3 (child_source s3 s3.fds)))
  refine ⟨id, s.sourcePipe.1, s.sourcePipe.2, s1, s2, hr3, hw3, ?_, fun hnull => ?_⟩
  · exact dw _ hw0 (cw _ hw2 (bw _ hw2 aw))
  · show fd_get (child_infile s3 _) 0 = _
    rw [d0 (hinf hnull), c0, b0, a0]

/-- After the turn of the loop for a command that has a next command, the source
pipe of the shell is the pipe created in the turn. -/
theorem stage_sourced (infile : command_t → char_ptr) (c : command_t) (s : shell_t)
    (hp : Piped s) (h0 : fd_get s.fds 0 ≠ none) (hn : c.next ≠ none) :
    Sourced (stage infile c s) s.pipes := by
  obtain ⟨_, _, _, _, _, _, h7⟩ := stage_spec infile c s hp
  rcases h7 with ⟨h, _⟩ | ⟨_, g1, g2, _, g4, g5⟩
  · exact absurd h hn
  · -- the values at the two ends: closing never changes what an open descriptor holds
    obtain ⟨_, _, _, _, p5, p6, _⟩ := make_pipe_spec c s hn
    obtain ⟨q1, _, _, _, q5, _⟩ := open_outfile_keeps c (make_pipe c s)
    have r1 := (open_infile_keeps infile c (open_outfile c (make_pipe c s))
      (by rw [(open_outfile_keeps c _).2.2.2.2.2, (make_pipe_keeps c s).2.2.2.2.2.2,
        hp.2.2.1])).1
    have r4 := (open_infile_keeps infile c (open_outfile c (make_pipe c s))
      (by rw [(open_outfile_keeps c _).2.2.2.2.2, (make_pipe_keeps c s).2.2.2.2.2.2,
        hp.2.2.1])).2.2.2.1
    have hsrc : (stage infile c s).sourcePipe = (make_pipe c s).destPipe := by
      unfold stage
      rw [(close_files_spec _).1, (rotate_spec _).1]
      show (open_infile infile c (open_outfile c (make_pipe c s))).destPipe = _
      rw [r4, q5]
    have hval : ∀ j, fd_get (stage infile c s).fds j ≠ none →
        fd_get (stage infile c s).fds j = fd_get (make_pipe c s).fds j ∨
          fd_get (make_pipe c s).fds j = none := by
      intro j hj
      have e : fd_get (stage infile c s).fds j =
          fd_get (open_infile infile c (open_outfile c (make_pipe c s))).fds j := by
        unfold stage at hj ⊢
        rw [(close_files_spec _).2.2.2.2 j] at hj ⊢
        split at hj
        · exact absurd rfl hj
        · rename_i hc
          rw [if_neg hc]
          rw [(rotate_spec _).2.2.2.2 j] at hj ⊢
          split at hj
          · exact absurd rfl hj
          · rename_i hc2
            rw [if_neg hc2]
            rfl
      by_cases h1 : fd_get (make_pipe c s).fds j = none
      · exact Or.inr h1
      · left
        rw [e, r1 j (by rw [q1 j h1]; exact h1), q1 j h1]
    have hne0 : (stage infile c s).sourcePipe.1 ≠ 0 := fun e => h0 (by rw [← e]; exact g2)
    refine ⟨hne0, g1, ?_, ?_⟩
    · rcases hval _ g4 with h | h
      · rw [h, hsrc, p6, if_neg (Nat.ne_of_lt (make_pipe_spec c s hn).2.1), if_pos rfl]
      · rw [hsrc, p6, if_neg (Nat.ne_of_lt (make_pipe_spec c s hn).2.1), if_pos rfl] at h
        exact Option.noConfusion h
    · rcases hval _ g5 with h | h
      · rw [h, hsrc, p6, if_pos rfl]
      · rw [hsrc, p6, if_pos rfl] at h
        exact Option.noConfusion h

/-- Along a chain, every child but possibly the first is forked while the shell
still holds both ends of the pipe the child reads from. -/
theorem stages_run_handover (infile : command_t → char_ptr) (cmds : List command_t)
    (first : Option Nat) (cs : List command_t) (hch : Chain cmds first cs) :
    ∀ s : shell_t, Piped s → fd_get s.fds 0 ≠ none →
      ∃ new, children (stages_run infile cs s).log = children s.log ++ new ∧
        ((∃ id, Sourced s id) → ∀ ch ∈ new, forked_with_source infile ch) ∧
        ∀ ch ∈ new.tail, forked_with_source infile ch := by
  induction hch with
  | nil =>
    intro s _ _
    exact ⟨[], by simp [stages_run], fun _ _ h => absurd h (List.not_mem_nil _),
      fun _ h => absurd h (List.not_mem_nil _)⟩
  | cons a c cs _ hrest ih =>
    intro s hp h0
    have hp1 := stage_piped infile c s hp
    have h01 : fd_get (stage infile c s).fds 0 ≠ none := by
      rw [(stage_spec infile c s hp).2.2.2.1 0 h0 (Or.inr rfl) (Or.inr rfl)]
      exact h0
    obtain ⟨new, e1, e2, e3⟩ := ih (stage infile c s) hp1 h01
    have hs : stages_run infile (c :: cs) s = stages_run infile cs (stage infile c s) := rfl
    have htail : ∀ ch ∈ new, forked_with_source infile ch := by
      generalize hn : c.next = n at hrest
      cases hrest with
      | nil =>
        have : new = [] := by
          have hlen := congrArg List.length e1
          simpa [stages_run] using hlen
        rw [this]
        exact fun _ h => absurd h (List.not_mem_nil _)
      | cons b d ds _ _ =>
        have hnn : c.next ≠ none := by
          rw [hn]
          exact fun e => Option.noConfusion e
        exact e2 ⟨s.pipes, stage_sourced infile c s hp h0 hnn⟩
    refine ⟨child c (open_infile infile c (open_outfile c (make_pipe c s))) :: new, ?_,
      fun hex ch hmem => ?_, htail⟩
    · rw [hs, e1, (stage_log infile c s).2]
      simp
    · obtain ⟨id, hsrc⟩ := hex
      rcases List.mem_cons.1 hmem with h | h
      · rw [h]
        exact child_forked_with_source infile c s hp h0 id hsrc
      · exact htail ch h

/-! ## The claims -/

/-- C1: for every line, `parse` returns a root whose `valid` is non-zero if and
only if the sequence of whitespace-separated tokens of the line is derivable
from the grammar `pipeline = [ command { '|' command } ]`,
`command = simple_command [ '>' WORD ]`, `simple_command = WORD { WORD }`. -/
theorem parse_valid_iff_pipeline (line : List Char) :
    ∃ p, parse line = .ok p ∧ (p.root.valid ≠ 0 ↔ is_pipeline (tokens line)) := by
  cases habs : abs_pipeline token_type (tokens line) with
  | none =>
    obtain ⟨p, hp, hv, _⟩ := parse_invalid line habs
    refine ⟨p, hp, fun h => absurd hv h, fun h => ?_⟩
    obtain ⟨sts, hsts⟩ := (abs_pipeline_isSome_iff _).2 h
    rw [habs] at hsts
    exact Option.noConfusion hsts
  | some sts =>
    obtain ⟨p, hp, hv, _⟩ := parse_valid line sts habs
    exact ⟨p, hp, fun _ => (abs_pipeline_isSome_iff _).1 ⟨sts, habs⟩,
      fun _ => by rw [hv]; decide⟩

/-- C2: for every line that parses as valid, the commands of the chain match the
stages of the line one to one, and each command has as `argv` the words of its
stage (the tokens before the stage's `>`), verbatim and in order, followed by
exactly one `NULL`; `argc` is the number of words plus one, so at least 2. -/
theorem argv_holds_stage_words (line : List Char) (p : parser_t)
    (h : parse line = .ok p) (hv : p.root.valid ≠ 0) :
    List.Forall₂ (fun c stage =>
        c.argc = (stage_words stage).length + 1 ∧ 2 ≤ c.argc ∧
        argv_read p.buf c = (stage_words stage).map c_str.str ++ [c_str.NULL])
      (commands p) (stages (tokens line)) := by
  obtain ⟨sts, hgood, htok, _, _, hrep, _⟩ := parse_valid_inv line p h hv
  rw [htok, stages_pipeline_tokens sts hgood]
  exact (forall₂_stage_tokens p.buf _ sts hrep hgood).imp
    (fun _ _ hc => ⟨hc.1, hc.2.1, hc.2.2.1⟩)

theorem argv_holds_stage_words_witness :
    ∃ p, parse "one > out1 | two three > out2".toList = .ok p ∧ p.root.valid ≠ 0 ∧
      List.Forall₂ (fun c stage =>
        c.argc = (stage_words stage).length + 1 ∧ 2 ≤ c.argc ∧
        argv_read p.buf c = (stage_words stage).map c_str.str ++ [c_str.NULL])
      (commands p) (stages (tokens "one > out1 | two three > out2".toList)) :=
  ⟨_, rfl, by decide, argv_holds_stage_words _ _ rfl (by decide)⟩

/-- C3: for every line that parses as valid and has at least one token, the
chain from `first_command` has one command more than the line has `|` tokens,
the i-th command holds the words of the i-th `|`-separated stage, and the `next`
of the last command is `NULL`. -/
theorem chain_follows_stages (line : List Char) (p : parser_t)
    (h : parse line = .ok p) (hv : p.root.valid ≠ 0) (hne : tokens line ≠ []) :
    (commands p).length = (tokens line).count ['|'] + 1 ∧
    p.root.first_command ≠ none ∧
    List.Forall₂ (fun c stage =>
        argv_read p.buf c = (stage_words stage).map c_str.str ++ [c_str.NULL])
      (commands p) ((tokens line).splitOn ['|']) ∧
    ∀ c, (commands p).getLast? = some c → c.next = none := by
  obtain ⟨sts, hgood, htok, hfirst, _, hrep, hlast⟩ := parse_valid_inv line p h hv
  cases sts with
  | nil => exact absurd htok hne
  | cons st sts =>
    have hst := hgood st (List.mem_cons_self _ _)
    have hrest : ∀ s ∈ sts, good_stage s := fun s hs => hgood s (List.mem_cons_of_mem _ hs)
    refine ⟨?_, fun hn => by simpa using hfirst.1 hn, ?_, hlast⟩
    · rw [hrep.length_eq, htok, pipeline_tokens, List.count_append, count_stage_tokens st hst,
        count_piped sts hrest]
      simp
    · have hs := stages_pipeline_tokens (st :: sts) hgood
      rw [← htok] at hs
      unfold stages at hs
      rw [if_neg hne] at hs
      rw [hs]
      exact (forall₂_stage_tokens p.buf _ _ hrep hgood).imp (fun _ _ hc => hc.2.2.1)

theorem chain_follows_stages_witness :
    ∃ p, parse "one two | three".toList = .ok p ∧ p.root.valid ≠ 0 ∧
      tokens "one two | three".toList ≠ [] ∧
      (commands p).length = (tokens "one two | three".toList).count ['|'] + 1 ∧
      p.root.first_command ≠ none ∧
      List.Forall₂ (fun c stage =>
          argv_read p.buf c = (stage_words stage).map c_str.str ++ [c_str.NULL])
        (commands p) ((tokens "one two | three".toList).splitOn ['|']) ∧
      ∀ c, (commands p).getLast? = some c → c.next = none :=
  ⟨_, rfl, by decide, by decide, chain_follows_stages _ _ rfl (by decide) (by decide)⟩

/-- C4: for every line that parses as valid, the `outfile` of each command is the
token right after `>` in its stage when the stage has a `>`, and `NULL`
otherwise, for each stage of a pipeline separately; the target is not part of
`argv`, which holds the words before the `>` and the final `NULL` only. -/
theorem outfile_is_redirect_target (line : List Char) (p : parser_t)
    (h : parse line = .ok p) (hv : p.root.valid ≠ 0) :
    List.Forall₂ (fun c stage =>
        read p.buf c.outfile = target_str (stage_outfile stage) ∧
        argv_read p.buf c = (stage_words stage).map c_str.str ++ [c_str.NULL])
      (commands p) (stages (tokens line)) := by
  obtain ⟨sts, hgood, htok, _, _, hrep, _⟩ := parse_valid_inv line p h hv
  rw [htok, stages_pipeline_tokens sts hgood]
  exact (forall₂_stage_tokens p.buf _ sts hrep hgood).imp
    (fun _ _ hc => ⟨hc.2.2.2, hc.2.2.1⟩)

theorem outfile_is_redirect_target_witness :
    ∃ p, parse "one > out1 | two > out2".toList = .ok p ∧ p.root.valid ≠ 0 ∧
      List.Forall₂ (fun c stage =>
        read p.buf c.outfile = target_str (stage_outfile stage) ∧
        argv_read p.buf c = (stage_words stage).map c_str.str ++ [c_str.NULL])
      (commands p) (stages (tokens "one > out1 | two > out2".toList)) :=
  ⟨_, rfl, by decide, outfile_is_redirect_target _ _ rfl (by decide)⟩

/-- C5: round trip.  For every non-empty list of words that are non-empty, hold
no whitespace (and no NUL) and are neither `|` nor `>`, parsing the words joined
by single spaces gives a valid pipeline of exactly one command, whose `argv`
reads back as the words in order followed by `NULL`, with `outfile` and `next`
both `NULL`. -/
theorem round_trip_words (ws : List (List Char)) (hne : ws ≠ [])
    (hw : ∀ w ∈ ws, w ≠ [] ∧ (∀ c ∈ w, c ≠ NUL ∧ isspace c = false) ∧ w ≠ ['|'] ∧ w ≠ ['>']) :
    ∃ p c, parse ([' '].intercalate ws) = .ok p ∧ p.root.valid ≠ 0 ∧ commands p = [c] ∧
      argv_read p.buf c = ws.map c_str.str ++ [c_str.NULL] ∧ c.argc = ws.length + 1 ∧
      c.outfile = char_ptr.null ∧ c.next = none := by
  have htok := tokens_joined ws hne (fun w h => ⟨(hw w h).1, (hw w h).2.1⟩)
  have hgood : ∀ st ∈ [({ words := ws, out := none } : Stage (List Char))], good_stage st := by
    intro st hst
    rw [List.mem_singleton.1 hst]
    exact ⟨hne, fun w h => (hw w h).2.2, fun _ h => by simp at h⟩
  have habs : abs_pipeline token_type (tokens ([' '].intercalate ws)) =
      some [{ words := ws, out := none }] := by
    rw [abs_pipeline_iff, htok]
    exact ⟨hgood, by simp [pipeline_tokens, stage_tokens, piped]⟩
  obtain ⟨p, hp, hv, _, _, hrep, hlast⟩ := parse_valid _ _ habs
  generalize hcs : commands p = cs at hrep hlast
  cases hrep with
  | @cons c _ cs' _ hc hrest =>
    cases hrest
    obtain ⟨r1, r2, r3⟩ := hc
    refine ⟨p, c, hp, by rw [hv]; decide, hcs, r2, r1, ?_, hlast c rfl⟩
    cases hout : c.outfile with
    | null => rfl
    | indeterminate => rw [hout] at r3; exact c_str.noConfusion r3
    | addr a => rw [hout] at r3; exact c_str.noConfusion r3

theorem round_trip_words_witness :
    ["one".toList, "two".toList, "three".toList] ≠ [] ∧
    (∀ w ∈ ["one".toList, "two".toList, "three".toList],
      w ≠ [] ∧ (∀ c ∈ w, c ≠ NUL ∧ isspace c = false) ∧ w ≠ ['|'] ∧ w ≠ ['>']) ∧
    ∃ p c, parse ([' '].intercalate ["one".toList, "two".toList, "three".toList]) = .ok p ∧
      p.root.valid ≠ 0 ∧ commands p = [c] ∧
      argv_read p.buf c =
        ["one".toList, "two".toList, "three".toList].map c_str.str ++ [c_str.NULL] ∧
      c.argc = ["one".toList, "two".toList, "three".toList].length + 1 ∧
      c.outfile = char_ptr.null ∧ c.next = none :=
  ⟨by decide, by decide, round_trip_words _ (by decide) (by decide)⟩

/-- C6: for every line made of whitespace characters only (any mix of space, tab,
newline, vertical tab, form feed and carriage return), the empty line included,
`parse` returns `valid` non-zero and `first_command` `NULL`. -/
theorem blank_line_is_valid_and_empty (line : List Char) (h : ∀ c ∈ line, c ∈ whitespace) :
    ∃ p, parse line = .ok p ∧ p.root.valid ≠ 0 ∧ p.root.first_command = none := by
  have hsp : ∀ c ∈ whitespace, isspace c = true := by decide
  have htok := tokens_of_spaces line (fun c hc => hsp c (h c hc))
  have habs : abs_pipeline token_type (tokens line) = some [] := by rw [htok]; rfl
  obtain ⟨p, hp, hv, hfirst, _⟩ := parse_valid line [] habs
  exact ⟨p, hp, by rw [hv]; decide, hfirst.2 rfl⟩

theorem blank_line_is_valid_and_empty_witness :
    (∀ c ∈ [Char.ofNat 9, Char.ofNat 10, Char.ofNat 13, Char.ofNat 11, Char.ofNat 12, ' '],
      c ∈ whitespace) ∧
    ∃ p, parse [Char.ofNat 9, Char.ofNat 10, Char.ofNat 13, Char.ofNat 11, Char.ofNat 12, ' ']
        = .ok p ∧ p.root.valid ≠ 0 ∧ p.root.first_command = none :=
  ⟨by decide, blank_line_is_valid_and_empty _ (by decide)⟩

/-- C7: for every line whose tokens hold a `>` that is not immediately followed by
a WORD (it is the last token, or a `|` or another `>` follows), `parse` sets
`valid` to 0. -/
theorem redirect_without_target_is_invalid (line : List Char) (pre post : List (List Char))
    (ht : tokens line = pre ++ ['>'] :: post)
    (hpost : ∀ x, post.head? = some x → ¬ is_WORD x) :
    ∃ p, parse line = .ok p ∧ p.root.valid = 0 := by
  apply invalid_of_rejected line
  · rw [ht]; simp
  · rw [ht]
    exact reject_redirect_target pre post hpost

theorem redirect_without_target_is_invalid_witness :
    (tokens "one >".toList = ["one".toList] ++ ['>'] :: [] ∧
      (∀ x, ([] : List (List Char)).head? = some x → ¬ is_WORD x) ∧
      ∃ p, parse "one >".toList = .ok p ∧ p.root.valid = 0) ∧
    (tokens "one > >".toList = ["one".toList] ++ ['>'] :: [['>']] ∧
      (∀ x, [['>']].head? = some x → ¬ is_WORD x) ∧
      ∃ p, parse "one > >".toList = .ok p ∧ p.root.valid = 0) :=
  ⟨⟨by decide, fun _ h => by simp at h,
      redirect_without_target_is_invalid _ ["one".toList] [] (by decide)
        (fun _ h => by simp at h)⟩,
    ⟨by decide, fun x h => by simp at h; rw [← h]; decide,
      redirect_without_target_is_invalid _ ["one".toList] [['>']] (by decide)
        (fun x h => by simp at h; rw [← h]; decide)⟩⟩

/-- C8: for every line whose tokens hold `>`, a WORD, and then a token other than
`|` (a further WORD or a second `>`), `parse` sets `valid` to 0: after the
redirect target of a stage only `|` or the end of the line is accepted. -/
theorem token_after_target_is_invalid (line : List Char) (pre : List (List Char))
    (w x : List Char) (rest : List (List Char))
    (ht : tokens line = pre ++ ['>'] :: w :: x :: rest) (_hw : is_WORD w) (hx : x ≠ ['|']) :
    ∃ p, parse line = .ok p ∧ p.root.valid = 0 := by
  apply invalid_of_rejected line
  · rw [ht]; simp
  · rw [ht]
    exact reject_after_target pre w x rest hx

theorem token_after_target_is_invalid_witness :
    (tokens "one > out1 out2".toList = ["one".toList] ++ ['>'] :: "out1".toList ::
        "out2".toList :: [] ∧ is_WORD "out1".toList ∧ "out2".toList ≠ ['|'] ∧
      ∃ p, parse "one > out1 out2".toList = .ok p ∧ p.root.valid = 0) ∧
    (tokens "one > out1 > out2".toList = ["one".toList] ++ ['>'] :: "out1".toList ::
        ['>'] :: ["out2".toList] ∧ is_WORD "out1".toList ∧ ['>'] ≠ ['|'] ∧
      ∃ p, parse "one > out1 > out2".toList = .ok p ∧ p.root.valid = 0) :=
  ⟨⟨by decide, by decide, by decide,
      token_after_target_is_invalid _ ["one".toList] "out1".toList "out2".toList []
        (by decide) (by decide) (by decide)⟩,
    ⟨by decide, by decide, by decide,
      token_after_target_is_invalid _ ["one".toList] "out1".toList ['>'] ["out2".toList]
        (by decide) (by decide) (by decide)⟩⟩

/-- C9: for every line whose tokens begin with `|`, end with `|`, or hold two
adjacent `|`, `parse` sets `valid` to 0. -/
theorem misplaced_pipe_is_invalid (line : List Char)
    (ht : (tokens line).head? = some ['|'] ∨ (tokens line).getLast? = some ['|'] ∨
      ∃ pre post, tokens line = pre ++ ['|'] :: ['|'] :: post) :
    ∃ p, parse line = .ok p ∧ p.root.valid = 0 := by
  apply invalid_of_rejected line
  · rcases ht with h | h | ⟨pre, post, h⟩
    · intro h0; rw [h0] at h; simp at h
    · intro h0; rw [h0] at h; simp at h
    · rw [h]; simp
  · rcases ht with h | h | ⟨pre, post, h⟩
    · obtain ⟨rest, hr⟩ := List.head?_eq_some_iff.1 h
      rw [hr]
      exact reject_leading_pipe rest
    · obtain ⟨pre, hr⟩ := List.getLast?_eq_some_iff.1 h
      rw [hr]
      exact reject_trailing_pipe pre
    · rw [h]
      exact reject_double_pipe pre post

theorem misplaced_pipe_is_invalid_witness :
    (((tokens "one |".toList).head? = some ['|'] ∨
        (tokens "one |".toList).getLast? = some ['|'] ∨
        ∃ pre post, tokens "one |".toList = pre ++ ['|'] :: ['|'] :: post) ∧
      ∃ p, parse "one |".toList = .ok p ∧ p.root.valid = 0) ∧
    (((tokens "one | | two".toList).head? = some ['|'] ∨
        (tokens "one | | two".toList).getLast? = some ['|'] ∨
        ∃ pre post, tokens "one | | two".toList = pre ++ ['|'] :: ['|'] :: post) ∧
      ∃ p, parse "one | | two".toList = .ok p ∧ p.root.valid = 0) :=
  ⟨⟨Or.inr (Or.inl (by decide)),
      misplaced_pipe_is_invalid _ (Or.inr (Or.inl (by decide)))⟩,
    ⟨Or.inr (Or.inr ⟨["one".toList], ["two".toList], by decide⟩),
      misplaced_pipe_is_invalid _ (Or.inr (Or.inr ⟨["one".toList], ["two".toList],
        by decide⟩))⟩⟩

/-- C10: when no token is pending, `get_token` returns without fault; it returns
EOF exactly when only whitespace remains in the C string at `input`; otherwise
the token is the first maximal run `w` of non-whitespace characters of that
string (whitespace before it, whitespace or the end after it), it begins where
`w` begins and reads back as `w`, and its type is PIPE if and only if `w` is
exactly `|`, OUT_REDIRECT if and only if `w` is exactly `>`, and WORD
otherwise. -/
theorem get_token_scans_maximal_run (p : parser_t) (hp : p.prev_token.type = TOKEN_NONE) :
    ∃ t p', get_token p = .ok (t, p') ∧
      (t.type = TOKEN_EOF ↔ ∀ c ∈ c_string p.buf p.input, isspace c = true) ∧
      (t.type ≠ TOKEN_EOF →
        ∃ ws w rest, c_string p.buf p.input = ws ++ w ++ rest ∧
          (∀ c ∈ ws, isspace c = true) ∧ w ≠ [] ∧ (∀ c ∈ w, isspace c = false) ∧
          (∀ c, rest.head? = some c → isspace c = true) ∧
          t.begin = p.input + ws.length ∧ c_string p'.buf t.begin = w ∧
          (t.type = TOKEN_PIPE ↔ w = ['|']) ∧ (t.type = TOKEN_OUT_REDIRECT ↔ w = ['>']) ∧
          (t.type = TOKEN_WORD ↔ (w ≠ ['|'] ∧ w ≠ ['>']))) := by
  obtain ⟨ls, hlex⟩ := exists_lexes (p.buf.drop p.input) p.input
  have hv : View p.buf ls p ls :=
    ⟨⟨rfl, rfl, fun _ hj => absurd rfl hj⟩, ⟨[], rfl, fun _ hl => absurd hl (List.not_mem_nil _)⟩,
      Or.inl ⟨hp, hlex⟩⟩
  obtain ⟨p', hget, _, hv', _, _⟩ := get_token_view hv
  obtain ⟨pre, hpre, hread⟩ := hv'.lexemes_read_back
  refine ⟨next_token ls, p', hget, ?_⟩
  have hword : ∀ (ws w tail : List Char) (l : Lexeme) (ls' : List Lexeme),
      ls = l :: ls' → l = ⟨p.input + ws.length, w⟩ →
      c_string p.buf p.input = ws ++ w ++ tail → (∀ c ∈ ws, isspace c = true) → w ≠ [] →
      (∀ c ∈ w, c ≠ NUL ∧ isspace c = false) → (∀ c, tail.head? = some c → isspace c = true) →
      ((next_token ls).type = TOKEN_EOF ↔ ∀ c ∈ c_string p.buf p.input, isspace c = true) ∧
      ((next_token ls).type ≠ TOKEN_EOF →
        ∃ ws w rest, c_string p.buf p.input = ws ++ w ++ rest ∧
          (∀ c ∈ ws, isspace c = true) ∧ w ≠ [] ∧ (∀ c ∈ w, isspace c = false) ∧
          (∀ c, rest.head? = some c → isspace c = true) ∧
          (next_token ls).begin = p.input + ws.length ∧
          c_string p'.buf (next_token ls).begin = w ∧
          ((next_token ls).type = TOKEN_PIPE ↔ w = ['|']) ∧
          ((next_token ls).type = TOKEN_OUT_REDIRECT ↔ w = ['>']) ∧
          ((next_token ls).type = TOKEN_WORD ↔ (w ≠ ['|'] ∧ w ≠ ['>']))) := by
    intro ws w tail l ls' hls hl hcs hws hw hwc htail
    subst hls
    have hpre' : pre = [l] := by
      have : pre ++ ls' = [l] ++ ls' := (show l :: ls' = pre ++ ls' from hpre).symm
      exact List.append_cancel_right this
    have hback : c_string p'.buf l.begin = l.text := hread l (by rw [hpre']; simp)
    subst hl
    constructor
    · constructor
      · intro h
        exact absurd h (token_type_ne_eof _)
      · intro h
        obtain ⟨a, w', rfl⟩ := List.exists_cons_of_ne_nil hw
        have h1 := (hwc a (List.mem_cons_self _ _)).2
        have h2 := h a (by rw [hcs]; simp)
        rw [h1] at h2
        exact Bool.noConfusion h2
    · intro _
      exact ⟨ws, w, tail, hcs, hws, hw, fun c hc => (hwc c hc).2, htail, rfl, hback,
        token_type_pipe, token_type_redirect, token_type_word⟩
  generalize hm : p.buf.drop p.input = mem at hlex
  generalize hq : p.input = q at hlex
  cases hlex with
  | eof ws rest _ hws hrest =>
    subst hq
    have hcs : c_string p.buf p.input = ws := by
      unfold c_string
      rw [hm, takeWhile_append_all _ _ _ (fun c hc => by
        simpa using ne_NUL_of_isspace (hws c hc)), takeWhile_stop _ hrest, List.append_nil]
    exact ⟨⟨fun _ => by rw [hcs]; exact hws, fun _ => rfl⟩, fun h => absurd rfl h⟩
  | last ws w rest _ hws hw hwc hrest =>
    subst hq
    have hcs : c_string p.buf p.input = ws ++ w ++ [] := by
      unfold c_string
      rw [hm, takeWhile_append_all _ _ _ (fun c hc => by
        simpa using ne_NUL_of_isspace (hws c hc)), takeWhile_append_all _ _ _ (fun c hc => by
        simpa using (hwc c hc).1), takeWhile_stop _ hrest]
      simp
    exact hword ws w [] _ [] rfl rfl hcs hws hw hwc (fun _ h => by simp at h)
  | more ws w d rest _ ls' hws hw hwc hd _ =>
    subst hq
    have hcs : c_string p.buf p.input =
        ws ++ w ++ d :: rest.takeWhile (fun c => decide (c ≠ NUL)) := by
      unfold c_string
      rw [hm, takeWhile_append_all _ _ _ (fun c hc => by
        simpa using ne_NUL_of_isspace (hws c hc)), takeWhile_append_all _ _ _ (fun c hc => by
        simpa using (hwc c hc).1), List.takeWhile_cons,
        if_pos (by simpa using ne_NUL_of_isspace hd)]
      simp
    exact hword ws w _ _ ls' rfl rfl hcs hws hw hwc (fun c h => by
      simp at h; rw [← h]; exact hd)

theorem get_token_scans_maximal_run_witness :
    (start_state " a|b  || >out".toList).prev_token.type = TOKEN_NONE ∧
    ∃ t p', get_token (start_state " a|b  || >out".toList) = .ok (t, p') ∧
      (t.type = TOKEN_EOF ↔
        ∀ c ∈ c_string (start_state " a|b  || >out".toList).buf
          (start_state " a|b  || >out".toList).input, isspace c = true) ∧
      (t.type ≠ TOKEN_EOF →
        ∃ ws w rest, c_string (start_state " a|b  || >out".toList).buf
            (start_state " a|b  || >out".toList).input = ws ++ w ++ rest ∧
          (∀ c ∈ ws, isspace c = true) ∧ w ≠ [] ∧ (∀ c ∈ w, isspace c = false) ∧
          (∀ c, rest.head? = some c → isspace c = true) ∧
          t.begin = (start_state " a|b  || >out".toList).input + ws.length ∧
          c_string p'.buf t.begin = w ∧
          (t.type = TOKEN_PIPE ↔ w = ['|']) ∧ (t.type = TOKEN_OUT_REDIRECT ↔ w = ['>']) ∧
          (t.type = TOKEN_WORD ↔ (w ≠ ['|'] ∧ w ≠ ['>']))) :=
  ⟨rfl, get_token_scans_maximal_run _ rfl⟩

/-- The texts `||`, `|a`, `>>`, `>out` and `a|b` are each one token of type WORD. -/
theorem operator_lookalikes_are_words :
    ∀ s ∈ ["||".toList, "|a".toList, ">>".toList, ">out".toList, "a|b".toList],
      tokens s = [s] ∧
      (get_token (start_state s)).map (fun r => r.1) =
        .ok { type := TOKEN_WORD, begin := 0 } := by
  decide

/-- C11: whitespace insensitivity: for every line `s` and every line `s'` obtained
from `s` by adding leading or trailing whitespace or by replacing non-empty runs
of whitespace by other non-empty runs of the six whitespace characters, in any
number of such edits, `parse` returns on `s'` the same validity flag and the
same chain contents (number of commands and, for each command in order, `argc`,
the `argv` strings and the `outfile` string) as on `s`. -/
theorem whitespace_insensitive (s s' : List Char) (h : Relation.ReflTransGen ws_step s s') :
    ∃ p p', parse s = .ok p ∧ parse s' = .ok p' ∧ p'.root.valid = p.root.valid ∧
      chain_contents p' = chain_contents p := by
  obtain ⟨p, hp, hc⟩ := parse_contents s
  obtain ⟨p', hp', hc'⟩ := parse_contents s'
  rw [tokens_ws_variant s s' h, ← hc] at hc'
  obtain ⟨h1, h2⟩ := Prod.mk.inj hc'
  exact ⟨p, p', hp, hp', h1, h2⟩

theorem whitespace_insensitive_witness :
    Relation.ReflTransGen ws_step "one".toList "\t\n\r\x0b\x0c one ".toList ∧
    ∃ p p', parse "one".toList = .ok p ∧ parse "\t\n\r\x0b\x0c one ".toList = .ok p' ∧
      p'.root.valid = p.root.valid ∧ chain_contents p' = chain_contents p :=
  ⟨Relation.ReflTransGen.tail
      (Relation.ReflTransGen.single (ws_step.lead "\t\n\r\x0b\x0c ".toList "one".toList
        (by decide)))
      (ws_step.trail _ " ".toList (by decide)),
    whitespace_insensitive _ _ (Relation.ReflTransGen.tail
      (Relation.ReflTransGen.single (ws_step.lead "\t\n\r\x0b\x0c ".toList "one".toList
        (by decide)))
      (ws_step.trail _ " ".toList (by decide)))⟩

/-- C12, counterexample: the line `one >` is a line on which `parse` sets `valid`
to 0 and returns a `first_command` that is not `NULL`. -/
theorem invalid_first_command_null_fails :
    ¬ ∀ (line : List Char) (p : parser_t), parse line = .ok p → p.root.valid = 0 →
      p.root.first_command = none := by
  intro h
  obtain ⟨p, hp, hv, hf⟩ : ∃ p, parse "one >".toList = .ok p ∧ p.root.valid = 0 ∧
      p.root.first_command = some 0 := ⟨_, rfl, by decide, by decide⟩
  have := h _ p hp hv
  rw [hf] at this
  exact Option.noConfusion this

/-- C12, amended: for every input on which `parse` sets `valid` to 0, the
returned root's `first_command` is not `NULL`; it is `NULL` only for a valid
input. -/
theorem invalid_has_first_command (line : List Char) (p : parser_t) (h : parse line = .ok p)
    (hv : p.root.valid = 0) : p.root.first_command ≠ none := by
  cases habs : abs_pipeline token_type (tokens line) with
  | some sts =>
    obtain ⟨q, hq, hvalid, _⟩ := parse_valid line sts habs
    rw [parse_deterministic line q p hq h, hv] at hvalid
    exact absurd hvalid (by decide)
  | none =>
    obtain ⟨q, hq, _, hfirst⟩ := parse_invalid line habs
    rw [parse_deterministic line q p hq h] at hfirst
    rw [hfirst]
    exact fun e => Option.noConfusion e

theorem invalid_has_first_command_witness :
    ∃ p, parse "one >".toList = .ok p ∧ p.root.valid = 0 ∧ p.root.first_command ≠ none :=
  ⟨_, rfl, by decide, invalid_has_first_command "one >".toList _ rfl (by decide)⟩

/-- C13, counterexample: on the line `|` the chain `parse` returns holds a
command whose argument sequence holds no word. -/
theorem every_command_has_word_fails :
    ¬ ∀ (line : List Char) (p : parser_t), parse line = .ok p →
      ∀ c ∈ commands p, ∃ w ws, argv_read p.buf c = c_str.str w :: ws := by
  intro h
  obtain ⟨p, hp, hc⟩ : ∃ p, parse "|".toList = .ok p ∧
      (commands p).map (argv_read p.buf) = [[]] := ⟨_, rfl, by decide⟩
  cases hcs : commands p with
  | nil => rw [hcs] at hc; exact List.noConfusion hc
  | cons c cs =>
    obtain ⟨w, ws, hw⟩ := h _ p hp c (by rw [hcs]; exact List.mem_cons_self _ _)
    rw [hcs, List.map_cons, hw] at hc
    exact List.noConfusion (List.cons.inj hc).1

/-- C13, amended: for every input, valid or not, every command in the chain
returned by `parse`, other than the last command of an invalid input, holds at
least one WORD in its argument sequence: its first `argv` slot reads as a word. -/
theorem every_command_but_failed_has_word (line : List Char) (p : parser_t)
    (h : parse line = .ok p) :
    (p.root.valid ≠ 0 → ∀ c ∈ commands p, ∃ w ws, argv_read p.buf c = c_str.str w :: ws) ∧
    ∀ c ∈ (commands p).dropLast, ∃ w ws, argv_read p.buf c = c_str.str w :: ws :=
  parse_words line p h

theorem every_command_but_failed_has_word_witness :
    ∃ p, parse "a | b >".toList = .ok p ∧
      (p.root.valid ≠ 0 → ∀ c ∈ commands p, ∃ w ws, argv_read p.buf c = c_str.str w :: ws) ∧
      ∀ c ∈ (commands p).dropLast, ∃ w ws, argv_read p.buf c = c_str.str w :: ws :=
  ⟨_, rfl, every_command_but_failed_has_word "a | b >".toList _ rfl⟩

/-- C18: idempotence of invalidity: the validity flag and the chain contents that
`parse` returns are a function of the input text alone, so for every two
buffers holding the same C string `parse` returns the same validity flag and
the same chain contents; in particular a text on which `parse` sets `valid` to
0 gets `valid` 0 again when it is parsed again. -/
theorem invalidity_is_idempotent (line line' : List Char)
    (hs : c_string line' 0 = c_string line 0) :
    ∃ p p', parse line = .ok p ∧ parse line' = .ok p' ∧ p'.root.valid = p.root.valid ∧
      chain_contents p' = chain_contents p ∧ (p.root.valid = 0 → p'.root.valid = 0) := by
  obtain ⟨p, hp, hc⟩ := parse_contents line
  obtain ⟨p', hp', hc'⟩ := parse_contents line'
  have ht : tokens line' = tokens line := by unfold tokens; rw [hs]
  rw [ht, ← hc] at hc'
  obtain ⟨h1, h2⟩ := Prod.mk.inj hc'
  exact ⟨p, p', hp, hp', h1, h2, fun h0 => h1.trans h0⟩

theorem invalidity_is_idempotent_witness :
    c_string ("one >".toList ++ NUL :: "two".toList) 0 = c_string "one >".toList 0 ∧
    ∃ p p', parse "one >".toList = .ok p ∧
      parse ("one >".toList ++ NUL :: "two".toList) = .ok p' ∧
      p'.root.valid = p.root.valid ∧ chain_contents p' = chain_contents p ∧
      (p.root.valid = 0 → p'.root.valid = 0) :=
  ⟨by decide, invalidity_is_idempotent _ _ (by decide)⟩

/-- C19: for every line `parse` terminates and returns a root whose validity flag
is 0 or 1; the recursion of the descent is bounded by the number of tokens of
the line: `parse_pipeline` returns 0 or 1 with any fuel greater than that
number. -/
theorem parse_terminates (line : List Char) :
    (∃ p, parse line = .ok p ∧ (p.root.valid = 0 ∨ p.root.valid = 1)) ∧
    ∀ fuel, (tokens line).length < fuel →
      ∃ r p', parse_pipeline fuel (start_state line) = .ok (r, p') ∧ (r = 0 ∨ r = 1) := by
  constructor
  · cases habs : abs_pipeline token_type (tokens line) with
    | some sts =>
      obtain ⟨p, hp, hv, _⟩ := parse_valid line sts habs
      exact ⟨p, hp, Or.inr hv⟩
    | none =>
      obtain ⟨p, hp, hv, _⟩ := parse_invalid line habs
      exact ⟨p, hp, Or.inl hv⟩
  · intro fuel hfuel
    obtain ⟨L, hL⟩ := exists_lexes line 0
    have hlen : L.length = (tokens line).length := by
      rw [← hL.tokens, List.length_map]
    have hv := View.initial line L hL { valid := 0, first_command := none } [] none
    have hpp := parse_pipeline_spec line L L fuel _ hv rfl rfl (by rw [hlen]; exact hfuel)
    cases habs : abs_pipeline Lexeme.type L with
    | none =>
      rw [habs] at hpp
      obtain ⟨p', _, hrun, _⟩ := hpp
      exact ⟨0, p', hrun, Or.inl rfl⟩
    | some sts =>
      rw [habs] at hpp
      cases sts with
      | nil =>
        obtain ⟨p', hrun, _⟩ := hpp
        exact ⟨1, p', hrun, Or.inr rfl⟩
      | cons st sts =>
        obtain ⟨p', hrun, _⟩ := hpp
        exact ⟨1, p', hrun, Or.inr rfl⟩

theorem parse_terminates_witness :
    (tokens "a b | c > d".toList).length < 7 ∧
    ∃ r p', parse_pipeline 7 (start_state "a b | c > d".toList) = .ok (r, p') ∧
      (r = 0 ∨ r = 1) :=
  ⟨by decide, (parse_terminates "a b | c > d".toList).2 7 (by decide)⟩

/-- C20: `putback_token` fails its assertion exactly when the put-back slot is not
empty or the token put back is TOKEN_NONE, `get_token` hands a pending token
back and empties the slot, and on every line `parse` runs to its end without a
failed assertion: whenever `putback_token` is called during `parse` the slot is
empty and the token is not TOKEN_NONE. -/
theorem putback_assertion_holds :
    (∀ p t, putback_token p t = .error Fault.assertion ↔
      ¬ (p.prev_token.type = TOKEN_NONE ∧ t.type ≠ TOKEN_NONE)) ∧
    (∀ p t, p.prev_token.type = TOKEN_NONE → t.type ≠ TOKEN_NONE →
      ∃ p', putback_token p t = .ok p' ∧ p'.prev_token = t ∧
        ∃ p'', get_token p' = .ok (t, p'') ∧ p''.prev_token.type = TOKEN_NONE) ∧
    ∀ line, ∃ p, parse line = .ok p := by
  refine ⟨fun p t => ?_, fun p t hp ht => ?_, fun line => ?_⟩
  · unfold putback_token
    by_cases hc : p.prev_token.type = TOKEN_NONE ∧ t.type ≠ TOKEN_NONE
    · rw [if_neg (not_not.2 hc)]
      exact ⟨fun h => Except.noConfusion h, fun h => absurd hc h⟩
    · rw [if_pos hc]
      exact ⟨fun _ => hc, fun _ => rfl⟩
  · refine ⟨_, putback_token_ok p t hp ht, rfl, ?_⟩
    have hne : ({ p with prev_token := t } : parser_t).prev_token.type ≠ TOKEN_NONE := ht
    exact ⟨_, by unfold get_token; rw [if_pos hne], rfl⟩
  · exact parse_total line

/-- C14: for every valid line and every command of its pipeline that has both an
output file and a following command, the child the executor forks for it has,
when it calls `execvp`, its descriptor 1 referring to the file opened for the
command, and so not to the write end of a pipe. -/
theorem file_redirect_wins_over_pipe (infile : command_t → char_ptr) (line : List Char)
    (p : parser_t) (h : parse line = .ok p) (hv : p.root.valid ≠ 0) (s : shell_t) :
    ∃ s' new, shell_line infile line s = .ok s' ∧ children s'.log = children s.log ++ new ∧
      new.map (fun ch => ch.command) = commands p ∧
      ∀ ch ∈ new, ch.command.next ≠ none → ch.command.outfile ≠ char_ptr.null →
        fd_get ch.at_exec 1 = some (file_t.file ch.command.outfile [O_WRONLY, O_CREAT]) ∧
        ∀ id, fd_get ch.at_exec 1 ≠ some (file_t.pipe_write id) := by
  obtain ⟨new, h1, h2⟩ := stages_run_children infile (commands p) (loop_entry s)
    (loop_entry_piped s)
  obtain ⟨hch, _⟩ := parse_valid_chain line p h hv
  have h3 := (stages_run_log infile _ _ _ hch (loop_entry s)).2
  refine ⟨_, new, shell_line_valid infile line p h hv s, ?_, ?_, fun ch hch hn ho => ?_⟩
  · rw [(final_close_log _).2, h1]
    rfl
  · rw [h1, List.map_append] at h3
    exact List.append_cancel_left h3
  · have := h2 ch hch hn ho
    exact ⟨this, fun id e => by rw [this] at e; exact file_t.noConfusion (Option.some.inj e)⟩

theorem file_redirect_wins_over_pipe_witness :
    ∃ p, parse "ls > out | wc".toList = .ok p ∧ p.root.valid ≠ 0 ∧
      ∃ s' new, shell_line (fun _ => char_ptr.null) "ls > out | wc".toList fresh_shell =
          .ok s' ∧
        children s'.log = children fresh_shell.log ++ new ∧
        new.map (fun ch => ch.command) = commands p ∧
        ∀ ch ∈ new, ch.command.next ≠ none → ch.command.outfile ≠ char_ptr.null →
          fd_get ch.at_exec 1 =
            some (file_t.file ch.command.outfile [O_WRONLY, O_CREAT]) ∧
          ∀ id, fd_get ch.at_exec 1 ≠ some (file_t.pipe_write id) :=
  ⟨_, rfl, by decide,
    file_redirect_wins_over_pipe (fun _ => char_ptr.null) "ls > out | wc".toList _ rfl
      (by decide) fresh_shell⟩

/-- C15, at the line `echo hi > out`: the one `open` call of the executor is for
the output file, on descriptor 3, with the flags `O_WRONLY` and `O_CREAT` only;
`O_TRUNC` is not among them, so a file that exists is not truncated. -/
theorem outfile_opened_without_truncate :
    ∃ s, shell_line (fun _ => char_ptr.null) "echo hi > out".toList fresh_shell = .ok s ∧
      files_opened s.log = [(char_ptr.addr 10, [O_WRONLY, O_CREAT], 3)] ∧
      O_TRUNC ∉ [O_WRONLY, O_CREAT] :=
  ⟨_, rfl, by decide, by decide⟩

/-- C16: for every valid line with `n` commands the executor runs to its end,
creates `n - 1` pipes and forks `n` children, one per command in chain order;
when `first_command` is `NULL` it makes no system call at all and leaves the
descriptors as they were. -/
theorem executor_pipes_and_children (infile : command_t → char_ptr) (line : List Char)
    (p : parser_t) (h : parse line = .ok p) (hv : p.root.valid ≠ 0) (s : shell_t) :
    ∃ s', shell_line infile line s = .ok s' ∧
      pipes_created s'.log = pipes_created s.log + ((commands p).length - 1) ∧
      (children s'.log).map (fun ch => ch.command) =
        (children s.log).map (fun ch => ch.command) ++ commands p ∧
      (p.root.first_command = none → s'.log = s.log ∧ s'.fds = s.fds ∧ s'.pipes = s.pipes) := by
  obtain ⟨hch, _⟩ := parse_valid_chain line p h hv
  obtain ⟨h1, h2⟩ := stages_run_log infile _ _ _ hch (loop_entry s)
  refine ⟨_, shell_line_valid infile line p h hv s, ?_, ?_, fun hnone => ?_⟩
  · rw [(final_close_log _).1, h1]
    rfl
  · rw [(final_close_log _).2, h2]
    rfl
  · have hc : commands p = [] := by
      unfold commands
      rw [hnone]
      cases p.cmds.length <;> rfl
    rw [hc]
    exact ⟨rfl, rfl, rfl⟩

theorem executor_pipes_and_children_witness :
    ∃ p, parse "a | b > f | c".toList = .ok p ∧ p.root.valid ≠ 0 ∧
      ∃ s', shell_line (fun _ => char_ptr.null) "a | b > f | c".toList fresh_shell = .ok s' ∧
        pipes_created s'.log = pipes_created fresh_shell.log + ((commands p).length - 1) ∧
        (children s'.log).map (fun ch => ch.command) =
          (children fresh_shell.log).map (fun ch => ch.command) ++ commands p ∧
        (p.root.first_command = none →
          s'.log = fresh_shell.log ∧ s'.fds = fresh_shell.fds ∧
            s'.pipes = fresh_shell.pipes) :=
  ⟨_, rfl, by decide,
    executor_pipes_and_children (fun _ => char_ptr.null) "a | b > f | c".toList _ rfl
      (by decide) fresh_shell⟩

/-- C17: for every valid line, when every descriptor that `pipe` or `open`
returned during the run is non-zero, the shell has after the loop and its final
`close` statements exactly the open descriptors it had before: every pipe end
and every file it opened for the pipeline is closed again. -/
theorem parent_descriptors_restored (infile : command_t → char_ptr) (line : List Char)
    (p : parser_t) (h : parse line = .ok p) (hv : p.root.valid ≠ 0) (s : shell_t) :
    ∃ s', shell_line infile line s = .ok s' ∧
      (returns_nonzero s'.log → ∀ fd, fd_get s'.fds fd = fd_get s.fds fd) := by
  obtain ⟨hch, _⟩ := parse_valid_chain line p h hv
  exact ⟨_, shell_line_valid infile line p h hv s,
    fun hnz => run_restores infile _ _ _ hch s hnz⟩

theorem parent_descriptors_restored_witness :
    ∃ p, parse "a > g | b > f | c".toList = .ok p ∧ p.root.valid ≠ 0 ∧
      ∃ s', shell_line (fun _ => char_ptr.null) "a > g | b > f | c".toList fresh_shell =
          .ok s' ∧
        returns_nonzero s'.log ∧
        (returns_nonzero s'.log → ∀ fd, fd_get s'.fds fd = fd_get fresh_shell.fds fd) :=
  ⟨_, rfl, by decide,
    (parent_descriptors_restored (fun _ => char_ptr.null) "a > g | b > f | c".toList _ rfl
      (by decide) fresh_shell).elim
      (fun s' hs' => ⟨s', hs'.1, by
        have e : s' = (match shell_line (fun _ => char_ptr.null) "a > g | b > f | c".toList
            fresh_shell with
          | .ok s => s
          | .error _ => fresh_shell) := by rw [hs'.1]
        rw [e]
        decide, hs'.2⟩)⟩

/-- C22: for every line the returned root's `first_command` is `NULL` if and only
if the line holds no token (it is empty or whitespace only); consequently every
line that parses as invalid returns a `first_command` that is not `NULL`. -/
theorem first_command_null_iff_no_token (line : List Char) :
    ∃ p, parse line = .ok p ∧ (p.root.first_command = none ↔ tokens line = []) ∧
      (p.root.valid = 0 → p.root.first_command ≠ none) := by
  cases habs : abs_pipeline token_type (tokens line) with
  | some sts =>
    obtain ⟨p, hp, hvalid, hfirst, _⟩ := parse_valid line sts habs
    refine ⟨p, hp, hfirst.trans ⟨fun h => ?_, fun h => ?_⟩, fun h0 => ?_⟩
    · have := ((abs_pipeline_iff _ _).1 habs).2
      rw [h] at this
      exact this
    · rw [h] at habs
      exact (Option.some.inj habs).symm
    · rw [hvalid] at h0
      exact absurd h0 (by decide)
  | none =>
    obtain ⟨p, hp, _, hfirst⟩ := parse_invalid line habs
    refine ⟨p, hp, ⟨fun h => ?_, fun h => ?_⟩, fun _ => ?_⟩
    · rw [hfirst] at h
      exact Option.noConfusion h
    · rw [h] at habs
      exact Option.noConfusion habs
    · rw [hfirst]
      exact fun e => Option.noConfusion e

/-- C25: for every line and every command in the chain `parse` returns,
`argc ≤ capacity` holds, the argument array has `capacity` slots, and `capacity`
is the smallest power of two that is at least `max(argc, 1)`; `add_command`
starts a command with capacity 1 and no entry; on a command whose array has
`capacity ≥ 1` slots and `argc ≤ capacity` the assertion of `check_capacity`
holds, the capacity stays or doubles, there is room for one more entry, and the
entries stored so far are kept in order. -/
theorem capacity_is_least_power_of_two (line : List Char) (p : parser_t)
    (h : parse line = .ok p) :
    (∀ c ∈ commands p, c.argc ≤ c.capacity ∧ c.argv.length = c.capacity ∧
      least_pow2 (max c.argc 1) c.capacity) ∧
    (∀ q : parser_t, (∀ a, q.current_command = some a → a < q.cmds.length) →
      ∃ q' a c, add_command q = .ok q' ∧ q'.current_command = some a ∧
        q'.cmds[a]? = some c ∧ c.capacity = 1 ∧ c.argc = 0 ∧ c.argv.length = 1) ∧
    (∀ (q : parser_t) (a : Nat) (c : command_t), q.current_command = some a →
      q.cmds[a]? = some c → Roomy c →
      ∃ q' c', check_capacity q = .ok q' ∧ q'.cmds[a]? = some c' ∧
        (c'.capacity = c.capacity ∨ c'.capacity = 2 * c.capacity) ∧ c'.argc = c.argc ∧
        c.argc < c'.capacity ∧ c'.argv.take c.argc = c.argv.take c.argc) :=
  ⟨fun c hc => tight_least (parse_tight line p h c hc), add_command_capacity,
    check_capacity_spec⟩

theorem capacity_is_least_power_of_two_witness :
    ∃ p, parse "a b c d e > f | g".toList = .ok p ∧
      (commands p).map (fun c => (c.argc, c.capacity)) = [(6, 8), (2, 2)] ∧
      (∀ c ∈ commands p, c.argc ≤ c.capacity ∧ c.argv.length = c.capacity ∧
        least_pow2 (max c.argc 1) c.capacity) :=
  ⟨_, rfl, by decide,
    (capacity_is_least_power_of_two "a b c d e > f | g".toList _ rfl).1⟩

/-- C23: compositionality: for all strings `a` and `b` (the text `a` holds no
NUL) that each parse as valid with at least one command, the string
`a ++ " | " ++ b` parses as valid, and its chain contents are those of `a`
followed by those of `b`: the same `argc`, `argv` strings and `outfile` string
for every command, in order. -/
theorem pipe_composition (a b : List Char) (ha : NUL ∉ a) (pa pb : parser_t)
    (hpa : parse a = .ok pa) (hpb : parse b = .ok pb) (hva : pa.root.valid ≠ 0)
    (hvb : pb.root.valid ≠ 0) (hca : commands pa ≠ []) (hcb : commands pb ≠ []) :
    ∃ p, parse (a ++ " | ".toList ++ b) = .ok p ∧ p.root.valid ≠ 0 ∧
      chain_contents p = chain_contents pa ++ chain_contents pb := by
  obtain ⟨sa, habs_a, hcont_a⟩ := parse_valid_contents a pa hpa hva
  obtain ⟨sb, habs_b, hcont_b⟩ := parse_valid_contents b pb hpb hvb
  have hna : sa ≠ [] := by
    intro e
    rw [e] at hcont_a
    exact hca (List.map_eq_nil_iff.1 hcont_a)
  have hnb : sb ≠ [] := by
    intro e
    rw [e] at hcont_b
    exact hcb (List.map_eq_nil_iff.1 hcont_b)
  have habs := abs_pipeline_join _ _ sa sb habs_a habs_b hna hnb
  rw [← tokens_pipe_join a b ha] at habs
  obtain ⟨p, hp, hvalid, _, _, hrep, _⟩ := parse_valid _ _ habs
  refine ⟨p, hp, by rw [hvalid]; decide, ?_⟩
  have : chain_contents p = (sa ++ sb).map closed_content :=
    map_closed_content _ _ _ hrep
  rw [this, List.map_append, hcont_a, hcont_b]

theorem pipe_composition_witness :
    NUL ∉ "ls -l > out".toList ∧
    ∃ pa pb, parse "ls -l > out".toList = .ok pa ∧ parse "wc | cat > f".toList = .ok pb ∧
      pa.root.valid ≠ 0 ∧ pb.root.valid ≠ 0 ∧ commands pa ≠ [] ∧ commands pb ≠ [] ∧
      ∃ p, parse ("ls -l > out".toList ++ " | ".toList ++ "wc | cat > f".toList) = .ok p ∧
        p.root.valid ≠ 0 ∧ chain_contents p = chain_contents pa ++ chain_contents pb :=
  ⟨by decide, _, _, rfl, rfl, by decide, by decide, by decide, by decide,
    pipe_composition "ls -l > out".toList "wc | cat > f".toList (by decide) _ _ rfl rfl
      (by decide) (by decide) (by decide) (by decide)⟩

/-- C24: `parse` changes the line buffer only at positions before its final
`input` that held a whitespace character directly after a token character, and
every byte it changes becomes NUL, so no token byte is altered and the length is
kept; hence the chain contents are those the token texts dictate, and after a
parse of a line that starts with whitespace `ws`, a first token `w` and a
whitespace character, the buffer reads, as a C string, as `ws ++ w`. -/
theorem parse_edits_only_separators (line : List Char) :
    ∃ p, parse line = .ok p ∧ p.buf.length = line.length ∧
      (∀ j, deref p.buf j ≠ deref line j →
        deref p.buf j = NUL ∧ isspace (deref line j) = true ∧ 0 < j ∧ j < p.input ∧
        deref line (j - 1) ≠ NUL ∧ isspace (deref line (j - 1)) = false) ∧
      (p.root.valid, chain_contents p) = spec_contents (tokens line) ∧
      ∀ ws w d rest, line = ws ++ w ++ d :: rest → (∀ c ∈ ws, isspace c = true) → w ≠ [] →
        (∀ c ∈ w, c ≠ NUL ∧ isspace c = false) → isspace d = true →
        c_string p.buf 0 = ws ++ w := by
  obtain ⟨L, hL⟩ := exists_lexes line 0
  obtain ⟨p, hp, hed, _⟩ := parse_frame line L hL
  obtain ⟨q, hq, hcont⟩ := parse_contents line
  rw [parse_deterministic line q p hq hp] at hcont
  refine ⟨p, hp, hed.1, hed.2.2, hcont, fun ws w d rest hline hws hw hwc hd => ?_⟩
  obtain ⟨p', hp', hc⟩ := parse_first_token ws w d rest hws hw hwc hd
  rw [← hline] at hp'
  rw [parse_deterministic line p p' hp hp']
  exact hc

theorem parse_edits_only_separators_witness :
    ∃ p, parse "one >".toList = .ok p ∧ p.buf = "one".toList ++ NUL :: ">".toList ∧
      c_string p.buf 0 = "one".toList ∧
      ∃ p', parse ("one".toList ++ NUL :: ">".toList) = .ok p' ∧ p'.root.valid = 1 ∧
        chain_contents p' = [(2, [c_str.str "one".toList, c_str.NULL], c_str.NULL)] := by
  obtain ⟨p, hp, _, _, _, hfirst⟩ := parse_edits_only_separators "one >".toList
  have h := hfirst [] "one".toList ' ' ">".toList rfl (by decide) (by decide) (by decide)
    (by decide)
  have e : (parse "one >".toList).map (fun p => p.buf) =
      .ok ("one".toList ++ NUL :: ">".toList) := by decide
  rw [hp] at e
  exact ⟨p, hp, Except.ok.inj e, h, _, rfl, by decide, by decide⟩

/-- C21, counterexample: on the line `a | b`, run by the shell as it is started,
the child forked for `b` reads from the pipe number 0 (its descriptor 0 is the
read end when it calls `execvp`), and it was forked while the shell still held
descriptor 4 open on the write end of that pipe. -/
theorem write_end_held_at_next_fork :
    ∃ s', shell_line (fun _ => char_ptr.null) "a | b".toList fresh_shell = .ok s' ∧
      ∃ ch ∈ children s'.log, fd_get ch.at_exec 0 = some (file_t.pipe_read 0) ∧
        fd_get ch.at_fork 4 = some (file_t.pipe_write 0) :=
  ⟨_, rfl, by decide⟩

/-- C21, amended: for every valid line run by a shell whose descriptor 0 is open,
the shell closes the write end of a pipe only after it has forked the next
child: every child after the first is forked while the shell still holds both
ends of the pipe that child reads from; the child closes its copy of the write
end before it calls `execvp` (where its descriptor 0 is the read end, unless its
command has an input file), and when the pipeline has been run the shell has
the descriptors it had before, so it has closed the write end as well. -/
theorem write_end_closed_after_next_fork (infile : command_t → char_ptr) (line : List Char)
    (p : parser_t) (h : parse line = .ok p) (hv : p.root.valid ≠ 0) (s : shell_t)
    (h0 : fd_get s.fds 0 ≠ none) :
    ∃ s' new, shell_line infile line s = .ok s' ∧ children s'.log = children s.log ++ new ∧
      new.map (fun ch => ch.command) = commands p ∧
      (∀ ch ∈ new.tail, forked_with_source infile ch) ∧
      ∀ fd, fd_get s'.fds fd = fd_get s.fds fd := by
  obtain ⟨hch, _⟩ := parse_valid_chain line p h hv
  obtain ⟨new, h1, _, h3⟩ := stages_run_handover infile _ _ _ hch (loop_entry s)
    (loop_entry_piped s) h0
  have h4 := (stages_run_log infile _ _ _ hch (loop_entry s)).2
  refine ⟨_, new, shell_line_valid infile line p h hv s, ?_, ?_, h3, ?_⟩
  · rw [(final_close_log _).2, h1]
    rfl
  · rw [h1, List.map_append] at h4
    exact List.append_cancel_left h4
  · exact final_close_tracks s.fds _
      (stages_run_tracks infile s.fds _ (loop_entry s) (loop_entry_piped s)
        (loop_entry_tracks s h0))

theorem write_end_closed_after_next_fork_witness :
    ∃ p, parse "a | b > f | c".toList = .ok p ∧ p.root.valid ≠ 0 ∧
      fd_get fresh_shell.fds 0 ≠ none ∧
      ∃ s' new, shell_line (fun _ => char_ptr.null) "a | b > f | c".toList fresh_shell =
          .ok s' ∧
        children s'.log = children fresh_shell.log ++ new ∧
        new.map (fun ch => ch.command) = commands p ∧
        (∀ ch ∈ new.tail, forked_with_source (fun _ => char_ptr.null) ch) ∧
        ∀ fd, fd_get s'.fds fd = fd_get fresh_shell.fds fd :=
  ⟨_, rfl, by decide, by decide,
    write_end_closed_after_next_fork (fun _ => char_ptr.null) "a | b > f | c".toList _ rfl
      (by decide) fresh_shell (by decide)⟩

end Shell
